import Mathlib

/-! Ambari web: `App.WizardStep2Controller` (wizard/step2_controller.js)

A shallow embedding of the host-entry step of the install wizard: the range
pattern expander (`parseHostNamesAsPatternExpression`), the batch processing
(`updateHostNameArr`, `isAllHostNamesValid`), the submit decision flow
(`evaluateStep`) and the launch step (`proceedNext`).

Conventions of the embedding.

* A JavaScript string is a `List Char` (`Str`).  All characters the code
  inspects (white space, digits, brackets, the dash) are single code units.
* A JavaScript number that holds a host index is a `Num`: a double that holds an
  integer, or an infinity; `NaN` is `none`. Integers are rounded to doubles where the
  code computes them (`parseInt`, `+ 1`, `i++`).
* `parseInt` without a radix follows ECMAScript 5 (a leading `0` is decimal).
* Indexing `null` raises a `TypeError`, and a `for` loop whose index stops advancing
  never ends; an operation that can reach either returns an `Option`, `none` being
  the call that does not return. Limits of memory and of array length are left out.
* Collaborators that live outside this file of the repository
  (`validator.isHostname`, `App.Host.find()`, `App.skipBootstrap`,
  `launchBootstrap`) are fields of `Env`.
* Calls to collaborators and dialogs are appended to the `log` of the state.
-/

namespace Step2

/-- A JavaScript string. -/
abbrev Str := List Char

/-! ## Regular expressions and string primitives used by the controller -/

/-- The class `\s` (and the set stripped by `String.prototype.trim`): WhiteSpace and
LineTerminator of ECMAScript 5, with the space separators of current Unicode (U+180E is
not one of them). -/
def isJsSpace (c : Char) : Bool :=
  let n := c.toNat
  n = 9 || n = 10 || n = 11 || n = 12 || n = 13 || n = 32 || n = 160 || n = 5760 ||
  (8192 ≤ n && n ≤ 8202) || n = 8232 || n = 8233 || n = 8239 || n = 8287 || n = 12288 ||
  n = 65279

/-- The class `\d`. -/
def isDigit (c : Char) : Bool := 48 ≤ c.toNat && c.toNat ≤ 57

/-- The method `String.prototype.trim`. -/
def trim (s : Str) : Str :=
  ((s.dropWhile isJsSpace).reverse.dropWhile isJsSpace).reverse

/-- The loop of `split` for the separator `/\s+/`: `cur` holds (reversed) the
characters since the end of the last separator, `inSep` tells that the previous
character belonged to a separator match. -/
def splitGo : Str → Str → Bool → List Str
  | [], cur, _ => [cur.reverse]
  | c :: cs, cur, inSep =>
    if isJsSpace c then
      if inSep then splitGo cs [] true else cur.reverse :: splitGo cs [] true
    else splitGo cs (c :: cur) false

/-- The call `s.split(new RegExp("\\s+", "g"))`. The empty string gives `[""]`. -/
def splitWs (s : Str) : List Str := splitGo s [] false

/-- A match of `/\[\d*\-\d*\]/` anchored at the head of the string: the two digit
runs and the text after the closing bracket. -/
def bracketHere : Str → Option (Str × Str × Str)
  | '[' :: r =>
    match r.dropWhile isDigit with
    | '-' :: r2 =>
      match r2.dropWhile isDigit with
      | ']' :: q => some (r.takeWhile isDigit, r2.takeWhile isDigit, q)
      | _ => none
    | _ => none
  | _ => none

/-- The leftmost match of `/\[\d*\-\d*\]/`: text before the match, the two digit
runs, text after the match. -/
def findBracket : Str → Option (Str × Str × Str × Str)
  | [] => none
  | c :: cs =>
    match bracketHere (c :: cs) with
    | some (s, e, q) => some ([], s, e, q)
    | none =>
      match findBracket cs with
      | some (p, s, e, q) => some (c :: p, s, e, q)
      | none => none

/-- The test `/\[\d*\-\d*\]/.test(a)`. -/
def testBracket (a : Str) : Bool := (findBracket a).isSome

/-- The call `a.replace(/\[\d*\-\d*\]/, r)` for a replacement text `r` without `$`. -/
def replaceBracket (a r : Str) : Str :=
  match findBracket a with
  | some (p, _, _, q) => p ++ r ++ q
  | none => a

/-- The call `a.match(/\[\d*/)`: the matched text (element `0` of the result) or `null`. -/
def matchStart : Str → Option Str
  | [] => none
  | c :: cs => if c = '[' then some ('[' :: cs.takeWhile isDigit) else matchStart cs

/-- The call `a.match(/\-\d*]/)`: the matched text (element `0` of the result) or `null`. -/
def matchEnd : Str → Option Str
  | [] => none
  | c :: cs =>
    if c = '-' then
      match cs.dropWhile isDigit with
      | ']' :: _ => some ('-' :: (cs.takeWhile isDigit ++ [']']))
      | _ => matchEnd cs
    else matchEnd cs

/-- The text `start.match(/0*/)[0]`: the run of zeros at the head of the string. -/
def matchZeros (s : Str) : Str := s.takeWhile (fun c => c = '0')

/-- Value of a decimal digit. -/
def digitVal (c : Char) : Nat := c.toNat - 48

/-- Value of a hexadecimal digit, if it is one. -/
def hexVal (c : Char) : Option Nat :=
  let n := c.toNat
  if 48 ≤ n && n ≤ 57 then some (n - 48)
  else if 97 ≤ n && n ≤ 102 then some (n - 87)
  else if 65 ≤ n && n ≤ 70 then some (n - 55)
  else none

/-- Decimal value of a string of digits, most significant first. -/
def decValue (s : Str) : Nat := s.foldl (fun acc c => 10 * acc + digitVal c) 0

/-- Value of a string of hexadecimal digits, most significant first. -/
def hexValue (s : Str) : Nat := s.foldl (fun acc c => 16 * acc + (hexVal c).getD 0) 0

/-- The sign read by `parseInt` and the text after it. -/
def readSign : Str → Int × Str
  | '-' :: r => (-1, r)
  | '+' :: r => (1, r)
  | r => (1, r)

/-! ## Number values

The range expander computes with Number values, which are doubles.  Every Number it
meets holds an integer or is an infinity or `NaN`; `NaN` is the `none` of an
`Option Num`. -/

/-- An integral Number value, or an infinity. -/
inductive Num where
  | fin (v : Int)
  | posInf
  | negInf
  deriving DecidableEq, Repr

/-- The number of binary digits of `n`, counted in at most `fuel` halvings. -/
def bitLengthAux : Nat → Nat → Nat
  | 0, _ => 0
  | fuel + 1, n => if n = 0 then 0 else bitLengthAux fuel (n / 2) + 1

/-- The number of binary digits of a natural number (none for `0`). -/
def bitLength (n : Nat) : Nat := bitLengthAux n n

/-- The double nearest to a natural number, ties to the even mantissa; `none` when the
result is `Infinity`. Below `2 ^ 53` every integer is a double; from there a double has
a mantissa `m` of 53 binary digits and an exponent `k`, and it is finite while it has at
most 1024 binary digits. -/
def roundNat (n : Nat) : Option Nat :=
  if n < 2 ^ 53 then some n
  else
    let k := bitLength n - 53
    let m := n / 2 ^ k
    let r := n % 2 ^ k
    let m' := if 2 ^ k < 2 * r ∨ (2 * r = 2 ^ k ∧ m % 2 = 1) then m + 1 else m
    if bitLength (m' * 2 ^ k) ≤ 1024 then some (m' * 2 ^ k) else none

/-- The natural numbers that are doubles: those below `2 ^ 53`, and those of at most
1024 binary digits of which all but the leading 53 are zero. -/
def IsDouble (v : Nat) : Prop :=
  v < 2 ^ 53 ∨ (2 ^ (bitLength v - 53) ∣ v ∧ bitLength v ≤ 1024)

/-- The Number value of a mathematical integer. -/
def Num.ofInt (z : Int) : Num :=
  if 0 ≤ z then
    match roundNat z.toNat with
    | some v => Num.fin v
    | none => Num.posInf
  else
    match roundNat (-z).toNat with
    | some v => Num.fin (-(v : Int))
    | none => Num.negInf

/-- The sum `x + 1` (also the value of `x` after `x++`). -/
def Num.addOne : Num → Num
  | Num.fin v => Num.ofInt (v + 1)
  | Num.posInf => Num.posInf
  | Num.negInf => Num.negInf

/-- The comparison `x < y`. -/
def Num.lt : Num → Num → Bool
  | Num.fin a, Num.fin b => decide (a < b)
  | Num.fin _, Num.posInf => true
  | Num.negInf, Num.fin _ => true
  | Num.negInf, Num.posInf => true
  | _, _ => false

/-- The comparison `x <= y`. -/
def Num.le : Num → Num → Bool
  | Num.fin a, Num.fin b => decide (a ≤ b)
  | Num.fin _, Num.posInf => true
  | Num.posInf, Num.posInf => true
  | Num.negInf, _ => true
  | _, _ => false

/-- The call `parseInt(s, 10)`; `none` is `NaN`. The mathematical value of the digits is
rounded to a Number (the leave to neglect the digits after the twentieth is not
taken). -/
def parseInt10 (s : Str) : Option Num :=
  let (sign, r) := readSign (s.dropWhile isJsSpace)
  let z := r.takeWhile isDigit
  if z.isEmpty then none else some (Num.ofInt (sign * (decValue z : Int)))

/-- The call `parseInt(s)`: radix 16 after a `0x`/`0X` prefix, radix 10 otherwise. -/
def parseInt (s : Str) : Option Num :=
  let (sign, r) := readSign (s.dropWhile isJsSpace)
  match r with
  | '0' :: x :: h =>
    if x = 'x' ∨ x = 'X' then
      let z := h.takeWhile (fun c => (hexVal c).isSome)
      if z.isEmpty then none else some (Num.ofInt (sign * (hexValue z : Int)))
    else
      let z := r.takeWhile isDigit
      if z.isEmpty then none else some (Num.ofInt (sign * (decValue z : Int)))
  | _ =>
    let z := r.takeWhile isDigit
    if z.isEmpty then none else some (Num.ofInt (sign * (decValue z : Int)))

/-- The decimal digits of a natural number. -/
def decimalDigits (n : Nat) : Str := Nat.toDigits 10 n

/-- For a decimal of `n` places with `k` significant digits: the digits `s` for which
`s × 10^(n-k)` is a Number text of `v`, the nearest to `v` (the even one of two equally
near), if there are any. -/
def shortestAt (v n k : Nat) : Option Nat :=
  let p := 10 ^ (n - k)
  let c := v / p
  let ok := fun s =>
    decide (10 ^ (k - 1) ≤ s) && decide (s < 10 ^ k) && (roundNat (s * p) == some v)
  if ok c && ok (c + 1) then
    if v - c * p < (c + 1) * p - v then some c
    else if (c + 1) * p - v < v - c * p then some (c + 1)
    else if c % 2 = 0 then some c else some (c + 1)
  else if ok c then some c
  else if ok (c + 1) then some (c + 1)
  else none

/-- The search for the least number `k` of significant digits, from `k` upwards. -/
def shortestFrom (v n : Nat) : Nat → Nat → Nat × Nat
  | 0, _ => (v, n)
  | fuel + 1, k =>
    match shortestAt v n k with
    | some s => (s, k)
    | none => shortestFrom v n fuel (k + 1)

/-- The text of a positive integral Number `v` that is not below `2 ^ 53`: the fewest
significant digits that identify `v`, followed by zeros up to 21 places and written
with an exponent beyond. -/
def largeToString (v : Nat) : Str :=
  let n0 := (decimalDigits v).length
  let snk : Nat × Nat × Nat :=
    if roundNat (10 ^ n0) = some v then (1, n0 + 1, 1)
    else
      let r := shortestFrom v n0 n0 1
      (r.1, n0, r.2)
  let s := snk.1
  let n := snk.2.1
  let k := snk.2.2
  if n ≤ 21 then decimalDigits s ++ List.replicate (n - k) '0'
  else if k = 1 then decimalDigits s ++ "e+".toList ++ decimalDigits (n - 1)
  else
    (decimalDigits s).take 1 ++ '.' :: ((decimalDigits s).drop 1 ++ "e+".toList ++
      decimalDigits (n - 1))

/-- The text of a natural Number value: below `2 ^ 53` every integer is a Number, so the
digits that identify it are its decimal digits. -/
def natToString (v : Nat) : Str :=
  if v < 2 ^ 53 then decimalDigits v else largeToString v

/-- The text `i.toString()` of a Number value. -/
def numToString : Num → Str
  | Num.fin v => if v < 0 then '-' :: natToString (-v).toNat else natToString v.toNat
  | Num.posInf => "Infinity".toList
  | Num.negInf => "-Infinity".toList

/-- The comparison `a <= b` on numbers: false when either side is `NaN`. -/
def jsLe : Option Num → Option Num → Bool
  | some a, some b => Num.le a b
  | _, _ => false

/-- The comparison `a >= 0` on numbers: false for `NaN`. -/
def jsNonneg : Option Num → Bool
  | some a => Num.le (Num.fin 0) a
  | none => false

/-! ## `parseHostNamesAsPatternExpression` -/

/-- The numeral pushed for index `i`:
`extra[0].substring(0, start.length - i.toString().length) + i`. -/
def numeral (extra start : Str) (i : Num) : Str :=
  extra.take (start.length - (numToString i).length) ++ numToString i

/-- The `for` loop over `i`, run for at most `fuel + 1` tests of `i < bound`: `none`
when the rounds allowed are used up before the test fails. -/
def expandRounds (a extra start : Str) : Nat → Num → Num → List Str → Option (List Str)
  | 0, i, bound, acc => if Num.lt i bound then none else some acc
  | fuel + 1, i, bound, acc =>
    if Num.lt i bound then
      expandRounds a extra start fuel (Num.addOne i) bound
        (acc ++ [replaceBracket a (numeral extra start i)])
    else some acc

/-- A number of rounds that no loop which ends exceeds: a round leaves `i` as it is
(and then the loop never ends) or raises it by at least one. That these rounds suffice
is the theorem `expandLoop_none_never_ends`. -/
def roundsBound : Num → Num → Nat
  | Num.fin l, Num.fin b => (b - l).toNat
  | _, _ => 0

/-- The `for` loop over `i`, from `lo` while `i < hi + 1`: the names pushed, or `none`
when the loop never ends. -/
def expandLoop (a extra start : Str) (lo hi : Num) : Option (List Str) :=
  expandRounds a extra start (roundsBound lo (Num.addOne hi)) lo (Num.addOne hi) []

/-- The text `extra[0]` for a start text: `""`, or the run of zeros at the head of
`start` when `start[0] == "0" && start.length > 1`. -/
def extraOf (start : Str) : Str :=
  if start.head? = some '0' ∧ start.length > 1 then matchZeros start else []

/-- The callback of `$.each`: the names pushed for the token `a` and whether the
callback sets `isPattern`. `none` is the `TypeError` of indexing a `null` match, or a
loop that never ends. -/
def expandToken (a : Str) : Option (List Str × Bool) :=
  if testBracket a then
    match matchStart a, matchEnd a with
    | some m1, some m2 =>
      let start := m1.drop 1
      let end_ := m2.drop 1
      if jsLe (parseInt start) (parseInt10 end_) && jsNonneg (parseInt10 start) then
        match parseInt10 start, parseInt10 end_ with
        | some lo, some hi =>
          match expandLoop a (extraOf start) start lo hi with
          | some names => some (names, true)
          | none => none
        | _, _ => some ([], true)
      else some ([a], false)
    | _, _ => none
  else some ([a], false)

/-- The `$.each` over `hostNameArr`, threading the accumulated `hostNames` and
the `isPattern` flag. -/
def parseLoop : List Str → List Str → Bool → Option (List Str × Bool)
  | [], acc, flag => some (acc, flag)
  | a :: rest, acc, flag =>
    match expandToken a with
    | some (names, isPat) => parseLoop rest (acc ++ names) (flag || isPat)
    | none => none

/-! ## Controller state and collaborators -/

/-- A value returned by a collaborator as request id (objects are left out). -/
inductive JsVal where
  | undefined
  | null
  | bool (b : Bool)
  | num (n : Int)
  | nan
  | str (s : Str)
  deriving DecidableEq, Repr

/-- Truthiness (`ToBoolean`). -/
def JsVal.truthy : JsVal → Bool
  | .undefined => false
  | .null => false
  | .bool b => b
  | .num n => decide (n ≠ 0)
  | .nan => false
  | .str s => !s.isEmpty

/-- The comparison `v == '0'` (abstract equality with the string `"0"`). -/
def JsVal.looseEqZeroStr : JsVal → Bool
  | .undefined => false
  | .null => false
  | .bool b => !b
  | .num n => decide (n = 0)
  | .nan => false
  | .str s => decide (s = ['0'])

/-- The messages of `Em.I18n.t` the controller stores (all are non-empty texts). -/
inductive Msg where
  | hostNameRequired
  | hostNameAlreadyInstalled
  | sshKeyRequired
  | sshUserRequired
  deriving DecidableEq, Repr

/-- The record `getHostInfo` builds for one host. -/
structure HostRecord where
  name : Str
  installType : Str
  bootStatus : Str
  deriving DecidableEq, Repr

/-- The object `content.installOptions`, as far as the controller reads or writes it. -/
structure InstallOptions where
  hostNames : Str
  manualInstall : Bool
  sshKey : Str
  sshUser : Str
  bootRequestId : JsVal
  deriving DecidableEq, Repr

/-- Calls that leave the controller, in the order they are made, and the entry of
`proceedNext`. -/
inductive Event where
  | enterProceedNext (warningConfirmed : Bool)
  | hostNamePatternPopup (items : List Str)
  | installedHostsPopup (names : Str)
  | warningPopup (names : Str)
  | manualInstallPopup
  | launchBootstrap (bootStrapData : Str)
  | registerErrPopup
  | ajaxAmbariService
  | routerNext
  deriving DecidableEq, Repr

/-- The fields of `App.WizardStep2Controller` together with `content`. -/
structure Controller where
  hostNameArr : List Str
  isPattern : Bool
  hasSubmitted : Bool
  inputtedAgainHostNames : List Str
  invalidHostNames : List Str
  hostsError : Option Msg
  installOptions : InstallOptions
  hosts : List (Str × HostRecord)
  log : List Event
  deriving DecidableEq, Repr

/-- The collaborators of the controller. -/
structure Env where
  /-- The list `App.Host.find().mapProperty('hostName')` -/
  installedHostNames : List Str
  /-- The predicate `validator.isHostname` -/
  isHostname : Str → Bool
  /-- The value `App.get('skipBootstrap')`, as a truth value -/
  skipBootstrap : Bool
  /-- The function `App.router.get(controllerName).launchBootstrap` -/
  launchBootstrap : Str → JsVal

/-- The method `Array.prototype.join` with the given separator. -/
def join (sep : Str) : List Str → Str
  | [] => []
  | [x] => x
  | x :: y :: rest => x ++ sep ++ join sep (y :: rest)

/-! ## Computed properties -/

/-- The computed property `installType`. -/
def installType (st : Controller) : Str :=
  if st.installOptions.manualInstall then "manualDriven".toList else "ambariDriven".toList

/-- The computed property `sshKeyError`. -/
def sshKeyError (st : Controller) : Option Msg :=
  if st.hasSubmitted && st.installOptions.manualInstall == false
      && (trim st.installOptions.sshKey).isEmpty then
    some Msg.sshKeyRequired
  else none

/-- The computed property `sshUserError`. -/
def sshUserError (st : Controller) : Option Msg :=
  if st.installOptions.manualInstall == false && (trim st.installOptions.sshUser).isEmpty then
    some Msg.sshUserRequired
  else none

/-- The computed property `isSubmitDisabled`, as a truth value. -/
def isSubmitDisabled (st : Controller) : Bool :=
  st.hostsError.isSome || (sshKeyError st).isSome || (sshUserError st).isSome

/-! ## Batch processing -/

/-- The method `parseHostNamesAsPatternExpression`. -/
def parseHostNamesAsPatternExpression (st : Controller) : Option Controller :=
  let st1 := { st with isPattern := false }
  match parseLoop st1.hostNameArr [] st1.isPattern with
  | some (hostNames, flag) => some { st1 with isPattern := flag, hostNameArr := hostNames }
  | none => none

/-- The `for` loop of `updateHostNameArr`: `tempArr` and `inputtedAgainHostNames`. -/
def partitionLoop (installedHostNames : List Str) :
    List Str → List Str → List Str → List Str × List Str
  | [], tempArr, again => (tempArr, again)
  | h :: rest, tempArr, again =>
    if !installedHostNames.contains h then
      partitionLoop installedHostNames rest (tempArr ++ [h]) again
    else
      partitionLoop installedHostNames rest tempArr (again ++ [h])

/-- The method `updateHostNameArr`. -/
def updateHostNameArr (env : Env) (st : Controller) : Option Controller :=
  let st1 := { st with hostNameArr := splitWs (trim st.installOptions.hostNames) }
  match parseHostNamesAsPatternExpression st1 with
  | none => none
  | some st2 =>
    let st3 := { st2 with inputtedAgainHostNames := [] }
    let r := partitionLoop env.installedHostNames st3.hostNameArr [] st3.inputtedAgainHostNames
    some { st3 with inputtedAgainHostNames := r.2, hostNameArr := r.1 }

/-- The `forEach` of `isAllHostNamesValid`: `invalidHostNames` and `result`. -/
def validateLoop (isHostname : Str → Bool) : List Str → List Str → Bool → List Str × Bool
  | [], invalid, result => (invalid, result)
  | h :: rest, invalid, result =>
    if !isHostname h then validateLoop isHostname rest (invalid ++ [h]) false
    else validateLoop isHostname rest invalid result

/-- The method `isAllHostNamesValid`: the returned value and the state reached. -/
def isAllHostNamesValid (env : Env) (st : Controller) : Option (Bool × Controller) :=
  match updateHostNameArr env st with
  | none => none
  | some st1 =>
    let r := validateLoop env.isHostname st1.hostNameArr [] true
    some (r.2, { st1 with invalidHostNames := r.1 })

/-- The method `checkHostError`. -/
def checkHostError (st : Controller) : Controller :=
  if (trim st.installOptions.hostNames).isEmpty then
    { st with hostsError := some Msg.hostNameRequired }
  else
    { st with hostsError := none }

/-- The observer `checkHostAfterSubmitHandler`. -/
def checkHostAfterSubmitHandler (st : Controller) : Controller :=
  if st.hasSubmitted then checkHostError st else st

/-- The assignment `this.set('hasSubmitted', v)`: the observer of `hasSubmitted` runs on a change. -/
def setHasSubmitted (st : Controller) (v : Bool) : Controller :=
  if st.hasSubmitted = v then st
  else checkHostAfterSubmitHandler { st with hasSubmitted := v }

/-! ## Saving -/

/-- The property keys that are array indices: the canonical decimal texts of the
integers from `0` to `2 ^ 32 - 2`. -/
def isArrayIndex (k : Str) : Bool :=
  !k.isEmpty && k.all isDigit && (k.head? != some '0' || k.length == 1) &&
    decide (decValue k < 4294967295)

/-- The place of a new array-index key among the own properties: after the array
indices below it, before all other keys. -/
def insertIndex : List (Str × HostRecord) → Str → HostRecord → List (Str × HostRecord)
  | [], k, v => [(k, v)]
  | p :: rest, k, v =>
    if isArrayIndex p.1 && decide (decValue p.1 < decValue k) then p :: insertIndex rest k v
    else (k, v) :: p :: rest

/-- The assignment `hostInfo[k] = v` on a plain object whose values are objects, the
object being the list of its own properties in the order JavaScript enumerates them
(array indices in ascending order, then the other keys in the order of their creation):
an own property is created or overwritten, except that the key `__proto__` reaches the
inherited accessor and creates no own property. -/
def objSet (o : List (Str × HostRecord)) (k : Str) (v : HostRecord) : List (Str × HostRecord) :=
  if k = "__proto__".toList then o
  else if o.any (fun p => p.1 = k) then o.map (fun p => if p.1 = k then (k, v) else p)
  else if isArrayIndex k then insertIndex o k v
  else o ++ [(k, v)]

/-- The method `getHostInfo`: the own properties of the returned object, in the order
JavaScript enumerates them. -/
def getHostInfo (st : Controller) : List (Str × HostRecord) :=
  st.hostNameArr.foldl
    (fun hostInfo h =>
      objSet hostInfo h { name := h, installType := installType st, bootStatus := "PENDING".toList })
    []

/-- The method `saveHosts`. -/
def saveHosts (st : Controller) : Controller :=
  { st with hosts := getHostInfo st, log := st.log ++ [Event.ajaxAmbariService, Event.routerNext] }

/-! ## Dialogs -/

/-- The method `warningPopup`: the dialog is built with `invalidHostNames.join(', ')`. -/
def warningPopup (st : Controller) : Controller :=
  { st with log := st.log ++ [Event.warningPopup (join ", ".toList st.invalidHostNames)] }

/-- The method `installedHostsPopup`: the body shows `inputtedAgainHostNames.join(', ')`. -/
def installedHostsPopup (st : Controller) : Controller :=
  { st with
    log := st.log ++ [Event.installedHostsPopup (join ", ".toList st.inputtedAgainHostNames)] }

/-- The method `hostNamePatternPopup(hostNames)`. -/
def hostNamePatternPopup (st : Controller) (hostNames : List Str) : Controller :=
  { st with log := st.log ++ [Event.hostNamePatternPopup hostNames] }

/-- The method `manualInstallPopup`. -/
def manualInstallPopup (st : Controller) : Controller :=
  { st with log := st.log ++ [Event.manualInstallPopup] }

/-- The `onPrimary` callback of the dialog of `manualInstallPopup`. -/
def manualInstallPopupOnPrimary (st : Controller) : Controller := saveHosts st

/-! ## `JSON.stringify` of the bootstrap data -/

/-- Four lowercase hexadecimal digits. -/
def hex4 (n : Nat) : Str :=
  [Nat.digitChar (n / 4096 % 16), Nat.digitChar (n / 256 % 16),
   Nat.digitChar (n / 16 % 16), Nat.digitChar (n % 16)]

/-- The escape of one character inside a JSON string. -/
def jsonEscape (c : Char) : Str :=
  if c = '"' then ['\\', '"']
  else if c = '\\' then ['\\', '\\']
  else if c.toNat = 8 then ['\\', 'b']
  else if c.toNat = 12 then ['\\', 'f']
  else if c.toNat = 10 then ['\\', 'n']
  else if c.toNat = 13 then ['\\', 'r']
  else if c.toNat = 9 then ['\\', 't']
  else if c.toNat < 32 then '\\' :: 'u' :: hex4 c.toNat
  else [c]

/-- The text `JSON.stringify` gives for a string. -/
def jsonString (s : Str) : Str := '"' :: (s.flatMap jsonEscape ++ ['"'])

/-- The text `JSON.stringify` gives for an array of strings. -/
def jsonArray (xs : List Str) : Str := '[' :: (join [','] (xs.map jsonString) ++ [']'])

/-- The text
`JSON.stringify({'verbose': true, 'sshKey': sshKey, 'hosts': hostNameArr, 'user': sshUser})`. -/
def bootStrapData (st : Controller) : Str :=
  "\x7b\"verbose\":true,\"sshKey\":".toList ++ jsonString st.installOptions.sshKey ++
  ",\"hosts\":".toList ++ jsonArray st.hostNameArr ++
  ",\"user\":".toList ++ jsonString st.installOptions.sshUser ++ ['\x7d']

/-! ## The decision flow -/

/-- The method `proceedNext(warningConfirmed)`: the returned value and the state reached. -/
def proceedNext (env : Env) (st : Controller) (warningConfirmed : Bool) :
    Option (Bool × Controller) :=
  let st0 := { st with log := st.log ++ [Event.enterProceedNext warningConfirmed] }
  match isAllHostNamesValid env st0 with
  | none => none
  | some (valid, st1) =>
    if valid != true && !warningConfirmed then
      some (false, warningPopup st1)
    else if st1.installOptions.manualInstall == true then
      some (false, manualInstallPopup st1)
    else
      let data := bootStrapData st1
      if env.skipBootstrap then
        some (true, saveHosts st1)
      else
        let requestId := env.launchBootstrap data
        let st2 := { st1 with log := st1.log ++ [Event.launchBootstrap data] }
        if requestId.looseEqZeroStr then
          some (true, { st2 with log := st2.log ++ [Event.registerErrPopup] })
        else if requestId.truthy then
          some (true,
            saveHosts { st2 with installOptions := { st2.installOptions with bootRequestId := requestId } })
        else
          some (true, st2)

/-- The method `evaluateStep`: the returned value and the state reached. -/
def evaluateStep (env : Env) (st : Controller) : Option (Bool × Controller) :=
  if isSubmitDisabled st then some (false, st)
  else
    let st1 := checkHostError (setHasSubmitted st true)
    if st1.hostsError.isSome || (sshUserError st1).isSome || (sshKeyError st1).isSome then
      some (false, st1)
    else
      match updateHostNameArr env st1 with
      | none => none
      | some st2 =>
        if st2.hostNameArr.length = 0 then
          some (false, { st2 with hostsError := some Msg.hostNameAlreadyInstalled })
        else if st2.isPattern then
          some (false, hostNamePatternPopup st2 st2.hostNameArr)
        else if st2.inputtedAgainHostNames.length ≠ 0 then
          some (true, installedHostsPopup st2)
        else
          match proceedNext env st2 false with
          | none => none
          | some (_, st3) => some (true, st3)

/-- The `onPrimary` callback of the dialog of `warningPopup`. -/
def warningPopupOnPrimary (env : Env) (st : Controller) : Option Controller :=
  (proceedNext env st true).map Prod.snd

/-- The `onPrimary` callback of the dialog of `installedHostsPopup`. -/
def installedHostsPopupOnPrimary (env : Env) (st : Controller) : Option Controller :=
  (proceedNext env st false).map Prod.snd

/-- The `onPrimary` callback of the dialog of `hostNamePatternPopup`. -/
def hostNamePatternPopupOnPrimary (env : Env) (st : Controller) : Option Controller :=
  (proceedNext env st false).map Prod.snd

/-! ## Notions of the specification -/

/-- The token `P[s-e]Q`. -/
def rangeToken (P s e Q : Str) : Str := P ++ '[' :: (s ++ '-' :: (e ++ ']' :: Q))

/-- All characters of the text are decimal digits (the empty text included). -/
def AllDigits (s : Str) : Prop := ∀ c ∈ s, isDigit c = true

/-- The text contains a substring `[`, digits, `-`, digits, `]`. -/
def HasBracketGroup (a : Str) : Prop :=
  ∃ P s e Q, AllDigits s ∧ AllDigits e ∧ a = rangeToken P s e Q

/-- The text contains no substring `-`, digits, `]`. -/
def NoDashGroup (w : Str) : Prop :=
  ∀ x d y, AllDigits d → w ≠ x ++ '-' :: (d ++ ']' :: y)

/-- The tokens that are not range patterns: no bracket group at all, or a token
`P[s-e]Q` (`P` without bracket) whose `s` or `e` is empty or whose range is reversed,
the two numbers being compared as Number values. -/
def PassThrough (a : Str) : Prop :=
  ¬ HasBracketGroup a ∨
  ∃ P s e Q, (∀ c ∈ P, c ≠ '[' ∧ c ≠ ']') ∧ AllDigits s ∧ AllDigits e ∧
    (s = [] ∨ e = [] ∨
      Num.lt (Num.ofInt (decValue e : Int)) (Num.ofInt (decValue s : Int)) = true) ∧
    a = rangeToken P s e Q

/-- The end number that the callback reads from a token, the digits of the first
`-digits]` in it, is below `2 ^ 53`; a token without a `-digits]` has no end number. -/
def smallRange (a : Str) : Bool :=
  match matchEnd a with
  | some m => decide (decValue ((m.drop 1).takeWhile isDigit) < 2 ^ 53)
  | none => true

/-- The HostTokens of a raw input: its maximal substrings free of white space. -/
def specHostTokens (raw : Str) : List Str :=
  (raw.splitOnP isJsSpace).filter (fun t => !t.isEmpty)

/-- Every HostToken of the raw input has an end number below `2 ^ 53`, if it has one. -/
def SmallRanges (raw : Str) : Prop := ∀ a ∈ specHostTokens raw, smallRange a = true

/-! ## Example inputs -/

/-- The controller as created (all lists empty, nothing submitted) over the given
install options. -/
def initController (hostNames : Str) (manualInstall : Bool) : Controller :=
  { hostNameArr := [], isPattern := false, hasSubmitted := false,
    inputtedAgainHostNames := [], invalidHostNames := [], hostsError := none,
    installOptions :=
      { hostNames := hostNames, manualInstall := manualInstall, sshKey := "key".toList,
        sshUser := "root".toList, bootRequestId := JsVal.null },
    hosts := [], log := [] }

/-- A sample stand-in for `validator.isHostname`: letters, digits, dots and dashes. -/
def sampleIsHostname (h : Str) : Bool :=
  !h.isEmpty && h.all (fun c => c.isAlphanum || c = '.' || c = '-')

/-- Collaborators with the given registered hosts, `skipBootstrap` flag and request id. -/
def sampleEnv (installed : List Str) (skip : Bool) (token : JsVal) : Env :=
  { installedHostNames := installed, isHostname := sampleIsHostname, skipBootstrap := skip,
    launchBootstrap := fun _ => token }

/-! ## Reading JSON

A reader of JSON texts, written from the grammar of JSON and not from `JSON.stringify`:
it reads the compact texts (no white space) of objects whose members are `true`,
`false`, strings and arrays of strings. -/

/-- The values that occur as fields of the bootstrap payload. -/
inductive JsonValue where
  | bool (b : Bool)
  | string (s : Str)
  | strings (xs : List Str)
  deriving DecidableEq, Repr

/-- The character denoted by a two-character escape `\e` of a JSON string. -/
def readEscape (e : Char) : Option Char :=
  if e = '"' then some '"'
  else if e = '\\' then some '\\'
  else if e = '/' then some '/'
  else if e = 'b' then some (Char.ofNat 8)
  else if e = 'f' then some (Char.ofNat 12)
  else if e = 'n' then some (Char.ofNat 10)
  else if e = 'r' then some (Char.ofNat 13)
  else if e = 't' then some (Char.ofNat 9)
  else none

/-- The character denoted by the four hexadecimal digits of an escape `\uXXXX`
(surrogates are not read). -/
def readHex4 (a b c d : Char) : Option Char :=
  match hexVal a, hexVal b, hexVal c, hexVal d with
  | some x, some y, some z, some w =>
    let v := ((x * 16 + y) * 16 + z) * 16 + w
    if v < 55296 ∨ 57343 < v then some (Char.ofNat v) else none
  | _, _, _, _ => none

/-- Reads a JSON string from after its opening quote: the text it denotes and what
follows the closing quote. Control characters must be escaped. -/
def readChars : Str → Option (Str × Str)
  | [] => none
  | c :: rest =>
    if c = '"' then some ([], rest)
    else if c = '\\' then
      match rest with
      | [] => none
      | e :: rest1 =>
        if e = 'u' then
          match rest1 with
          | a :: b :: c :: d :: rest2 =>
            match readHex4 a b c d, readChars rest2 with
            | some x, some (s, r) => some (x :: s, r)
            | _, _ => none
          | _ => none
        else
          match readEscape e, readChars rest1 with
          | some x, some (s, r) => some (x :: s, r)
          | _, _ => none
    else if c.toNat < 32 then none
    else
      match readChars rest with
      | some (s, r) => some (c :: s, r)
      | none => none

/-- Reads a JSON string: the text it denotes and what follows it. -/
def readString : Str → Option (Str × Str)
  | [] => none
  | c :: rest => if c = '"' then readChars rest else none

/-- Reads the rest of a JSON array of strings after an element: a `]`, or a comma and
the next element, in at most `fuel` elements. -/
def readElems : Nat → Str → Option (List Str × Str)
  | 0, _ => none
  | _ + 1, [] => none
  | fuel + 1, c :: rest =>
    if c = ']' then some ([], rest)
    else if c = ',' then
      match readString rest with
      | some (s, r) =>
        match readElems fuel r with
        | some (xs, r') => some (s :: xs, r')
        | none => none
      | none => none
    else none

/-- Reads a JSON array of strings: its elements and what follows it. -/
def readArray : Str → Option (List Str × Str)
  | [] => none
  | c :: rest =>
    if c = '[' then
      match rest with
      | [] => none
      | d :: rest1 =>
        if d = ']' then some ([], rest1)
        else
          match readString rest with
          | some (s, r) =>
            match readElems (r.length + 1) r with
            | some (xs, r') => some (s :: xs, r')
            | none => none
          | none => none
    else none

/-- Reads a JSON value of the kinds that occur in the payload: `true`, `false`, a
string or an array of strings. -/
def readValue : Str → Option (JsonValue × Str)
  | 't' :: 'r' :: 'u' :: 'e' :: rest => some (JsonValue.bool true, rest)
  | 'f' :: 'a' :: 'l' :: 's' :: 'e' :: rest => some (JsonValue.bool false, rest)
  | '"' :: rest => (readChars rest).map (fun r => (JsonValue.string r.1, r.2))
  | '[' :: rest => (readArray ('[' :: rest)).map (fun r => (JsonValue.strings r.1, r.2))
  | _ => none

/-- Reads a member `"key":value` of a JSON object. -/
def readMember (t : Str) : Option ((Str × JsonValue) × Str) :=
  match readString t with
  | some (k, c :: rest) =>
    if c = ':' then (readValue rest).map (fun r => ((k, r.1), r.2)) else none
  | _ => none

/-- Reads the rest of a JSON object after a member: a closing brace, or a comma and the
next member, in at most `fuel` members. -/
def readMembers : Nat → Str → Option (List (Str × JsonValue) × Str)
  | 0, _ => none
  | _ + 1, [] => none
  | fuel + 1, c :: rest =>
    if c = '\x7d' then some ([], rest)
    else if c = ',' then
      match readMember rest with
      | some (m, r) =>
        match readMembers fuel r with
        | some (ms, r') => some (m :: ms, r')
        | none => none
      | none => none
    else none

/-- Reads a text that is one JSON object (without white space): its members in order. -/
def readObject : Str → Option (List (Str × JsonValue))
  | [] => none
  | c :: rest =>
    if c = '\x7b' then
      match rest with
      | [] => none
      | d :: rest1 =>
        if d = '\x7d' then (if rest1 = [] then some [] else none)
        else
          match readMember rest with
          | some (m, r) =>
            match readMembers (r.length + 1) r with
            | some (ms, []) => some (m :: ms)
            | _ => none
          | none => none
    else none

/-! ## Sequences of calls -/

/-- The user edits the form: `content.installOptions` is replaced, and the observer
`checkHostAfterSubmitHandler` runs when `hostNames` changed. -/
def editInstallOptions (st : Controller) (opts : InstallOptions) : Controller :=
  if opts.hostNames = st.installOptions.hostNames then { st with installOptions := opts }
  else checkHostAfterSubmitHandler { st with installOptions := opts }

/-- The states reached from a controller as created by edits of the form and calls of
`evaluateStep` and `proceedNext`, each with its own collaborators. -/
inductive Reachable : Controller → Prop where
  | init (opts : InstallOptions) :
      Reachable { initController [] false with installOptions := opts }
  | edit (st : Controller) (opts : InstallOptions) :
      Reachable st → Reachable (editInstallOptions st opts)
  | evaluateStep (env : Env) (st st' : Controller) (r : Bool) :
      Reachable st → evaluateStep env st = some (r, st') → Reachable st'
  | proceedNext (env : Env) (st st' : Controller) (wc r : Bool) :
      Reachable st → proceedNext env st wc = some (r, st') → Reachable st'

/-! # Theorems -/


/-! ## Characters -/

theorem isDigit_iff (c : Char) : isDigit c = true ↔ 48 ≤ c.toNat ∧ c.toNat ≤ 57 := by
  simp [isDigit]

theorem isDigit_ne_lbracket {c : Char} (h : isDigit c = true) : c ≠ '[' := by
  intro hc; subst hc; revert h; decide

theorem isDigit_ne_rbracket {c : Char} (h : isDigit c = true) : c ≠ ']' := by
  intro hc; subst hc; revert h; decide

theorem isDigit_ne_dash {c : Char} (h : isDigit c = true) : c ≠ '-' := by
  intro hc; subst hc; revert h; decide

theorem isDigit_ne_plus {c : Char} (h : isDigit c = true) : c ≠ '+' := by
  intro hc; subst hc; revert h; decide

theorem isDigit_ne_x {c : Char} (h : isDigit c = true) : c ≠ 'x' ∧ c ≠ 'X' := by
  constructor <;> (intro hc; subst hc; revert h; decide)

theorem isDigit_not_space {c : Char} (h : isDigit c = true) : isJsSpace c = false := by
  rw [isDigit_iff] at h
  simp only [isJsSpace, Bool.or_eq_false_iff, Bool.and_eq_false_iff, decide_eq_false_iff_not]
  omega


/-! ## Runs of digits -/

theorem takeWhile_digits (s r : Str) (x : Char) (hs : ∀ c ∈ s, isDigit c = true)
    (hx : isDigit x = false) : (s ++ x :: r).takeWhile isDigit = s := by
  induction s with
  | nil => simp [List.takeWhile, hx]
  | cons c t ih =>
    have hc := hs c (List.mem_cons_self _ _)
    rw [List.cons_append, List.takeWhile_cons, hc, ih (fun d hd => hs d (List.mem_cons_of_mem _ hd))]
    rfl

theorem dropWhile_digits (s r : Str) (x : Char) (hs : ∀ c ∈ s, isDigit c = true)
    (hx : isDigit x = false) : (s ++ x :: r).dropWhile isDigit = x :: r := by
  induction s with
  | nil => simp [List.dropWhile, hx]
  | cons c t ih =>
    have hc := hs c (List.mem_cons_self _ _)
    rw [List.cons_append, List.dropWhile_cons, hc]
    exact ih (fun d hd => hs d (List.mem_cons_of_mem _ hd))

theorem takeWhile_digits_all (s : Str) (hs : ∀ c ∈ s, isDigit c = true) :
    s.takeWhile isDigit = s := by
  induction s with
  | nil => rfl
  | cons c t ih =>
    rw [List.takeWhile_cons, hs c (List.mem_cons_self _ _),
      ih (fun d hd => hs d (List.mem_cons_of_mem _ hd))]
    rfl


/-! ## The three regular expressions on a token -/

theorem bracketHere_canon (s e Q : Str) (hs : ∀ c ∈ s, isDigit c = true)
    (he : ∀ c ∈ e, isDigit c = true) :
    bracketHere ('[' :: (s ++ '-' :: (e ++ ']' :: Q))) = some (s, e, Q) := by
  simp only [bracketHere, dropWhile_digits s _ '-' hs (by decide),
    takeWhile_digits s _ '-' hs (by decide), dropWhile_digits e _ ']' he (by decide),
    takeWhile_digits e _ ']' he (by decide)]

theorem bracketHere_none_of_ne (c : Char) (cs : Str) (h : c ≠ '[') :
    bracketHere (c :: cs) = none := by
  unfold bracketHere
  split
  · rename_i heq
    exact absurd (List.cons.inj heq).1 h
  · rfl

theorem findBracket_canon (P s e Q : Str) (hP : ∀ c ∈ P, c ≠ '[')
    (hs : ∀ c ∈ s, isDigit c = true) (he : ∀ c ∈ e, isDigit c = true) :
    findBracket (P ++ '[' :: (s ++ '-' :: (e ++ ']' :: Q))) = some (P, s, e, Q) := by
  induction P with
  | nil => simp only [List.nil_append, findBracket, bracketHere_canon s e Q hs he]
  | cons c t ih =>
    rw [List.cons_append, findBracket,
      bracketHere_none_of_ne c _ (hP c (List.mem_cons_self _ _)),
      ih (fun d hd => hP d (List.mem_cons_of_mem _ hd))]

theorem matchStart_canon (P s r : Str) (x : Char) (hP : ∀ c ∈ P, c ≠ '[')
    (hs : ∀ c ∈ s, isDigit c = true) (hx : isDigit x = false) :
    matchStart (P ++ '[' :: (s ++ x :: r)) = some ('[' :: s) := by
  induction P with
  | nil => simp [matchStart, takeWhile_digits s r x hs hx]
  | cons c t ih =>
    simp only [List.cons_append, matchStart, hP c (List.mem_cons_self _ _), if_false]
    exact ih (fun d hd => hP d (List.mem_cons_of_mem _ hd))

theorem matchEnd_skip (c : Char) (cs : Str)
    (h : c = '-' → (cs.dropWhile isDigit).head? ≠ some ']') :
    matchEnd (c :: cs) = matchEnd cs := by
  rw [matchEnd]
  split_ifs with hc
  · split
    · rename_i heq
      exact absurd (by rw [heq]; rfl) (h hc)
    · rfl
  · rfl

theorem head_dropWhile_digits (P X : Str) (hP : ∀ c ∈ P, c ≠ ']') :
    ((P ++ '[' :: X).dropWhile isDigit).head? ≠ some ']' := by
  induction P with
  | nil =>
    rw [List.nil_append, List.dropWhile_cons, show isDigit '[' = false by decide]
    simp
  | cons c t ih =>
    rw [List.cons_append, List.dropWhile_cons]
    split_ifs with hc
    · exact ih (fun d hd => hP d (List.mem_cons_of_mem _ hd))
    · simpa using hP c (List.mem_cons_self _ _)

theorem matchEnd_digits (s r : Str) (hs : ∀ c ∈ s, isDigit c = true) :
    matchEnd (s ++ r) = matchEnd r := by
  induction s with
  | nil => rfl
  | cons c t ih =>
    rw [List.cons_append, matchEnd_skip c _
      (fun hc => absurd hc (isDigit_ne_dash (hs c (List.mem_cons_self _ _))))]
    exact ih (fun d hd => hs d (List.mem_cons_of_mem _ hd))

theorem matchEnd_here (e Q : Str) (he : ∀ c ∈ e, isDigit c = true) :
    matchEnd ('-' :: (e ++ ']' :: Q)) = some ('-' :: (e ++ [']'])) := by
  simp only [matchEnd, dropWhile_digits e Q ']' he (by decide),
    takeWhile_digits e Q ']' he (by decide), if_true]

theorem matchEnd_canon (P s e Q : Str) (hP : ∀ c ∈ P, c ≠ ']')
    (hs : ∀ c ∈ s, isDigit c = true) (he : ∀ c ∈ e, isDigit c = true) :
    matchEnd (P ++ '[' :: (s ++ '-' :: (e ++ ']' :: Q))) = some ('-' :: (e ++ [']'])) := by
  induction P with
  | nil =>
    rw [List.nil_append, matchEnd_skip '[' _ (fun hc => absurd hc (by decide)),
      matchEnd_digits s _ hs, matchEnd_here e Q he]
  | cons c t ih =>
    have ht : ∀ d ∈ t, d ≠ ']' := fun d hd => hP d (List.mem_cons_of_mem _ hd)
    rw [List.cons_append, matchEnd_skip c _ (fun _ => head_dropWhile_digits t _ ht)]
    exact ih ht

/-- Whenever the bracket test matches, the start expression matches too. -/
theorem matchStart_isSome_of_find (a : Str) (h : (findBracket a).isSome = true) :
    (matchStart a).isSome = true := by
  induction a with
  | nil => simp [findBracket] at h
  | cons c cs ih =>
    unfold matchStart
    split_ifs with hc
    · rfl
    · rw [findBracket, bracketHere_none_of_ne c cs hc] at h
      apply ih
      revert h
      cases findBracket cs <;> simp

theorem matchEnd_isSome_mono (c : Char) (cs : Str) (h : (matchEnd cs).isSome = true) :
    (matchEnd (c :: cs)).isSome = true := by
  rw [matchEnd]
  split_ifs
  · split
    · rfl
    · exact h
  · exact h

theorem matchEnd_isSome_of_here (a : Str) (h : (bracketHere a).isSome = true) :
    (matchEnd a).isSome = true := by
  unfold bracketHere at h
  split at h
  · rename_i r
    split at h
    · rename_i r2 h1
      split at h
      · rename_i q h2
        apply matchEnd_isSome_mono
        have hr : r = r.takeWhile isDigit ++ '-' :: r2 := by
          rw [← h1, List.takeWhile_append_dropWhile]
        rw [hr, matchEnd_digits _ _ (fun c hc => (List.mem_takeWhile_imp hc))]
        rw [matchEnd]
        simp [h2]
      · simp at h
    · simp at h
  · simp at h

/-- Whenever the bracket test matches, the end expression matches too. -/
theorem matchEnd_isSome_of_find (a : Str) (h : (findBracket a).isSome = true) :
    (matchEnd a).isSome = true := by
  induction a with
  | nil => simp [findBracket] at h
  | cons c cs ih =>
    rw [findBracket] at h
    cases hb : bracketHere (c :: cs) with
    | some r => exact matchEnd_isSome_of_here _ (by rw [hb]; rfl)
    | none =>
      rw [hb] at h
      apply matchEnd_isSome_mono
      apply ih
      revert h
      cases findBracket cs <;> simp

/-- A match of the start expression is a `[` followed by digits. -/
theorem matchStart_sound (a m : Str) (h : matchStart a = some m) :
    ∃ d, (∀ c ∈ d, isDigit c = true) ∧ m = '[' :: d := by
  induction a with
  | nil => simp [matchStart] at h
  | cons c cs ih =>
    rw [matchStart] at h
    split_ifs at h
    · refine ⟨cs.takeWhile isDigit, fun c hc => List.mem_takeWhile_imp hc, ?_⟩
      exact (Option.some.inj h).symm
    · exact ih h

/-- A match of the end expression is a `-`, digits and a `]`. -/
theorem matchEnd_sound (a m : Str) (h : matchEnd a = some m) :
    ∃ d, (∀ c ∈ d, isDigit c = true) ∧ m = '-' :: (d ++ [']']) := by
  induction a with
  | nil => simp [matchEnd] at h
  | cons c cs ih =>
    rw [matchEnd] at h
    split_ifs at h
    · split at h
      · refine ⟨cs.takeWhile isDigit, fun c hc => List.mem_takeWhile_imp hc, ?_⟩
        exact (Option.some.inj h).symm
      · exact ih h
    · exact ih h


/-! ## Decimal values and numerals -/

theorem decValue_foldl (s : Str) (acc : Nat) :
    s.foldl (fun acc c => 10 * acc + digitVal c) acc = acc * 10 ^ s.length + decValue s := by
  induction s generalizing acc with
  | nil => simp [decValue]
  | cons c t ih =>
    have h1 : decValue (c :: t) = (10 * 0 + digitVal c) * 10 ^ t.length + decValue t := ih _
    rw [List.foldl_cons, ih, h1, List.length_cons]
    ring

theorem decValue_nil : decValue [] = 0 := rfl

theorem decValue_cons (c : Char) (t : Str) :
    decValue (c :: t) = digitVal c * 10 ^ t.length + decValue t := by
  rw [decValue, List.foldl_cons, decValue_foldl]
  simp

theorem decValue_append (s t : Str) :
    decValue (s ++ t) = decValue s * 10 ^ t.length + decValue t := by
  rw [decValue, List.foldl_append, decValue_foldl]
  rfl

theorem decValue_zeros (z t : Str) (hz : ∀ c ∈ z, c = '0') : decValue (z ++ t) = decValue t := by
  induction z with
  | nil => rfl
  | cons c r ih =>
    have hc : c = '0' := hz c (List.mem_cons_self _ _)
    rw [List.cons_append, decValue_cons, ih (fun d hd => hz d (List.mem_cons_of_mem _ hd)), hc]
    simp [digitVal]

theorem digitChar_isDigit (d : Nat) (h : d < 10) : isDigit (Nat.digitChar d) = true := by
  interval_cases d <;> decide

theorem digitVal_digitChar (d : Nat) (h : d < 10) : digitVal (Nat.digitChar d) = d := by
  interval_cases d <;> decide

theorem toDigitsCore_acc (f n : Nat) (ds : List Char) :
    Nat.toDigitsCore 10 f n ds = Nat.toDigitsCore 10 f n [] ++ ds := by
  induction f generalizing n ds with
  | zero => simp [Nat.toDigitsCore]
  | succ f ih =>
    simp only [Nat.toDigitsCore]
    split_ifs
    · simp
    · rw [ih _ (_ :: ds), ih _ [_]]
      simp

theorem toDigitsCore_fuel (f g n : Nat) (hf : n < f) (hg : n < g) :
    Nat.toDigitsCore 10 f n [] = Nat.toDigitsCore 10 g n [] := by
  induction f generalizing g n with
  | zero => omega
  | succ f ih =>
    cases g with
    | zero => omega
    | succ g =>
      simp only [Nat.toDigitsCore]
      split_ifs with h0
      · rfl
      · rw [toDigitsCore_acc f, toDigitsCore_acc g, ih g (n / 10) (by omega) (by omega)]

theorem decimalDigits_lt (n : Nat) (h : n < 10) : decimalDigits n = [Nat.digitChar n] := by
  have h0 : n / 10 = 0 := by omega
  have h1 : n % 10 = n := by omega
  simp [decimalDigits, Nat.toDigits, Nat.toDigitsCore, h0, h1]

theorem decimalDigits_ge (n : Nat) (h : 10 ≤ n) :
    decimalDigits n = decimalDigits (n / 10) ++ [Nat.digitChar (n % 10)] := by
  have h0 : n / 10 ≠ 0 := by omega
  show Nat.toDigitsCore 10 (n + 1) n [] = Nat.toDigitsCore 10 (n / 10 + 1) (n / 10) [] ++ _
  conv_lhs => rw [Nat.toDigitsCore]
  simp only [h0, if_false]
  rw [toDigitsCore_acc, toDigitsCore_fuel n (n / 10 + 1) (n / 10) (by omega) (by omega)]

theorem decimalDigits_digits (n : Nat) : ∀ c ∈ decimalDigits n, isDigit c = true := by
  induction n using Nat.strong_induction_on with
  | _ n ih =>
    by_cases h : n < 10
    · rw [decimalDigits_lt n h]
      intro c hc
      rw [List.mem_singleton] at hc
      rw [hc]
      exact digitChar_isDigit n h
    · rw [decimalDigits_ge n (by omega)]
      intro c hc
      rcases List.mem_append.1 hc with hc | hc
      · exact ih (n / 10) (by omega) c hc
      · rw [List.mem_singleton] at hc
        rw [hc]
        exact digitChar_isDigit _ (Nat.mod_lt _ (by decide))

theorem decValue_decimalDigits (n : Nat) : decValue (decimalDigits n) = n := by
  induction n using Nat.strong_induction_on with
  | _ n ih =>
    by_cases h : n < 10
    · rw [decimalDigits_lt n h, decValue_cons, digitVal_digitChar n h]
      simp [decValue]
    · rw [decimalDigits_ge n (by omega), decValue_append, ih (n / 10) (by omega), decValue_cons,
        digitVal_digitChar _ (Nat.mod_lt _ (by decide))]
      simp only [List.length_singleton, List.length_nil, decValue, List.foldl_nil, pow_one,
        pow_zero]
      omega

theorem decimalDigits_ne_nil (n : Nat) : decimalDigits n ≠ [] := by
  by_cases h : n < 10
  · rw [decimalDigits_lt n h]; simp
  · rw [decimalDigits_ge n (by omega)]; simp

theorem decimalDigits_length_ge (k n : Nat) (h : 10 ^ k ≤ n) : k + 1 ≤ (decimalDigits n).length := by
  induction k generalizing n with
  | zero =>
    have := decimalDigits_ne_nil n
    cases hn : decimalDigits n with
    | nil => exact absurd hn this
    | cons c t => simp
  | succ k ih =>
    have h10 : 10 ≤ n := by
      calc 10 ≤ 10 ^ (k + 1) := by
            rw [pow_succ]; exact Nat.le_mul_of_pos_left _ (by positivity)
        _ ≤ n := h
    rw [decimalDigits_ge n h10, List.length_append, List.length_singleton]
    have : 10 ^ k ≤ n / 10 := by
      rw [Nat.le_div_iff_mul_le (by decide)]
      rw [pow_succ] at h
      exact h
    have := ih (n / 10) this
    omega

theorem decValue_lt_pow (s : Str) (hs : ∀ c ∈ s, isDigit c = true) :
    decValue s < 10 ^ s.length := by
  induction s using List.reverseRecOn with
  | nil => simp [decValue]
  | append_singleton t c ih =>
    have hc := (isDigit_iff c).1 (hs c (by simp))
    have := ih (fun d hd => hs d (by simp [hd]))
    rw [decValue_append, decValue_cons, List.length_append, pow_add]
    simp only [List.length_singleton, List.length_nil, decValue_nil, pow_one,
      pow_zero, digitVal]
    omega

theorem decValue_ge_pow (c : Char) (t : Str) (hc : isDigit c = true) (h0 : c ≠ '0') :
    10 ^ t.length ≤ decValue (c :: t) := by
  rw [decValue_cons]
  have hd : 1 ≤ digitVal c := by
    rw [isDigit_iff] at hc
    have : c.toNat ≠ 48 := by
      intro h
      apply h0
      have h2 : Char.ofNat c.toNat = c := Char.ofNat_toNat c
      rw [h] at h2
      exact h2.symm
    simp only [digitVal]
    omega
  calc 10 ^ t.length = 1 * 10 ^ t.length := by ring
    _ ≤ digitVal c * 10 ^ t.length := Nat.mul_le_mul_right _ hd
    _ ≤ _ := Nat.le_add_right _ _


/-! ## Number values below `2 ^ 53` -/

theorem roundNat_small (n : Nat) (h : n ≤ 2 ^ 53) : roundNat n = some n := by
  rcases Nat.lt_or_ge n (2 ^ 53) with h1 | h1
  · unfold roundNat
    rw [if_pos h1]
  · have : n = 2 ^ 53 := Nat.le_antisymm h h1
    subst this
    decide

theorem ofInt_small (n : Nat) (h : n ≤ 2 ^ 53) : Num.ofInt (n : Int) = Num.fin n := by
  unfold Num.ofInt
  rw [if_pos (Int.natCast_nonneg n), Int.toNat_ofNat, roundNat_small n h]

theorem addOne_small (n : Nat) (h : n < 2 ^ 53) :
    Num.addOne (Num.fin (n : Int)) = Num.fin ((n + 1 : Nat) : Int) := by
  have := ofInt_small (n + 1) h
  rw [Nat.cast_add, Nat.cast_one] at this
  show Num.ofInt ((n : Int) + 1) = _
  rw [this]
  norm_cast

theorem lt_fin (a b : Nat) : Num.lt (Num.fin (a : Int)) (Num.fin (b : Int)) = decide (a < b) := by
  unfold Num.lt
  simp

theorem le_fin (a b : Nat) : Num.le (Num.fin (a : Int)) (Num.fin (b : Int)) = decide (a ≤ b) := by
  unfold Num.le
  simp

theorem numToString_small (n : Nat) (h : n < 2 ^ 53) :
    numToString (Num.fin (n : Int)) = decimalDigits n := by
  show (if (n : Int) < 0 then '-' :: natToString (-(n : Int)).toNat
    else natToString (n : Int).toNat) = _
  rw [if_neg (by omega), Int.toNat_ofNat, natToString, if_pos h]

/-- At `2 ^ 53` adding one changes nothing: `2 ^ 53 + 1` is not a double. -/
theorem addOne_stuck : Num.addOne (Num.fin 9007199254740992) = Num.fin 9007199254740992 := by
  decide

/-- The text of some Numbers from `2 ^ 53` on: `2 ^ 53`, `2 ^ 53 + 2`, `2 ^ 64`,
`10 ^ 21`, `2 ^ 70` and the double nearest to `10 ^ 23`. -/
theorem numToString_examples :
    numToString (Num.ofInt 9007199254740992) = "9007199254740992".toList ∧
    numToString (Num.ofInt 9007199254740994) = "9007199254740994".toList ∧
    numToString (Num.ofInt 18446744073709551616) = "18446744073709552000".toList ∧
    numToString (Num.ofInt 1000000000000000000000) = "1e+21".toList ∧
    numToString (Num.ofInt 1180591620717411303424) = "1.1805916207174113e+21".toList ∧
    numToString (Num.ofInt 100000000000000000000000) = "1e+23".toList ∧
    Num.ofInt 9007199254740993 = Num.fin 9007199254740992 ∧
    Num.ofInt 9007199254740995 = Num.fin 9007199254740996 := by
  decide


/-! ## Rounding to a double -/

theorem bitLengthAux_spec : ∀ (fuel n : Nat), n ≤ fuel → n ≠ 0 →
    2 ^ (bitLengthAux fuel n - 1) ≤ n ∧ n < 2 ^ bitLengthAux fuel n := by
  intro fuel
  induction fuel with
  | zero =>
    intro n h h0
    omega
  | succ f ih =>
    intro n h h0
    rw [bitLengthAux, if_neg h0]
    by_cases h2 : n / 2 = 0
    · have h1 : n = 1 := by omega
      subst h1
      cases f <;> simp [bitLengthAux]
    · obtain ⟨ha, hb⟩ := ih (n / 2) (by omega) h2
      have hpos : 1 ≤ bitLengthAux f (n / 2) := by
        cases f with
        | zero => omega
        | succ g => rw [bitLengthAux, if_neg h2]; omega
      constructor
      · have : bitLengthAux f (n / 2) + 1 - 1 = (bitLengthAux f (n / 2) - 1) + 1 := by omega
        rw [this, pow_succ]
        omega
      · rw [pow_succ]
        omega

/-- A positive number of `b` binary digits lies between `2 ^ (b - 1)` and `2 ^ b`. -/
theorem bitLength_spec (n : Nat) (h0 : n ≠ 0) :
    2 ^ (bitLength n - 1) ≤ n ∧ n < 2 ^ bitLength n :=
  bitLengthAux_spec n n (Nat.le_refl n) h0

theorem bitLength_ge (n t : Nat) (h : 2 ^ t ≤ n) : t + 1 ≤ bitLength n := by
  have h0 : n ≠ 0 := by
    have : 0 < 2 ^ t := Nat.pow_pos (by decide)
    omega
  have h2 := (bitLength_spec n h0).2
  by_contra hc
  have hle : bitLength n ≤ t := by omega
  have := Nat.pow_le_pow_right (by decide : 0 < 2) hle
  omega

/-- A number that is not below `2 ^ 53` is not rounded below `2 ^ 53`. -/
theorem roundNat_ge (n w : Nat) (h : 2 ^ 53 ≤ n) (hw : roundNat n = some w) : 2 ^ 53 ≤ w := by
  unfold roundNat at hw
  rw [if_neg (by omega)] at hw
  simp only at hw
  have h0 : n ≠ 0 := by
    have : 0 < 2 ^ 53 := Nat.pow_pos (by decide)
    omega
  have hb := bitLength_ge n 53 h
  have hs := (bitLength_spec n h0).1
  obtain ⟨k, hk⟩ : ∃ k, bitLength n = 54 + k := ⟨bitLength n - 54, by omega⟩
  have hk53 : bitLength n - 53 = k + 1 := by omega
  have hk1 : bitLength n - 1 = 52 + (k + 1) := by omega
  rw [hk53] at hw
  rw [hk1, pow_add] at hs
  have hm : 2 ^ 52 ≤ n / 2 ^ (k + 1) := by
    rw [Nat.le_div_iff_mul_le (Nat.pow_pos (by decide))]
    exact hs
  have hp : 2 ≤ 2 ^ (k + 1) := by
    have := Nat.pow_le_pow_right (by decide : 0 < 2) (show 1 ≤ k + 1 by omega)
    simpa using this
  split_ifs at hw with h1 h2
  · have := Option.some.inj hw
    rw [← this]
    calc 2 ^ 53 = 2 ^ 52 * 2 := by norm_num
      _ ≤ (n / 2 ^ (k + 1) + 1) * 2 ^ (k + 1) := Nat.mul_le_mul (by omega) hp
  · have := Option.some.inj hw
    rw [← this]
    calc 2 ^ 53 = 2 ^ 52 * 2 := by norm_num
      _ ≤ (n / 2 ^ (k + 1)) * 2 ^ (k + 1) := Nat.mul_le_mul hm hp

theorem bitLength_le (n t : Nat) (h : n < 2 ^ t) : bitLength n ≤ t := by
  by_cases h0 : n = 0
  · subst h0
    simp [bitLength, bitLengthAux]
  · have h1 := (bitLength_spec n h0).1
    by_contra hc
    have hle : t ≤ bitLength n - 1 := by omega
    have := Nat.pow_le_pow_right (by decide : 0 < 2) hle
    omega

theorem bitLength_eq (n t : Nat) (h1 : 2 ^ t ≤ n) (h2 : n < 2 ^ (t + 1)) :
    bitLength n = t + 1 :=
  Nat.le_antisymm (bitLength_le n (t + 1) h2) (bitLength_ge n t h1)

/-- What a natural number is rounded to is a double. -/
theorem roundNat_isDouble (n w : Nat) (hw : roundNat n = some w) : IsDouble w := by
  unfold roundNat at hw
  by_cases hn : n < 2 ^ 53
  · rw [if_pos hn] at hw
    rw [← Option.some.inj hw]
    exact Or.inl hn
  · rw [if_neg hn] at hw
    simp only at hw
    have h0 : n ≠ 0 := by
      have : 0 < 2 ^ 53 := Nat.pow_pos (by decide)
      omega
    have hb := bitLength_ge n 53 (by omega)
    obtain ⟨hs1, hs2⟩ := bitLength_spec n h0
    obtain ⟨k, hk⟩ : ∃ k, bitLength n = 53 + k := ⟨bitLength n - 53, by omega⟩
    have hk53 : bitLength n - 53 = k := by omega
    have hk1 : bitLength n - 1 = 52 + k := by omega
    rw [hk53] at hw
    rw [hk1, pow_add] at hs1
    rw [hk, pow_add] at hs2
    have hpos : 0 < 2 ^ k := Nat.pow_pos (by decide)
    have hm1 : 2 ^ 52 ≤ n / 2 ^ k := by
      rw [Nat.le_div_iff_mul_le hpos]
      exact hs1
    have hm2 : n / 2 ^ k < 2 ^ 53 := by
      rw [Nat.div_lt_iff_lt_mul hpos]
      exact hs2
    have key : ∀ m', 2 ^ 52 ≤ m' → m' ≤ 2 ^ 53 → bitLength (m' * 2 ^ k) ≤ 1024 →
        IsDouble (m' * 2 ^ k) := by
      intro m' h1 h2 h3
      refine Or.inr ⟨?_, h3⟩
      by_cases h4 : m' < 2 ^ 53
      · have hbl : bitLength (m' * 2 ^ k) = (52 + k) + 1 := by
          apply bitLength_eq
          · rw [pow_add]
            exact Nat.mul_le_mul_right _ h1
          · have : 2 ^ (52 + k + 1) = 2 ^ 53 * 2 ^ k := by
              rw [show 52 + k + 1 = 53 + k by omega, pow_add]
            rw [this]
            exact Nat.mul_lt_mul_of_pos_right h4 hpos
        rw [hbl, show 52 + k + 1 - 53 = k by omega]
        exact Dvd.intro_left _ rfl
      · have hm : m' = 2 ^ 53 := by omega
        have hbl : bitLength (m' * 2 ^ k) = (53 + k) + 1 := by
          apply bitLength_eq
          · rw [hm, pow_add]
          · rw [hm, ← pow_add]
            exact Nat.pow_lt_pow_right (by decide) (by omega)
        rw [hbl, hm, ← pow_add]
        exact pow_dvd_pow 2 (by omega)
    split_ifs at hw with h1 h2
    · rw [← Option.some.inj hw]
      exact key _ (by omega) (by omega) h2
    · rw [← Option.some.inj hw]
      exact key _ hm1 (by omega) (by assumption)

/-- Adding one to a double and rounding gives a double that is not below it. -/
theorem roundNat_succ (v : Nat) (hv : IsDouble v) :
    ∃ w, roundNat (v + 1) = some w ∧ v ≤ w := by
  by_cases h1 : v + 1 < 2 ^ 53
  · exact ⟨v + 1, by unfold roundNat; rw [if_pos h1], by omega⟩
  · by_cases hv53 : v < 2 ^ 53
    · have hv' : v = 9007199254740991 := by
        have : (2 : Nat) ^ 53 = 9007199254740992 := by norm_num
        omega
      subst hv'
      exact ⟨9007199254740992, by decide, by decide⟩
    · rcases hv with hv | ⟨hdvd, hbl⟩
      · exact absurd hv hv53
      · have h0 : v ≠ 0 := by
          have : 0 < 2 ^ 53 := Nat.pow_pos (by decide)
          omega
        have hb := bitLength_ge v 53 (by omega)
        obtain ⟨hs1, hs2⟩ := bitLength_spec v h0
        obtain ⟨j, hj⟩ : ∃ j, bitLength v = 54 + j := ⟨bitLength v - 54, by omega⟩
        have hj53 : bitLength v - 53 = j + 1 := by omega
        rw [hj53] at hdvd
        obtain ⟨q, hq⟩ := hdvd
        have hp2 : 2 ≤ 2 ^ (j + 1) := by
          have := Nat.pow_le_pow_right (by decide : 0 < 2) (show 1 ≤ j + 1 by omega)
          simpa using this
        have hpos : 0 < 2 ^ (j + 1) := by omega
        have heven : v % 2 = 0 := by
          rw [hq, pow_succ]
          rw [Nat.mul_assoc, Nat.mul_comm, Nat.mul_assoc]
          exact Nat.mul_mod_right _ _
        have hbl1 : bitLength (v + 1) = 54 + j := by
          have hs1' : 2 ^ (53 + j) ≤ v + 1 := by
            rw [hj] at hs1
            have : 54 + j - 1 = 53 + j := by omega
            rw [this] at hs1
            omega
          have hs2' : v + 1 < 2 ^ (53 + j + 1) := by
            rw [hj] at hs2
            have : 54 + j = 53 + j + 1 := by omega
            rw [this] at hs2
            have hpe : 2 ^ (53 + j + 1) % 2 = 0 := by
              rw [pow_succ]
              exact Nat.mul_mod_left _ _
            omega
          rw [bitLength_eq (v + 1) (53 + j) hs1' hs2']
          omega
        have hdiv : (v + 1) / 2 ^ (j + 1) = q := by
          rw [hq, Nat.mul_add_div hpos, Nat.div_eq_of_lt (by omega)]
          rfl
        have hmod : (v + 1) % 2 ^ (j + 1) = 1 := by
          rw [hq, Nat.mul_add_mod, Nat.mod_eq_of_lt (by omega)]
        unfold roundNat
        rw [if_neg h1]
        simp only
        rw [hbl1, show 54 + j - 53 = j + 1 by omega, hdiv, hmod]
        split_ifs with hc hlen hlen
        · exact ⟨_, rfl, by rw [hq, Nat.mul_comm]; exact Nat.mul_le_mul_right _ (by omega)⟩
        · exfalso
          apply hlen
          rcases hc with hc | ⟨hc, _⟩
          · omega
          · have h2 : 2 ^ (j + 1) = 2 := by omega
            have hv2 : (q + 1) * 2 ^ (j + 1) = v + 2 := by
              calc (q + 1) * 2 ^ (j + 1) = 2 ^ (j + 1) * q + 2 ^ (j + 1) := by ring
                _ = v + 2 := by rw [← hq, h2]
            rw [hv2]
            have hj0 : j = 0 := by
              by_contra hne
              have := Nat.pow_le_pow_right (by decide : 0 < 2) (show 2 ≤ j + 1 by omega)
              have h4 : (2 : Nat) ^ 2 = 4 := by norm_num
              omega
            have hvlt : v < 2 ^ 54 := by
              rw [hj, hj0] at hs2
              exact hs2
            have hpe : (2 : Nat) ^ 54 % 2 = 0 := by norm_num
            have : v + 2 < 2 ^ 55 := by
              have h55 : (2 : Nat) ^ 55 = 2 ^ 54 * 2 := by norm_num
              omega
            exact le_trans (bitLength_le _ 55 this) (by decide)
        · exact ⟨_, rfl, by rw [hq, Nat.mul_comm]⟩
        · exfalso
          apply hlen
          rw [Nat.mul_comm, ← hq]
          exact hbl


/-! ## `parseInt` on the texts the expander extracts -/

theorem readSign_digit (c : Char) (t : Str) (hc : isDigit c = true) :
    readSign (c :: t) = (1, c :: t) := by
  unfold readSign
  split
  · rename_i heq
    exact absurd (List.cons.inj heq).1 (isDigit_ne_dash hc)
  · rename_i heq
    exact absurd (List.cons.inj heq).1 (isDigit_ne_plus hc)
  · rfl

theorem parseInt10_digits_append (s r : Str) (hs : ∀ c ∈ s, isDigit c = true) (hne : s ≠ [])
    (hr : (s ++ r).takeWhile isDigit = s) : parseInt10 (s ++ r) = some (Num.ofInt (decValue s : Int)) := by
  cases s with
  | nil => exact absurd rfl hne
  | cons c t =>
    have hc := hs c (List.mem_cons_self _ _)
    have hd : (c :: t ++ r).dropWhile isJsSpace = c :: t ++ r := by
      rw [List.cons_append, List.dropWhile_cons, isDigit_not_space hc]
      rfl
    unfold parseInt10
    rw [hd]
    rw [List.cons_append, readSign_digit c _ hc]
    rw [List.cons_append] at hr
    simp only [hr]
    simp

theorem parseInt10_digits (s : Str) (hs : ∀ c ∈ s, isDigit c = true) (hne : s ≠ []) :
    parseInt10 s = some (Num.ofInt (decValue s : Int)) := by
  have := parseInt10_digits_append s [] hs hne (by rw [List.append_nil]; exact takeWhile_digits_all s hs)
  rwa [List.append_nil] at this

theorem parseInt10_digits_rbracket (e : Str) (he : ∀ c ∈ e, isDigit c = true) (hne : e ≠ []) :
    parseInt10 (e ++ [']']) = some (Num.ofInt (decValue e : Int)) :=
  parseInt10_digits_append e [']'] he hne (takeWhile_digits e [] ']' he (by decide))

theorem parseInt_digits (s : Str) (hs : ∀ c ∈ s, isDigit c = true) (hne : s ≠ []) :
    parseInt s = some (Num.ofInt (decValue s : Int)) := by
  cases s with
  | nil => exact absurd rfl hne
  | cons c t =>
    have hc := hs c (List.mem_cons_self _ _)
    have hd : (c :: t).dropWhile isJsSpace = c :: t := by
      rw [List.dropWhile_cons, isDigit_not_space hc]
      rfl
    have ht := takeWhile_digits_all (c :: t) hs
    unfold parseInt
    rw [hd, readSign_digit c _ hc]
    simp only
    split
    · rename_i x h heq
      have hx : isDigit x = true := hs x (by rw [heq]; simp)
      have hxx := isDigit_ne_x hx
      simp only [hxx.1, hxx.2, or_self, if_false]
      rw [ht]
      simp
    · rw [ht]
      simp

theorem parseInt_nil : parseInt [] = none := rfl

theorem parseInt10_rbracket : parseInt10 [']'] = none := by decide


/-! ## The loop over `i` -/

theorem ofInt_nat_cases (n : Nat) :
    Num.ofInt (n : Int) = Num.posInf ∨ ∃ k : Nat, Num.ofInt (n : Int) = Num.fin (k : Int) := by
  unfold Num.ofInt
  rw [if_pos (Int.natCast_nonneg n)]
  cases roundNat (n : Int).toNat with
  | none => exact Or.inl rfl
  | some v => exact Or.inr ⟨v, rfl⟩

theorem le_eq_not_lt (a b : Num) : Num.le a b = !Num.lt b a := by
  cases a with
  | fin x =>
    cases b with
    | fin y =>
      show decide (x ≤ y) = !decide (y < x)
      by_cases h : x ≤ y
      · rw [decide_eq_true h, decide_eq_false (by omega)]
        rfl
      · rw [decide_eq_false h, decide_eq_true (by omega)]
        rfl
    | posInf => rfl
    | negInf => rfl
  | posInf => cases b <;> rfl
  | negInf => cases b <;> rfl

theorem roundsBound_fin (k B : Nat) : roundsBound (Num.fin (k : Int)) (Num.fin (B : Int)) = B - k := by
  show ((B : Int) - (k : Int)).toNat = B - k
  omega

/-- A loop that starts at `Infinity` pushes nothing. -/
theorem expandRounds_posInf (a extra start : Str) (fuel : Nat) (B : Int) (acc : List Str) :
    expandRounds a extra start fuel Num.posInf (Num.fin B) acc = some acc := by
  cases fuel <;> rfl

/-- Below `2 ^ 53` the loop pushes one name for every integer from `k` up to `B`. -/
theorem expandRounds_small (a extra start : Str) :
    ∀ (fuel k B : Nat) (acc : List Str), B ≤ 2 ^ 53 → B - k ≤ fuel →
      expandRounds a extra start fuel (Num.fin (k : Int)) (Num.fin (B : Int)) acc =
        some (acc ++ (List.range' k (B - k)).map
          (fun (j : Nat) => replaceBracket a (numeral extra start (Num.fin (j : Int))))) := by
  intro fuel
  induction fuel with
  | zero =>
    intro k B acc _ hf
    have hkB : ¬ k < B := by omega
    have h0 : B - k = 0 := by omega
    rw [expandRounds, lt_fin, decide_eq_false hkB, h0]
    simp
  | succ f ih =>
    intro k B acc hB hf
    rw [expandRounds, lt_fin]
    by_cases hkB : k < B
    · rw [decide_eq_true hkB, if_pos rfl, addOne_small k (by omega), ih (k + 1) B _ hB (by omega)]
      have h1 : B - k = (B - (k + 1)) + 1 := by omega
      rw [h1, List.range'_succ, List.map_cons, List.append_assoc]
      rfl
    · have h0 : B - k = 0 := by omega
      rw [decide_eq_false hkB, h0]
      simp

theorem expandLoop_small (a extra start : Str) (k h : Nat) (hh : h < 2 ^ 53) :
    expandLoop a extra start (Num.fin (k : Int)) (Num.fin (h : Int)) =
      some ((List.range' k (h + 1 - k)).map
        (fun (j : Nat) => replaceBracket a (numeral extra start (Num.fin (j : Int))))) := by
  unfold expandLoop
  rw [addOne_small h hh, roundsBound_fin, expandRounds_small a extra start _ k (h + 1) [] (by omega)
    (Nat.le_refl _)]
  rfl

/-- The loop ends whenever its end number is below `2 ^ 53` and it starts at a natural
number or at `Infinity`. -/
theorem expandLoop_returns (a extra start : Str) (n h : Nat) (hh : h < 2 ^ 53) :
    ∃ names, expandLoop a extra start (Num.ofInt (n : Int)) (Num.fin (h : Int)) = some names := by
  rcases ofInt_nat_cases n with h1 | ⟨k, h1⟩
  · rw [h1]
    unfold expandLoop
    rw [addOne_small h hh]
    exact ⟨_, expandRounds_posInf _ _ _ _ _ _⟩
  · rw [h1, expandLoop_small a extra start k h hh]
    exact ⟨_, rfl⟩

/-- Once the index is a number that adding one does not change, the loop never ends. -/
theorem expandRounds_stuck (a extra start : Str) (i bound : Num) (hlt : Num.lt i bound = true)
    (hst : Num.addOne i = i) :
    ∀ (fuel : Nat) (acc : List Str), expandRounds a extra start fuel i bound acc = none := by
  intro fuel
  induction fuel with
  | zero =>
    intro acc
    rw [expandRounds, if_pos hlt]
  | succ f ih =>
    intro acc
    rw [expandRounds, if_pos hlt, hst]
    exact ih _

/-! ## The rounds allowed suffice

The loop is run for `roundsBound` rounds. A loop that has not ended by then never ends:
each round leaves the index as it is, and then the loop is stuck, or raises it by at
least one. -/

theorem ofInt_nat_double (n : Nat) :
    Num.ofInt (n : Int) = Num.posInf ∨
      ∃ v : Nat, Num.ofInt (n : Int) = Num.fin (v : Int) ∧ IsDouble v := by
  unfold Num.ofInt
  rw [if_pos (Int.natCast_nonneg n), Int.toNat_ofNat]
  cases h : roundNat n with
  | none => exact Or.inl rfl
  | some v => exact Or.inr ⟨v, rfl, roundNat_isDouble n v h⟩

/-- Adding one to a double gives a double that is not below it, never `Infinity`. -/
theorem addOne_double (v : Nat) (hv : IsDouble v) :
    ∃ w : Nat, Num.addOne (Num.fin (v : Int)) = Num.fin (w : Int) ∧ v ≤ w ∧ IsDouble w := by
  obtain ⟨w, hw, hvw⟩ := roundNat_succ v hv
  refine ⟨w, ?_, hvw, roundNat_isDouble _ w hw⟩
  show Num.ofInt ((v : Int) + 1) = _
  have hc : ((v : Int) + 1) = ((v + 1 : Nat) : Int) := by push_cast; ring
  rw [hc]
  unfold Num.ofInt
  rw [if_pos (Int.natCast_nonneg _), Int.toNat_ofNat, hw]

theorem expandRounds_done (a extra start : Str) (fuel : Nat) (i bound : Num) (acc : List Str)
    (h : Num.lt i bound = false) : expandRounds a extra start fuel i bound acc = some acc := by
  cases fuel with
  | zero => rw [expandRounds, if_neg (by rw [h]; simp)]
  | succ f => rw [expandRounds, if_neg (by rw [h]; simp)]

/-- A loop whose bound is `Infinity` never ends when it starts at a double. -/
theorem expandRounds_bound_posInf (a extra start : Str) :
    ∀ (fuel v : Nat) (acc : List Str), IsDouble v →
      expandRounds a extra start fuel (Num.fin (v : Int)) Num.posInf acc = none := by
  intro fuel
  induction fuel with
  | zero =>
    intro v acc _
    rw [expandRounds, if_pos (show Num.lt (Num.fin (v : Int)) Num.posInf = true from rfl)]
  | succ f ih =>
    intro v acc hv
    obtain ⟨w, hw, _, hdw⟩ := addOne_double v hv
    rw [expandRounds, if_pos (show Num.lt (Num.fin (v : Int)) Num.posInf = true from rfl), hw]
    exact ih w _ hdw

/-- A loop that has not ended after `roundsBound` rounds never ends. -/
theorem expandRounds_never_ends (a extra start : Str) (b : Int) :
    ∀ (fuel v : Nat) (acc : List Str), IsDouble v →
      roundsBound (Num.fin (v : Int)) (Num.fin b) ≤ fuel →
      expandRounds a extra start fuel (Num.fin (v : Int)) (Num.fin b) acc = none →
      ∀ (fuel' : Nat) (acc' : List Str),
        expandRounds a extra start fuel' (Num.fin (v : Int)) (Num.fin b) acc' = none := by
  intro fuel
  induction fuel with
  | zero =>
    intro v acc _ hf h
    rw [expandRounds] at h
    split_ifs at h with hlt
    have hvb : (v : Int) < b := by simpa [Num.lt] using hlt
    have : (b - (v : Int)).toNat ≤ 0 := hf
    omega
  | succ f ih =>
    intro v acc hv hf h
    rw [expandRounds] at h
    split_ifs at h with hlt
    obtain ⟨w, hw, hvw, hdw⟩ := addOne_double v hv
    rw [hw] at h
    by_cases hst : w = v
    · rw [hst] at hw
      exact expandRounds_stuck a extra start _ _ hlt hw
    · have hf' : roundsBound (Num.fin (w : Int)) (Num.fin b) ≤ f := by
        have h1 : (b - (v : Int)).toNat ≤ f + 1 := hf
        show (b - (w : Int)).toNat ≤ f
        omega
      have hrec := ih w _ hdw hf' h
      intro fuel' acc'
      cases fuel' with
      | zero => rw [expandRounds, if_pos hlt]
      | succ g =>
        rw [expandRounds, if_pos hlt, hw]
        exact hrec g _

/-- The rounds allowed suffice: when the model of the `for` loop gives no result, the
loop gives none however many rounds it is run for. -/
theorem expandLoop_none_never_ends (a extra start : Str) (n : Nat) (hi : Num)
    (h : expandLoop a extra start (Num.ofInt (n : Int)) hi = none) :
    ∀ (fuel : Nat) (acc : List Str),
      expandRounds a extra start fuel (Num.ofInt (n : Int)) (Num.addOne hi) acc = none := by
  unfold expandLoop at h
  rcases ofInt_nat_double n with h1 | ⟨v, h1, hv⟩
  · rw [h1] at h
    rw [expandRounds_done _ _ _ _ _ _ _ (by cases Num.addOne hi <;> rfl)] at h
    exact absurd h (by simp)
  · rw [h1] at h ⊢
    cases hB : Num.addOne hi with
    | fin b =>
      rw [hB] at h
      exact expandRounds_never_ends a extra start b _ v [] hv (Nat.le_refl _) h
    | posInf =>
      intro fuel acc
      exact expandRounds_bound_posInf a extra start fuel v acc hv
    | negInf =>
      rw [hB] at h
      rw [expandRounds_done a extra start _ (Num.fin (v : Int)) Num.negInf []
        (show Num.lt (Num.fin (v : Int)) Num.negInf = false from rfl)] at h
      exact absurd h (by simp)

/-! ## The expander on a token -/

theorem replaceBracket_canon (P s e Q r : Str) (hP : ∀ c ∈ P, c ≠ '[')
    (hs : ∀ c ∈ s, isDigit c = true) (he : ∀ c ∈ e, isDigit c = true) :
    replaceBracket (rangeToken P s e Q) r = P ++ r ++ Q := by
  simp only [replaceBracket, rangeToken, findBracket_canon P s e Q hP hs he]

/-- The callback on a token of which the three regular expressions select the group
between `P` and `Q`, the start text `s` and the end text `e`: a range that is valid. -/
theorem expandToken_of_matches_valid (a P s0 e0 Q s e : Str)
    (hf : findBracket a = some (P, s0, e0, Q))
    (h1 : matchStart a = some ('[' :: s)) (h2 : matchEnd a = some ('-' :: (e ++ [']'])))
    (hs : ∀ c ∈ s, isDigit c = true) (he : ∀ c ∈ e, isDigit c = true)
    (hsn : s ≠ []) (hen : e ≠ []) (hle : decValue s ≤ decValue e) (hb : decValue e < 2 ^ 53) :
    expandToken a =
      some ((List.range' (decValue s) (decValue e + 1 - decValue s)).map
        (fun (i : Nat) => P ++ numeral (extraOf s) s (Num.fin (i : Int)) ++ Q), true) := by
  have hsb : decValue s ≤ 2 ^ 53 := by omega
  unfold expandToken
  simp only [testBracket, hf, h1, h2, Option.isSome_some, if_true, List.drop_succ_cons,
    List.drop_zero, parseInt_digits s hs hsn, parseInt10_digits s hs hsn,
    parseInt10_digits_rbracket e he hen, jsLe, jsNonneg, ofInt_small _ hsb,
    ofInt_small _ (Nat.le_of_lt hb)]
  have h0 : Num.le (Num.fin 0) (Num.fin (decValue s : Int)) = true := by
    have := le_fin 0 (decValue s)
    simpa using this
  simp only [le_fin, decide_eq_true hle, h0, Bool.and_self, if_true,
    expandLoop_small a (extraOf s) s (decValue s) (decValue e) hb]
  congr 2
  apply List.map_congr_left
  intro i _
  simp only [replaceBracket, hf]

/-- The callback on a token of which the three regular expressions select the start
text `s` and the end text `e`: a range that is not valid. -/
theorem expandToken_of_matches_invalid (a P s0 e0 Q s e : Str)
    (hf : findBracket a = some (P, s0, e0, Q))
    (h1 : matchStart a = some ('[' :: s)) (h2 : matchEnd a = some ('-' :: (e ++ [']'])))
    (hs : ∀ c ∈ s, isDigit c = true) (he : ∀ c ∈ e, isDigit c = true)
    (h : s = [] ∨ e = [] ∨
      Num.lt (Num.ofInt (decValue e : Int)) (Num.ofInt (decValue s : Int)) = true) :
    expandToken a = some ([a], false) := by
  have hcond : (jsLe (parseInt s) (parseInt10 (e ++ [']'])) && jsNonneg (parseInt10 s)) = false := by
    by_cases hsn : s = []
    · subst hsn; simp [parseInt_nil, jsLe]
    · by_cases hen : e = []
      · subst hen; simp [parseInt10_rbracket, jsLe]
      · have hlt : Num.lt (Num.ofInt (decValue e : Int)) (Num.ofInt (decValue s : Int)) = true := by
          rcases h with h | h | h
          · exact absurd h hsn
          · exact absurd h hen
          · exact h
        simp [parseInt_digits s hs hsn, parseInt10_digits_rbracket e he hen, jsLe, le_eq_not_lt, hlt]
  unfold expandToken
  simp only [testBracket, hf, h1, h2, Option.isSome_some, if_true, List.drop_succ_cons,
    List.drop_zero] at hcond ⊢
  simp only [hcond]
  simp

/-- A reversed range of numbers up to `2 ^ 53` is reversed as Number values. -/
theorem lt_ofInt_small (x y : Nat) (hxy : x < y) (hy : y ≤ 2 ^ 53) :
    Num.lt (Num.ofInt (x : Int)) (Num.ofInt (y : Int)) = true := by
  rw [ofInt_small x (by omega), ofInt_small y hy, lt_fin]
  exact decide_eq_true hxy

theorem expandToken_valid (P s e Q : Str) (hP : ∀ c ∈ P, c ≠ '[' ∧ c ≠ ']')
    (hs : ∀ c ∈ s, isDigit c = true) (he : ∀ c ∈ e, isDigit c = true)
    (hsn : s ≠ []) (hen : e ≠ []) (hle : decValue s ≤ decValue e) (hb : decValue e < 2 ^ 53) :
    expandToken (rangeToken P s e Q) =
      some ((List.range' (decValue s) (decValue e + 1 - decValue s)).map
        (fun (i : Nat) => P ++ numeral (extraOf s) s (Num.fin (i : Int)) ++ Q), true) := by
  have hP1 : ∀ c ∈ P, c ≠ '[' := fun c hc => (hP c hc).1
  have hP2 : ∀ c ∈ P, c ≠ ']' := fun c hc => (hP c hc).2
  exact expandToken_of_matches_valid _ P s e Q s e (findBracket_canon P s e Q hP1 hs he)
    (matchStart_canon P s (e ++ ']' :: Q) '-' hP1 hs (by decide))
    (matchEnd_canon P s e Q hP2 hs he) hs he hsn hen hle hb

theorem expandToken_invalid (P s e Q : Str) (hP : ∀ c ∈ P, c ≠ '[' ∧ c ≠ ']')
    (hs : ∀ c ∈ s, isDigit c = true) (he : ∀ c ∈ e, isDigit c = true)
    (h : s = [] ∨ e = [] ∨
      Num.lt (Num.ofInt (decValue e : Int)) (Num.ofInt (decValue s : Int)) = true) :
    expandToken (rangeToken P s e Q) = some ([rangeToken P s e Q], false) := by
  have hP1 : ∀ c ∈ P, c ≠ '[' := fun c hc => (hP c hc).1
  have hP2 : ∀ c ∈ P, c ≠ ']' := fun c hc => (hP c hc).2
  exact expandToken_of_matches_invalid _ P s e Q s e (findBracket_canon P s e Q hP1 hs he)
    (matchStart_canon P s (e ++ ']' :: Q) '-' hP1 hs (by decide))
    (matchEnd_canon P s e Q hP2 hs he) hs he h


/-! ## Soundness of the bracket search -/

theorem bracketHere_sound (a s e Q : Str) (h : bracketHere a = some (s, e, Q)) :
    AllDigits s ∧ AllDigits e ∧ a = '[' :: (s ++ '-' :: (e ++ ']' :: Q)) := by
  unfold bracketHere at h
  split at h
  · rename_i r
    split at h
    · rename_i r2 h1
      split at h
      · rename_i q h2
        simp only [Option.some.injEq, Prod.mk.injEq] at h
        obtain ⟨hs, he, hq⟩ := h
        subst hs he hq
        refine ⟨fun c hc => List.mem_takeWhile_imp hc, fun c hc => List.mem_takeWhile_imp hc, ?_⟩
        rw [← h2, List.takeWhile_append_dropWhile, ← h1, List.takeWhile_append_dropWhile]
      · simp at h
    · simp at h
  · simp at h

theorem findBracket_sound (a P s e Q : Str) (h : findBracket a = some (P, s, e, Q)) :
    AllDigits s ∧ AllDigits e ∧ a = rangeToken P s e Q := by
  induction a generalizing P with
  | nil => simp [findBracket] at h
  | cons c cs ih =>
    rw [findBracket] at h
    cases hb : bracketHere (c :: cs) with
    | some r =>
      obtain ⟨s1, e1, q1⟩ := r
      rw [hb] at h
      simp only [Option.some.injEq, Prod.mk.injEq] at h
      obtain ⟨hP, hs, he, hq⟩ := h
      subst hP hs he hq
      obtain ⟨h1, h2, h3⟩ := bracketHere_sound _ _ _ _ hb
      exact ⟨h1, h2, by rw [h3]; rfl⟩
    | none =>
      rw [hb] at h
      cases hf : findBracket cs with
      | none => rw [hf] at h; simp at h
      | some r =>
        obtain ⟨p1, s1, e1, q1⟩ := r
        rw [hf] at h
        simp only [Option.some.injEq, Prod.mk.injEq] at h
        obtain ⟨hP, hs, he, hq⟩ := h
        subst hP hs he hq
        obtain ⟨h1, h2, h3⟩ := ih _ hf
        exact ⟨h1, h2, by rw [h3]; rfl⟩

theorem testBracket_false_of_no_group (a : Str) (h : ¬ HasBracketGroup a) :
    testBracket a = false := by
  unfold testBracket
  cases hf : findBracket a with
  | none => rfl
  | some r =>
    obtain ⟨P, s, e, Q⟩ := r
    obtain ⟨h1, h2, h3⟩ := findBracket_sound a P s e Q hf
    exact absurd ⟨P, s, e, Q, h1, h2, h3⟩ h

theorem expandToken_passThrough (a : Str) (h : PassThrough a) :
    expandToken a = some ([a], false) := by
  rcases h with h | ⟨P, s, e, Q, hP, hs, he, hbad, rfl⟩
  · unfold expandToken
    rw [testBracket_false_of_no_group a h]
    rfl
  · exact expandToken_invalid P s e Q hP hs he hbad


/-! ## The loop over the tokens -/

theorem parseLoop_acc (l : List Str) (acc : List Str) (flag : Bool) :
    parseLoop l acc flag =
      (parseLoop l [] false).map (fun r => (acc ++ r.1, flag || r.2)) := by
  induction l generalizing acc flag with
  | nil => simp [parseLoop]
  | cons a rest ih =>
    rw [parseLoop, parseLoop]
    cases expandToken a with
    | none => rfl
    | some r =>
      obtain ⟨names, p⟩ := r
      simp only
      rw [ih (acc ++ names), ih ([] ++ names), Option.map_map]
      congr 1
      funext r
      simp [List.append_assoc, Bool.or_assoc]

theorem parseLoop_cons (a : Str) (l names x : List Str) (p f : Bool)
    (ha : expandToken a = some (names, p)) (hl : parseLoop l [] false = some (x, f)) :
    parseLoop (a :: l) [] false = some (names ++ x, p || f) := by
  rw [parseLoop, ha]
  simp only
  rw [parseLoop_acc, hl]
  simp

theorem parseLoop_cons_inv (a : Str) (l x : List Str) (f : Bool)
    (h : parseLoop (a :: l) [] false = some (x, f)) :
    ∃ names p y g, expandToken a = some (names, p) ∧ parseLoop l [] false = some (y, g) ∧
      x = names ++ y ∧ f = (p || g) := by
  rw [parseLoop] at h
  cases he : expandToken a with
  | none => rw [he] at h; simp at h
  | some r =>
    obtain ⟨names, p⟩ := r
    rw [he] at h
    simp only at h
    rw [parseLoop_acc] at h
    cases hl : parseLoop l [] false with
    | none => rw [hl] at h; simp at h
    | some q =>
      obtain ⟨y, g⟩ := q
      rw [hl] at h
      simp only [Option.map_some', Option.some.injEq, Prod.mk.injEq, List.nil_append,
        Bool.false_or] at h
      exact ⟨names, p, y, g, rfl, rfl, h.1.symm, h.2.symm⟩

theorem parseLoop_append (l1 l2 x1 x2 : List Str) (f1 f2 : Bool)
    (h1 : parseLoop l1 [] false = some (x1, f1)) (h2 : parseLoop l2 [] false = some (x2, f2)) :
    parseLoop (l1 ++ l2) [] false = some (x1 ++ x2, f1 || f2) := by
  induction l1 generalizing x1 f1 with
  | nil =>
    simp only [parseLoop, Option.some.injEq, Prod.mk.injEq] at h1
    obtain ⟨rfl, rfl⟩ := h1
    simpa using h2
  | cons a rest ih =>
    obtain ⟨names, p, y, g, he, hy, rfl, rfl⟩ := parseLoop_cons_inv a rest x1 f1 h1
    rw [List.cons_append, parseLoop_cons a (rest ++ l2) names (y ++ x2) p (g || f2) he
      (ih y g hy)]
    simp [List.append_assoc, Bool.or_assoc]

theorem parseLoop_of_map (l : List Str) (Es : List (List Str × Bool))
    (h : l.map expandToken = Es.map some) :
    parseLoop l [] false = some (Es.flatMap Prod.fst, Es.any Prod.snd) := by
  induction l generalizing Es with
  | nil =>
    cases Es with
    | nil => rfl
    | cons _ _ => simp at h
  | cons a rest ih =>
    cases Es with
    | nil => simp at h
    | cons r Et =>
      simp only [List.map_cons, List.cons.injEq] at h
      rw [parseLoop_cons a rest r.1 (Et.flatMap Prod.fst) r.2 (Et.any Prod.snd) h.1 (ih Et h.2)]
      simp

/-- A loop over the tokens that returns has run the callback on every token. -/
theorem parseLoop_inv (l x : List Str) (f : Bool) (h : parseLoop l [] false = some (x, f)) :
    ∃ Es : List (List Str × Bool),
      l.map expandToken = Es.map some ∧ x = Es.flatMap Prod.fst ∧ f = Es.any Prod.snd := by
  induction l generalizing x f with
  | nil =>
    simp only [parseLoop, Option.some.injEq, Prod.mk.injEq] at h
    exact ⟨[], rfl, h.1.symm, h.2.symm⟩
  | cons a rest ih =>
    obtain ⟨names, p, y, g, he, hy, rfl, rfl⟩ := parseLoop_cons_inv a rest x f h
    obtain ⟨Et, ht, rfl, rfl⟩ := ih y g hy
    exact ⟨(names, p) :: Et, by simp [he, ht], by simp, by simp⟩

/-- The callback returns on a token whose end number is below `2 ^ 53`. -/
theorem expandToken_returns (a : Str) (h : smallRange a = true) :
    ∃ r, expandToken a = some r := by
  unfold expandToken
  by_cases ht : testBracket a = true
  · rw [if_pos ht]
    have h1 := matchStart_isSome_of_find a ht
    have h2 := matchEnd_isSome_of_find a ht
    cases hm1 : matchStart a with
    | none => rw [hm1] at h1; simp at h1
    | some m1 =>
      cases hm2 : matchEnd a with
      | none => rw [hm2] at h2; simp at h2
      | some m2 =>
        obtain ⟨s, hs, rfl⟩ := matchStart_sound a m1 hm1
        obtain ⟨e, he, rfl⟩ := matchEnd_sound a m2 hm2
        have hb : decValue e < 2 ^ 53 := by
          unfold smallRange at h
          rw [hm2] at h
          simp only [List.drop_succ_cons, List.drop_zero, decide_eq_true_eq] at h
          rwa [takeWhile_digits e [] ']' he (by decide)] at h
        simp only [List.drop_succ_cons, List.drop_zero]
        split_ifs with hc
        · by_cases hsn : s = []
          · subst hsn
            exact ⟨_, rfl⟩
          · by_cases hen : e = []
            · subst hen
              rw [List.nil_append, parseInt10_rbracket]
              cases parseInt10 s <;> exact ⟨_, rfl⟩
            · rw [parseInt10_digits s hs hsn, parseInt10_digits_rbracket e he hen,
                ofInt_small _ (Nat.le_of_lt hb)]
              obtain ⟨names, hn⟩ := expandLoop_returns a (extraOf s) s (decValue s) (decValue e) hb
              simp only [hn]
              exact ⟨_, rfl⟩
        · exact ⟨_, rfl⟩
  · rw [if_neg ht]
    exact ⟨_, rfl⟩

/-- The loop over the tokens returns when every end number is below `2 ^ 53`. -/
theorem parseLoop_returns (l : List Str) (h : ∀ a ∈ l, smallRange a = true) :
    ∃ x f, parseLoop l [] false = some (x, f) := by
  induction l with
  | nil => exact ⟨[], false, rfl⟩
  | cons a rest ih =>
    obtain ⟨x, f, hx⟩ := ih (fun b hb => h b (List.mem_cons_of_mem _ hb))
    obtain ⟨r, hr⟩ := expandToken_returns a (h a (List.mem_cons_self _ _))
    exact ⟨r.1 ++ x, r.2 || f, parseLoop_cons a rest r.1 x r.2 f hr hx⟩

/-- The loop over the tokens returns nothing when the callback fails on one of them. -/
theorem parseLoop_none (l : List Str) (a : Str) (ha : a ∈ l) (hn : expandToken a = none) :
    ∀ (acc : List Str) (flag : Bool), parseLoop l acc flag = none := by
  induction l with
  | nil => exact absurd ha (List.not_mem_nil _)
  | cons b rest ih =>
    intro acc flag
    rw [parseLoop]
    rcases List.mem_cons.mp ha with rfl | hr
    · rw [hn]
    · cases expandToken b with
      | none => rfl
      | some r => exact ih hr _ _

theorem parseLoop_passThrough (l : List Str) (h : ∀ a ∈ l, PassThrough a) :
    parseLoop l [] false = some (l, false) := by
  induction l with
  | nil => rfl
  | cons a rest ih =>
    have := parseLoop_cons a rest [a] rest false false
      (expandToken_passThrough a (h a (List.mem_cons_self _ _)))
      (ih (fun b hb => h b (List.mem_cons_of_mem _ hb)))
    simpa using this

theorem parse_eq (st : Controller) (x : List Str) (f : Bool)
    (h : parseLoop st.hostNameArr [] false = some (x, f)) :
    parseHostNamesAsPatternExpression st = some { st with isPattern := f, hostNameArr := x } := by
  simp only [parseHostNamesAsPatternExpression, h]


/-! ## The numeral substituted for an index -/

theorem extraOf_zeros (s : Str) : ∀ c ∈ extraOf s, c = '0' := by
  intro c hc
  unfold extraOf at hc
  split_ifs at hc
  · have := List.mem_takeWhile_imp hc
    simpa using this
  · simp at hc

theorem numeral_small (extra start : Str) (i : Nat) (hb : i < 2 ^ 53) :
    numeral extra start (Num.fin (i : Int)) =
      extra.take (start.length - (decimalDigits i).length) ++ decimalDigits i := by
  unfold numeral
  rw [numToString_small i hb]

theorem numeral_allDigits (s : Str) (i : Nat) (hb : i < 2 ^ 53) :
    AllDigits (numeral (extraOf s) s (Num.fin (i : Int))) := by
  intro c hc
  rw [numeral_small _ _ i hb] at hc
  rcases List.mem_append.1 hc with h | h
  · rw [extraOf_zeros s c (List.mem_of_mem_take h)]
    decide
  · exact decimalDigits_digits i c h

theorem decValue_numeral (s : Str) (i : Nat) (hb : i < 2 ^ 53) :
    decValue (numeral (extraOf s) s (Num.fin (i : Int))) = i := by
  rw [numeral_small _ _ i hb]
  rw [decValue_zeros _ _ (fun c hc => extraOf_zeros s c (List.mem_of_mem_take hc)),
    decValue_decimalDigits]

theorem matchZeros_eq_replicate (s : Str) :
    matchZeros s = List.replicate (matchZeros s).length '0' := by
  rw [List.eq_replicate_iff]
  refine ⟨rfl, fun c hc => ?_⟩
  have := List.mem_takeWhile_imp hc
  simpa using this

/-- The run of zeros at the head of `s` is long enough to pad every index of the range. -/
theorem matchZeros_length_ge (s : Str) (hs : AllDigits s) (i : Nat) (hi : decValue s ≤ i) :
    s.length - (decimalDigits i).length ≤ (matchZeros s).length := by
  have hsplit : s = matchZeros s ++ s.dropWhile (fun c => c = '0') :=
    (List.takeWhile_append_dropWhile _ s).symm
  cases hr : s.dropWhile (fun c => decide (c = '0')) with
  | nil =>
    rw [hr, List.append_nil] at hsplit
    rw [← hsplit]
    omega
  | cons c t =>
    rw [hr] at hsplit
    have hc0 : c ≠ '0' := by
      have := List.head_dropWhile_not (fun c => decide (c = '0')) s (by rw [hr]; simp)
      simp only [hr, List.head_cons] at this
      simpa using this
    have hcd : isDigit c = true := hs c (by rw [hsplit]; simp)
    have hval : decValue s = decValue (c :: t) := by
      conv_lhs => rw [hsplit]
      exact decValue_zeros _ _ (fun d hd => by simpa using List.mem_takeWhile_imp hd)
    have h1 : 10 ^ t.length ≤ i := le_trans (decValue_ge_pow c t hcd hc0) (hval ▸ hi)
    have h2 := decimalDigits_length_ge t.length i h1
    have hlen : s.length = (matchZeros s).length + (t.length + 1) := by
      conv_lhs => rw [hsplit]
      simp
    omega

theorem numeral_padded (s : Str) (hs : AllDigits s) (i : Nat) (hi : decValue s ≤ i)
    (h : 1 < s.length ∧ s.head? = some '0') (hb : i < 2 ^ 53) :
    numeral (extraOf s) s (Num.fin (i : Int)) = List.leftpad s.length '0' (decimalDigits i) := by
  have he : extraOf s = matchZeros s := by
    unfold extraOf
    rw [if_pos ⟨h.2, h.1⟩]
  rw [numeral_small _ _ i hb]
  rw [he, List.leftpad]
  congr 1
  rw [matchZeros_eq_replicate s, List.take_replicate,
    Nat.min_eq_left (matchZeros_length_ge s hs i hi)]

theorem numeral_plain (s : Str) (i : Nat) (h : ¬ (1 < s.length ∧ s.head? = some '0'))
    (hb : i < 2 ^ 53) :
    numeral (extraOf s) s (Num.fin (i : Int)) = decimalDigits i := by
  have he : extraOf s = [] := by
    unfold extraOf
    rw [if_neg (fun hh => h ⟨hh.2, hh.1⟩)]
  rw [numeral_small _ _ i hb]
  rw [he]
  simp


/-! ## `trim` and `split` against the tokens of the specification -/

theorem splitGo_filter (s cur : Str) (inSep : Bool) (hinv : inSep = true → cur = []) :
    (splitGo s cur inSep).filter (fun t => !t.isEmpty) =
      ((s.splitOnP isJsSpace).modifyHead (fun x => cur.reverse ++ x)).filter
        (fun t => !t.isEmpty) := by
  induction s generalizing cur inSep with
  | nil => simp [splitGo, List.modifyHead]
  | cons c cs ih =>
    rw [splitGo, List.splitOnP_cons]
    by_cases hc : isJsSpace c = true
    · simp only [hc, if_true, List.modifyHead]
      have h0 := ih [] true (fun _ => rfl)
      have hid : (List.splitOnP isJsSpace cs).modifyHead (fun x => ([] : Str).reverse ++ x) =
          List.splitOnP isJsSpace cs := by
        cases List.splitOnP isJsSpace cs <;> simp [List.modifyHead]
      rw [hid] at h0
      cases inSep with
      | true =>
        rw [hinv rfl]
        simp [h0]
      | false =>
        simp [List.filter_cons, h0]
    · simp only [hc, Bool.false_eq_true, if_false]
      rw [ih (c :: cur) false (fun h => by simp at h), List.modifyHead_modifyHead]
      congr 2
      funext x
      simp

theorem splitWs_filter (s : Str) :
    (splitWs s).filter (fun t => !t.isEmpty) = specHostTokens s := by
  unfold splitWs specHostTokens
  rw [splitGo_filter s [] false (fun h => by simp at h)]
  congr 1
  cases List.splitOnP isJsSpace s <;> simp [List.modifyHead]

/-- No empty token comes out of the loop when the text does not end in white space. -/
theorem splitGo_nonempty (s cur : Str) (inSep : Bool) (hcur : inSep = false → cur ≠ [])
    (hend : s = [] → inSep = false)
    (hlast : ∀ x, s.getLast? = some x → isJsSpace x = false) :
    ∀ t ∈ splitGo s cur inSep, t ≠ [] := by
  induction s generalizing cur inSep with
  | nil =>
    intro t ht
    simp only [splitGo, List.mem_singleton] at ht
    rw [ht]
    simpa using hcur (hend rfl)
  | cons c cs ih =>
    have hlast' : ∀ x, cs.getLast? = some x → isJsSpace x = false := by
      intro x hx
      apply hlast x
      cases cs with
      | nil => simp at hx
      | cons d ds => rw [List.getLast?_cons_cons]; exact hx
    rw [splitGo]
    by_cases hc : isJsSpace c = true
    · have hcs : cs ≠ [] := by
        intro h
        subst h
        have := hlast c (by simp)
        rw [hc] at this
        exact absurd this (by simp)
      have hrec := ih [] true (fun h => by simp at h) (fun h => absurd h hcs) hlast'
      simp only [hc, if_true]
      cases inSep with
      | true => simpa using hrec
      | false =>
        intro t ht
        simp only [Bool.false_eq_true, if_false, List.mem_cons] at ht
        rcases ht with ht | ht
        · rw [ht]
          simpa using hcur rfl
        · exact hrec t ht
    · simp only [hc, Bool.false_eq_true, if_false]
      exact ih (c :: cur) false (fun _ => by simp) (fun _ => rfl) hlast'

theorem filter_nonempty_id (l : List Str) (h : ∀ t ∈ l, t ≠ []) :
    l.filter (fun t => !t.isEmpty) = l := by
  rw [List.filter_eq_self]
  intro t ht
  have := h t ht
  cases t with
  | nil => exact absurd rfl this
  | cons _ _ => rfl

theorem splitOnP_append_seps (x w : Str) (hw : ∀ c ∈ w, isJsSpace c = true) :
    (x ++ w).splitOnP isJsSpace = x.splitOnP isJsSpace ++ List.replicate w.length [] := by
  induction x with
  | nil =>
    induction w with
    | nil => rfl
    | cons c t ih =>
      rw [List.nil_append] at ih ⊢
      rw [List.splitOnP_cons, if_pos (hw c (List.mem_cons_self _ _)),
        ih (fun d hd => hw d (List.mem_cons_of_mem _ hd))]
      simp [List.replicate_succ]
  | cons c t ih =>
    rw [List.cons_append, List.splitOnP_cons, List.splitOnP_cons, ih]
    by_cases hc : isJsSpace c = true
    · simp [hc]
    · simp only [hc, if_false]
      cases hsp : List.splitOnP isJsSpace t with
      | nil => exact absurd hsp (List.splitOnP_ne_nil _ _)
      | cons a l => rfl

theorem specHostTokens_append_seps (x w : Str) (hw : ∀ c ∈ w, isJsSpace c = true) :
    specHostTokens (x ++ w) = specHostTokens x := by
  unfold specHostTokens
  rw [splitOnP_append_seps x w hw, List.filter_append]
  have : (List.replicate w.length ([] : Str)).filter (fun t => !t.isEmpty) = [] := by
    rw [List.filter_eq_nil_iff]
    intro a ha
    rw [(List.mem_replicate.1 ha).2]
    simp
  rw [this, List.append_nil]

theorem specHostTokens_dropWhile (s : Str) :
    specHostTokens (s.dropWhile isJsSpace) = specHostTokens s := by
  induction s with
  | nil => rfl
  | cons c t ih =>
    rw [List.dropWhile_cons]
    by_cases hc : isJsSpace c = true
    · rw [if_pos hc, ih]
      unfold specHostTokens
      rw [List.splitOnP_cons, if_pos hc]
      simp
    · rw [if_neg hc]

theorem trim_decomp (s : Str) :
    ∃ w, (∀ c ∈ w, isJsSpace c = true) ∧ s.dropWhile isJsSpace = trim s ++ w := by
  refine ⟨((s.dropWhile isJsSpace).reverse.takeWhile isJsSpace).reverse, ?_, ?_⟩
  · intro c hc
    exact List.mem_takeWhile_imp (List.mem_reverse.1 hc)
  · unfold trim
    rw [← List.reverse_append, List.takeWhile_append_dropWhile, List.reverse_reverse]

theorem specHostTokens_trim (s : Str) : specHostTokens (trim s) = specHostTokens s := by
  obtain ⟨w, hw, hd⟩ := trim_decomp s
  rw [← specHostTokens_dropWhile s, hd, specHostTokens_append_seps _ w hw]

theorem getLast?_dropWhile (p : Char → Bool) (l : Str) (h : l.dropWhile p ≠ []) :
    (l.dropWhile p).getLast? = l.getLast? := by
  induction l with
  | nil => rfl
  | cons c t ih =>
    rw [List.dropWhile_cons] at h ⊢
    by_cases hc : p c = true
    · rw [if_pos hc] at h ⊢
      rw [ih h]
      cases t with
      | nil => simp at h
      | cons d ds => rw [List.getLast?_cons_cons]
    · rw [if_neg hc]

theorem trim_head (s : Str) (c : Char) (cs : Str) (h : trim s = c :: cs) :
    isJsSpace c = false := by
  unfold trim at h
  set u := s.dropWhile isJsSpace with hu
  have hne : u.reverse.dropWhile isJsSpace ≠ [] := by
    intro h0
    rw [h0] at h
    simp at h
  have h1 := getLast?_dropWhile isJsSpace u.reverse hne
  rw [List.getLast?_reverse] at h1
  have h2 : (u.reverse.dropWhile isJsSpace).getLast? = some c := by
    rw [← List.head?_reverse, h]
    rfl
  rw [h2] at h1
  have hune : u ≠ [] := by
    intro h0
    rw [h0] at h1
    simp at h1
  have h3 := List.head_dropWhile_not isJsSpace s (by rw [← hu]; exact hune)
  have h4 : u.head? = some (u.head hune) := List.head?_eq_head hune
  rw [h4] at h1
  have : c = u.head hune := Option.some.inj h1
  rw [this]
  exact h3

theorem trim_last (s : Str) (x : Char) (h : (trim s).getLast? = some x) :
    isJsSpace x = false := by
  unfold trim at h
  rw [List.getLast?_reverse] at h
  set v := (s.dropWhile isJsSpace).reverse.dropWhile isJsSpace with hv
  have hne : v ≠ [] := by
    intro h0
    rw [h0] at h
    simp at h
  have h3 := List.head_dropWhile_not isJsSpace (s.dropWhile isJsSpace).reverse
    (by rw [← hv]; exact hne)
  have h4 : v.head? = some (v.head hne) := List.head?_eq_head hne
  rw [h4] at h
  have : v.head hne = x := Option.some.inj h
  rw [← this]
  exact h3

/-- On a raw input that is not blank, `trim` and `split` yield the HostTokens. -/
theorem splitWs_trim (s : Str) (h : trim s ≠ []) : splitWs (trim s) = specHostTokens s := by
  rw [← specHostTokens_trim s, ← splitWs_filter (trim s)]
  symm
  apply filter_nonempty_id
  cases ht : trim s with
  | nil => exact absurd ht h
  | cons c cs =>
    have hc := trim_head s c cs ht
    have hlast : ∀ x, (c :: cs).getLast? = some x → isJsSpace x = false := by
      intro x hx
      exact trim_last s x (by rw [ht]; exact hx)
    have hlast2 : ∀ x, cs.getLast? = some x → isJsSpace x = false := by
      intro x hx
      apply hlast x
      cases cs with
      | nil => simp at hx
      | cons d ds => rw [List.getLast?_cons_cons]; exact hx
    unfold splitWs
    rw [splitGo, hc]
    simp only [Bool.false_eq_true, if_false]
    exact splitGo_nonempty cs [c] false (fun _ => by simp) (fun _ => rfl) hlast2


/-! ## The loops of the batch processing as filters -/

theorem contains_eq_decide (l : List Str) (h : Str) : l.contains h = decide (h ∈ l) := by
  unfold List.contains
  exact List.elem_eq_mem h l

theorem partitionLoop_eq (inst l t a : List Str) :
    partitionLoop inst l t a =
      (t ++ l.filter (fun h => decide (h ∉ inst)), a ++ l.filter (fun h => decide (h ∈ inst))) := by
  induction l generalizing t a with
  | nil => simp [partitionLoop]
  | cons h rest ih =>
    rw [partitionLoop, contains_eq_decide]
    by_cases hm : h ∈ inst
    · simp [hm, ih]
    · simp [hm, ih]

theorem validateLoop_eq (f : Str → Bool) (l inv : List Str) (r : Bool) :
    validateLoop f l inv r =
      (inv ++ l.filter (fun h => !f h), r && (l.filter (fun h => !f h)).isEmpty) := by
  induction l generalizing inv r with
  | nil => simp [validateLoop]
  | cons h rest ih =>
    rw [validateLoop]
    by_cases hf : f h = true
    · simp [hf, ih]
    · simp [hf, ih]

/-- Closed form of `updateHostNameArr`, given the result of the loop over the tokens. -/
theorem updateHostNameArr_eq (env : Env) (st : Controller) (x : List Str) (f : Bool)
    (h : parseLoop (splitWs (trim st.installOptions.hostNames)) [] false = some (x, f)) :
    updateHostNameArr env st = some { st with
      hostNameArr := x.filter (fun h => decide (h ∉ env.installedHostNames)),
      isPattern := f,
      inputtedAgainHostNames := x.filter (fun h => decide (h ∈ env.installedHostNames)) } := by
  unfold updateHostNameArr
  simp only [parseHostNamesAsPatternExpression, h, partitionLoop_eq, List.nil_append]

/-- A batch processing that returns has run the loop over the tokens to its end. -/
theorem updateHostNameArr_inv (env : Env) (st st1 : Controller)
    (h : updateHostNameArr env st = some st1) :
    ∃ x f, parseLoop (splitWs (trim st.installOptions.hostNames)) [] false = some (x, f) := by
  cases hp : parseLoop (splitWs (trim st.installOptions.hostNames)) [] false with
  | some r => exact ⟨r.1, r.2, rfl⟩
  | none =>
    unfold updateHostNameArr at h
    simp only [parseHostNamesAsPatternExpression, hp] at h
    exact absurd h (by simp)

/-- The batch processing does not return when the loop over the tokens does not. -/
theorem updateHostNameArr_none (env : Env) (st : Controller)
    (h : parseLoop (splitWs (trim st.installOptions.hostNames)) [] false = none) :
    updateHostNameArr env st = none := by
  unfold updateHostNameArr
  simp only [parseHostNamesAsPatternExpression, h]

/-- The tokens of the batch have small ranges when the HostTokens of the input have. -/
theorem smallRange_split (raw : Str) (h : SmallRanges raw) :
    ∀ a ∈ splitWs (trim raw), smallRange a = true := by
  by_cases ht : trim raw = []
  · rw [ht]
    decide
  · rw [splitWs_trim raw ht]
    exact h

/-- The batch processing returns when every end number of the input is below `2 ^ 53`. -/
theorem updateHostNameArr_returns (env : Env) (st : Controller)
    (h : SmallRanges st.installOptions.hostNames) :
    ∃ st1, updateHostNameArr env st = some st1 := by
  obtain ⟨x, f, hx⟩ := parseLoop_returns _ (smallRange_split _ h)
  exact ⟨_, updateHostNameArr_eq env st x f hx⟩

/-- The batch processing does not read the log. -/
theorem updateHostNameArr_log (env : Env) (st st1 : Controller) (l : List Event)
    (h : updateHostNameArr env st = some st1) :
    updateHostNameArr env { st with log := l } = some { st1 with log := l } := by
  obtain ⟨x, f, hx⟩ := updateHostNameArr_inv env st st1 h
  rw [updateHostNameArr_eq env st x f hx] at h
  rw [updateHostNameArr_eq env { st with log := l } x f hx]
  simp only [Option.some.injEq] at h
  rw [← h]

theorem updateHostNameArr_fields (env : Env) (st st1 : Controller)
    (h : updateHostNameArr env st = some st1) :
    st1.log = st.log ∧ st1.hosts = st.hosts ∧ st1.installOptions = st.installOptions ∧
    st1.hostsError = st.hostsError ∧ st1.hasSubmitted = st.hasSubmitted ∧
    st1.invalidHostNames = st.invalidHostNames := by
  obtain ⟨x, f, hx⟩ := updateHostNameArr_inv env st st1 h
  rw [updateHostNameArr_eq env st x f hx] at h
  simp only [Option.some.injEq] at h
  rw [← h]
  exact ⟨rfl, rfl, rfl, rfl, rfl, rfl⟩

/-- The result of the batch processing depends on the input `hostNames` only. -/
theorem updateHostNameArr_same (env : Env) (st st1 st' : Controller)
    (hu : updateHostNameArr env st = some st1)
    (hs : st'.installOptions.hostNames = st.installOptions.hostNames) :
    ∃ st1', updateHostNameArr env st' = some st1' ∧
      st1'.hostNameArr = st1.hostNameArr ∧
      st1'.inputtedAgainHostNames = st1.inputtedAgainHostNames ∧
      st1'.isPattern = st1.isPattern := by
  obtain ⟨x, f, hx⟩ := updateHostNameArr_inv env st st1 hu
  have h1 := updateHostNameArr_eq env st x f hx
  rw [hu] at h1
  simp only [Option.some.injEq] at h1
  have hx' : parseLoop (splitWs (trim st'.installOptions.hostNames)) [] false = some (x, f) := by
    rw [hs]; exact hx
  refine ⟨_, updateHostNameArr_eq env st' x f hx', ?_, ?_, ?_⟩ <;> rw [h1]

/-- Running the batch processing again changes nothing. -/
theorem updateHostNameArr_again (env : Env) (st st1 : Controller)
    (hu : updateHostNameArr env st = some st1) :
    updateHostNameArr env st1 = some st1 := by
  obtain ⟨x, f, hx⟩ := updateHostNameArr_inv env st st1 hu
  have h1 := updateHostNameArr_eq env st x f hx
  rw [hu] at h1
  simp only [Option.some.injEq] at h1
  have hsame : st1.installOptions.hostNames = st.installOptions.hostNames := by rw [h1]
  have hx1 : parseLoop (splitWs (trim st1.installOptions.hostNames)) [] false = some (x, f) := by
    rw [hsame]; exact hx
  rw [updateHostNameArr_eq env st1 x f hx1, h1]

/-- The validation does not return when the batch processing does not. -/
theorem isAllHostNamesValid_none (env : Env) (st : Controller)
    (h : updateHostNameArr env st = none) : isAllHostNamesValid env st = none := by
  unfold isAllHostNamesValid
  simp only [h]

theorem isAllHostNamesValid_eq (env : Env) (st st1 : Controller)
    (h : updateHostNameArr env st = some st1) :
    isAllHostNamesValid env st =
      some ((st1.hostNameArr.filter (fun h => !env.isHostname h)).isEmpty,
        { st1 with invalidHostNames := st1.hostNameArr.filter (fun h => !env.isHostname h) }) := by
  unfold isAllHostNamesValid
  simp only [h, validateLoop_eq, List.nil_append, Bool.true_and]

/-- Closed form of `proceedNext`, given the batch `updateHostNameArr` computes. -/
theorem proceedNext_eq (env : Env) (st st1 : Controller) (wc : Bool)
    (h : updateHostNameArr env st = some st1) :
    proceedNext env st wc =
      (let inv := st1.hostNameArr.filter (fun h => !env.isHostname h)
       let st2 : Controller :=
         { st1 with invalidHostNames := inv, log := st.log ++ [Event.enterProceedNext wc] }
       if inv.isEmpty != true && !wc then some (false, warningPopup st2)
       else if st2.installOptions.manualInstall == true then some (false, manualInstallPopup st2)
       else if env.skipBootstrap then some (true, saveHosts st2)
       else
         let requestId := env.launchBootstrap (bootStrapData st2)
         let st3 : Controller :=
           { st2 with log := st2.log ++ [Event.launchBootstrap (bootStrapData st2)] }
         if requestId.looseEqZeroStr then
           some (true, { st3 with log := st3.log ++ [Event.registerErrPopup] })
         else if requestId.truthy then
           some (true, saveHosts
             { st3 with installOptions := { st3.installOptions with bootRequestId := requestId } })
         else some (true, st3)) := by
  have h2 := updateHostNameArr_log env st st1 (st.log ++ [Event.enterProceedNext wc]) h
  have h3 := isAllHostNamesValid_eq env _ _ h2
  unfold proceedNext
  simp only [h3]


/-! ## Claims on the pattern expander -/

/-- C1, as it fails: in `n[9007199254740991-9007199254740992]` the start is not above the
end and `P` has no bracket, so two names are due; the loop runs while
`i < 9007199254740992 + 1`, a sum that is the Number `9007199254740992`, and pushes the
single name `n9007199254740991`. -/
theorem C1_counterexample :
    decValue "9007199254740991".toList ≤ decValue "9007199254740992".toList ∧
    decValue "9007199254740992".toList - decValue "9007199254740991".toList + 1 = 2 ∧
    (parseHostNamesAsPatternExpression
        { initController [] false with
          hostNameArr := ["n[9007199254740991-9007199254740992]".toList] }).map
      (fun st' => (st'.hostNameArr, st'.isPattern)) =
      some (["n9007199254740991".toList], true) := by
  decide

/-- C1, amended: a token `P[s-e]Q` with non-empty digit strings `s`, `e`,
`int(s) ≤ int(e) < 2 ^ 53` and no bracket in `P` is replaced, inside the output of
`parseHostNamesAsPatternExpression`, by exactly `int(e) - int(s) + 1` names; the name at
position `k` is `P ++ n ++ Q` for a digit string `n` of value `int(s) + k` (ascending
order), and `isPattern` ends up true. The tokens before and after it are any for which
the loop returns. -/
theorem C1_range_expansion (st : Controller) (pre post preX postX : List Str)
    (fPre fPost : Bool) (P s e Q : Str)
    (hP : ∀ c ∈ P, c ≠ '[' ∧ c ≠ ']') (hs : AllDigits s) (he : AllDigits e)
    (hsn : s ≠ []) (hen : e ≠ []) (hle : decValue s ≤ decValue e)
    (hb : decValue e < 2 ^ 53)
    (hst : st.hostNameArr = pre ++ rangeToken P s e Q :: post)
    (hpre : parseLoop pre [] false = some (preX, fPre))
    (hpost : parseLoop post [] false = some (postX, fPost)) :
    ∃ st' names,
      parseHostNamesAsPatternExpression st = some st' ∧
      st'.hostNameArr = preX ++ names ++ postX ∧
      st'.isPattern = true ∧
      names.length = decValue e - decValue s + 1 ∧
      ∀ k, k < names.length →
        ∃ n, AllDigits n ∧ decValue n = decValue s + k ∧ names[k]? = some (P ++ n ++ Q) := by
  have htok := expandToken_valid P s e Q hP hs he hsn hen hle hb
  have hall := parseLoop_append pre (rangeToken P s e Q :: post) preX _ fPre _ hpre
    (parseLoop_cons _ post _ postX true fPost htok hpost)
  rw [← hst] at hall
  refine ⟨_,
    (List.range' (decValue s) (decValue e + 1 - decValue s)).map
      (fun (i : Nat) => P ++ numeral (extraOf s) s (Num.fin (i : Int)) ++ Q),
    parse_eq st _ _ hall, ?_, ?_, ?_, ?_⟩
  · simp [List.append_assoc]
  · simp
  · simp only [List.length_map, List.length_range']
    omega
  · intro k hk
    simp only [List.length_map, List.length_range'] at hk
    have hk53 : decValue s + k < 2 ^ 53 := by omega
    refine ⟨numeral (extraOf s) s (Num.fin ((decValue s + k : Nat) : Int)),
      numeral_allDigits s _ hk53, decValue_numeral s _ hk53, ?_⟩
    rw [List.getElem?_map, List.getElem?_range' _ _ hk]
    simp

/-- C1, at the token `node-[01-03]` between the tokens `a` and `b`. -/
theorem C1_range_expansion_witness :
    ∃ st' names,
      parseHostNamesAsPatternExpression
        { initController [] false with
          hostNameArr := ["a".toList, "node-[01-03]".toList, "b".toList] } = some st' ∧
      st'.hostNameArr = ["a".toList] ++ names ++ ["b".toList] ∧
      st'.isPattern = true ∧
      names.length = decValue "03".toList - decValue "01".toList + 1 ∧
      ∀ k, k < names.length →
        ∃ n, AllDigits n ∧ decValue n = decValue "01".toList + k ∧
          names[k]? = some ("node-".toList ++ n ++ []) :=
  C1_range_expansion
    { initController [] false with
      hostNameArr := ["a".toList, "node-[01-03]".toList, "b".toList] }
    ["a".toList] ["b".toList] ["a".toList] ["b".toList] false false
    "node-".toList "01".toList "03".toList []
    (by decide) (by unfold AllDigits; decide) (by unfold AllDigits; decide)
    (by decide) (by decide) (by decide) (by decide) (by decide) (by decide) (by decide)

/-- The expansion of `node-[01-03]` evaluated. -/
theorem expandToken_node_01_03 :
    expandToken "node-[01-03]".toList =
      some (["node-01".toList, "node-02".toList, "node-03".toList], true) := by
  decide

/-- C4, as it fails: in `n[9007199254740993-9007199254740992]` the start is above the
end and `P` has no bracket, so the token is due unchanged; both numbers are the Number
`9007199254740992`, the test `start <= end` passes, `isPattern` is set and the loop
pushes nothing: the token is lost. -/
theorem C4_counterexample :
    decValue "9007199254740992".toList < decValue "9007199254740993".toList ∧
    (parseHostNamesAsPatternExpression
        { initController [] false with
          hostNameArr := ["n[9007199254740993-9007199254740992]".toList] }).map
      (fun st' => (st'.hostNameArr, st'.isPattern)) =
      some ([], true) := by
  decide

/-- C4, amended: a token without any bracket group `[digits-digits]`, or a token `P[s-e]Q`
(`P` without bracket) whose `s` or `e` is empty or with `int(s) > int(e)` as Number
values, comes out of `parseHostNamesAsPatternExpression` unchanged as a single name and
contributes nothing to `isPattern`, the tokens before and after it being any for which
the loop returns; when all tokens of the batch are such, the list is unchanged and
`isPattern` is false afterwards whatever it was before. -/
theorem C4_pass_through (st : Controller) (pre post preX postX : List Str) (fPre fPost : Bool)
    (a : Str) (ha : PassThrough a) (hst : st.hostNameArr = pre ++ a :: post)
    (hpre : parseLoop pre [] false = some (preX, fPre))
    (hpost : parseLoop post [] false = some (postX, fPost)) :
    (∃ st',
      parseHostNamesAsPatternExpression st = some st' ∧
      st'.hostNameArr = preX ++ [a] ++ postX ∧
      st'.isPattern = (fPre || fPost)) ∧
    ((∀ b ∈ st.hostNameArr, PassThrough b) →
      parseHostNamesAsPatternExpression st = some { st with isPattern := false }) := by
  constructor
  · have hall := parseLoop_append pre (a :: post) preX _ fPre _ hpre
      (parseLoop_cons _ post _ postX false fPost (expandToken_passThrough a ha) hpost)
    rw [← hst] at hall
    refine ⟨_, parse_eq st _ _ hall, ?_, ?_⟩
    · simp [List.append_assoc]
    · simp
  · intro hall
    rw [parse_eq st _ _ (parseLoop_passThrough st.hostNameArr hall)]

/-- C4, at the token `node-[05-02]` with `isPattern` true beforehand. -/
theorem C4_pass_through_witness :
    parseHostNamesAsPatternExpression
        { initController [] false with
          hostNameArr := ["node-[05-02]".toList], isPattern := true } =
      some { initController [] false with
          hostNameArr := ["node-[05-02]".toList], isPattern := false } :=
  have hpt : PassThrough "node-[05-02]".toList :=
    Or.inr ⟨"node-".toList, "05".toList, "02".toList, [], by decide,
      by unfold AllDigits; decide, by unfold AllDigits; decide, by decide, by decide⟩
  (C4_pass_through
    { initController [] false with hostNameArr := ["node-[05-02]".toList], isPattern := true }
    [] [] [] [] false false "node-[05-02]".toList hpt rfl rfl rfl).2
    (by
      intro b hb
      have : b = "node-[05-02]".toList := by simpa using hb
      rw [this]
      exact hpt)

/-- C5, as it fails: in the expansion of `n[9007199254740991-9007199254740992]` the index
`9007199254740992` of the range has no name; the only name is the one of
`9007199254740991`. -/
theorem C5_counterexample :
    decValue "9007199254740991".toList ≤ 9007199254740992 ∧
    9007199254740992 ≤ decValue "9007199254740992".toList ∧
    ∃ names,
      expandToken
        (rangeToken "n".toList "9007199254740991".toList "9007199254740992".toList []) =
        some (names, true) ∧
      names[9007199254740992 - decValue "9007199254740991".toList]? = none :=
  ⟨by decide, by decide, ["n9007199254740991".toList], by decide, by decide⟩

/-- C5, amended: in the expansion of a valid range token `P[s-e]Q` with
`int(e) < 2 ^ 53`, the numeral for an index `i` of the range is the decimal rendering of
`i` left-padded with `0` to the width of `s` (length `max (length s) (digits of i)`) when
`s` has more than one digit and begins with `0`, and the plain decimal rendering of `i`
otherwise. -/
theorem C5_numeral_padding (P s e Q : Str)
    (hP : ∀ c ∈ P, c ≠ '[' ∧ c ≠ ']') (hs : AllDigits s) (he : AllDigits e)
    (hsn : s ≠ []) (hen : e ≠ []) (hle : decValue s ≤ decValue e)
    (hb : decValue e < 2 ^ 53)
    (i : Nat) (hlo : decValue s ≤ i) (hhi : i ≤ decValue e) :
    ∃ names n,
      expandToken (rangeToken P s e Q) = some (names, true) ∧
      names[i - decValue s]? = some (P ++ n ++ Q) ∧
      ((1 < s.length ∧ s.head? = some '0') →
        n = List.leftpad s.length '0' (decimalDigits i) ∧
        n.length = max s.length (decimalDigits i).length) ∧
      (¬ (1 < s.length ∧ s.head? = some '0') → n = decimalDigits i) := by
  have hi53 : i < 2 ^ 53 := by omega
  refine ⟨_, numeral (extraOf s) s (Num.fin (i : Int)),
    expandToken_valid P s e Q hP hs he hsn hen hle hb, ?_, ?_, ?_⟩
  · rw [List.getElem?_map, List.getElem?_range' _ _ (by omega)]
    simp only [one_mul, Option.map_some']
    rw [Nat.add_sub_cancel' hlo]
  · intro h
    have hp := numeral_padded s hs i hlo h hi53
    refine ⟨hp, ?_⟩
    rw [hp, List.leftpad_length]
  · intro h
    exact numeral_plain s i h hi53

/-- C5, at the index `10` of `n[008-011]`: the numeral is `010`. -/
theorem C5_numeral_padding_witness :
    ∃ names n,
      expandToken (rangeToken "n".toList "008".toList "011".toList []) = some (names, true) ∧
      names[10 - decValue "008".toList]? = some ("n".toList ++ n ++ []) ∧
      ((1 < "008".toList.length ∧ "008".toList.head? = some '0') →
        n = List.leftpad "008".toList.length '0' (decimalDigits 10) ∧
        n.length = max "008".toList.length (decimalDigits 10).length) ∧
      (¬ (1 < "008".toList.length ∧ "008".toList.head? = some '0') → n = decimalDigits 10) :=
  C5_numeral_padding "n".toList "008".toList "011".toList []
    (by decide) (by unfold AllDigits; decide) (by unfold AllDigits; decide)
    (by decide) (by decide) (by decide) (by decide) 10 (by decide) (by decide)

/-! ## Claims on the batch processing -/

/-- The partition, for every state `updateHostNameArr` returns. -/
theorem updateHostNameArr_partition (env : Env) (st st' : Controller)
    (h : trim st.installOptions.hostNames ≠ [])
    (hst' : updateHostNameArr env st = some st') :
    ∃ Es : List (List Str × Bool),
      (specHostTokens st.installOptions.hostNames).map expandToken = Es.map some ∧
      st'.hostNameArr =
        (Es.flatMap Prod.fst).filter (fun n => decide (n ∉ env.installedHostNames)) ∧
      st'.inputtedAgainHostNames =
        (Es.flatMap Prod.fst).filter (fun n => decide (n ∈ env.installedHostNames)) := by
  obtain ⟨x, f, hx⟩ := updateHostNameArr_inv env st st' hst'
  have hu := updateHostNameArr_eq env st x f hx
  rw [splitWs_trim _ h] at hx
  obtain ⟨Es, hEs, rfl, rfl⟩ := parseLoop_inv _ x f hx
  rw [hst'] at hu
  rw [Option.some.inj hu]
  exact ⟨Es, hEs, rfl, rfl⟩

/-- C2, as it fails: the input `n[9007199254740992-9007199254740994]` is not blank, and
`updateHostNameArr` does not return on it: the loop of the range starts at
`9007199254740992`, which `i++` does not change, and never ends, however many rounds
are allowed. There is no state after the call. -/
theorem C2_counterexample :
    trim "n[9007199254740992-9007199254740994]".toList ≠ [] ∧
    (∀ (fuel : Nat) (acc : List Str),
      expandRounds "n[9007199254740992-9007199254740994]".toList [] "9007199254740992".toList
        fuel (Num.fin 9007199254740992) (Num.fin 9007199254740996) acc = none) ∧
    updateHostNameArr (sampleEnv [] false JsVal.null)
      (initController "n[9007199254740992-9007199254740994]".toList false) = none :=
  ⟨by decide, expandRounds_stuck _ _ _ _ _ (by decide) (by decide), by decide⟩

/-- C2, amended: for a raw input that is not blank after trimming and whose range end
numbers are below `2 ^ 53`, `updateHostNameArr` leaves in `hostNameArr` the names of `E`
that are not registered and in `inputtedAgainHostNames` the names of `E` that are
registered, both in the order of `E` and with repetitions kept, where `E` concatenates,
in token order, the expansions of the maximal white-space-free substrings of the
input. -/
theorem C2_partition (env : Env) (st : Controller)
    (h : trim st.installOptions.hostNames ≠ [])
    (hsmall : SmallRanges st.installOptions.hostNames) :
    ∃ (st' : Controller) (Es : List (List Str × Bool)),
      updateHostNameArr env st = some st' ∧
      (specHostTokens st.installOptions.hostNames).map expandToken = Es.map some ∧
      st'.hostNameArr =
        (Es.flatMap Prod.fst).filter (fun n => decide (n ∉ env.installedHostNames)) ∧
      st'.inputtedAgainHostNames =
        (Es.flatMap Prod.fst).filter (fun n => decide (n ∈ env.installedHostNames)) := by
  obtain ⟨st', hst'⟩ := updateHostNameArr_returns env st hsmall
  obtain ⟨Es, hEs⟩ := updateHostNameArr_partition env st st' h hst'
  exact ⟨st', Es, hst', hEs⟩

/-- C2, at the input `a.example.com`, line break, `b.example.com` with `b.example.com`
registered. -/
theorem C2_partition_witness :
    ∃ (st' : Controller) (Es : List (List Str × Bool)),
      updateHostNameArr (sampleEnv ["b.example.com".toList] false JsVal.null)
        (initController "a.example.com\nb.example.com".toList false) = some st' ∧
      (specHostTokens "a.example.com\nb.example.com".toList).map expandToken = Es.map some ∧
      st'.hostNameArr =
        (Es.flatMap Prod.fst).filter (fun n => decide (n ∉ ["b.example.com".toList])) ∧
      st'.inputtedAgainHostNames =
        (Es.flatMap Prod.fst).filter (fun n => decide (n ∈ ["b.example.com".toList])) :=
  C2_partition (sampleEnv ["b.example.com".toList] false JsVal.null)
    (initController "a.example.com\nb.example.com".toList false) (by decide)
    (by unfold SmallRanges; decide)

/-- The batch of the example of C2 evaluated. -/
theorem updateHostNameArr_example :
    (updateHostNameArr (sampleEnv ["b.example.com".toList] false JsVal.null)
        (initController "a.example.com\nb.example.com".toList false)).map
      (fun s => (s.hostNameArr, s.inputtedAgainHostNames)) =
      some (["a.example.com".toList], ["b.example.com".toList]) := by
  decide

/-- The validation, for every result `isAllHostNamesValid` returns. -/
theorem isAllHostNamesValid_inv (env : Env) (st st2 : Controller) (r : Bool)
    (h2 : isAllHostNamesValid env st = some (r, st2)) :
    ∃ st1,
      updateHostNameArr env st = some st1 ∧
      st2.hostNameArr = st1.hostNameArr ∧
      st2.invalidHostNames = st1.hostNameArr.filter (fun n => !env.isHostname n) ∧
      (r = true ↔ st2.invalidHostNames = []) := by
  cases h1 : updateHostNameArr env st with
  | none =>
    rw [isAllHostNamesValid_none env st h1] at h2
    exact absurd h2 (by simp)
  | some st1 =>
    rw [isAllHostNamesValid_eq env st st1 h1] at h2
    simp only [Option.some.injEq, Prod.mk.injEq] at h2
    obtain ⟨rfl, rfl⟩ := h2
    refine ⟨st1, rfl, rfl, rfl, ?_⟩
    simp [List.isEmpty_iff]

/-- C6, as it fails: on the input `n[9007199254740992-9007199254740994]`
`isAllHostNamesValid` does not return: the loop of the range starts at
`9007199254740992`, which `i++` does not change, and never ends, however many rounds
are allowed. Nothing is left in `hostNameArr` or `invalidHostNames` and no value is
returned. -/
theorem C6_counterexample :
    (∀ (fuel : Nat) (acc : List Str),
      expandRounds "n[9007199254740992-9007199254740994]".toList [] "9007199254740992".toList
        fuel (Num.fin 9007199254740992) (Num.fin 9007199254740996) acc = none) ∧
    isAllHostNamesValid (sampleEnv [] false JsVal.null)
      (initController "n[9007199254740992-9007199254740994]".toList false) = none :=
  ⟨expandRounds_stuck _ _ _ _ _ (by decide) (by decide), by decide⟩

/-- C6, amended: for a raw input whose range end numbers are below `2 ^ 53`,
`isAllHostNamesValid` leaves `hostNameArr` as `updateHostNameArr` computes it, sets
`invalidHostNames` to the names of `hostNameArr` that `validator.isHostname` rejects, in
the same order, and returns true exactly when there is none. -/
theorem C6_validation (env : Env) (st : Controller)
    (hsmall : SmallRanges st.installOptions.hostNames) :
    ∃ st1 r st2,
      updateHostNameArr env st = some st1 ∧
      isAllHostNamesValid env st = some (r, st2) ∧
      st2.hostNameArr = st1.hostNameArr ∧
      st2.invalidHostNames = st1.hostNameArr.filter (fun n => !env.isHostname n) ∧
      (r = true ↔ st2.invalidHostNames = []) := by
  obtain ⟨st1, h1⟩ := updateHostNameArr_returns env st hsmall
  refine ⟨st1, _, _, h1, isAllHostNamesValid_eq env st st1 h1, rfl, rfl, ?_⟩
  simp [List.isEmpty_iff]

/-- C6, at the input `not a host!!` with nothing registered. -/
theorem C6_validation_witness :
    ∃ st1 r st2,
      updateHostNameArr (sampleEnv [] false JsVal.null)
        (initController "not a host!!".toList false) = some st1 ∧
      isAllHostNamesValid (sampleEnv [] false JsVal.null)
        (initController "not a host!!".toList false) = some (r, st2) ∧
      st2.hostNameArr = st1.hostNameArr ∧
      st2.invalidHostNames =
        st1.hostNameArr.filter (fun n => !(sampleEnv [] false JsVal.null).isHostname n) ∧
      (r = true ↔ st2.invalidHostNames = []) :=
  C6_validation (sampleEnv [] false JsVal.null)
    (initController "not a host!!".toList false) (by unfold SmallRanges; decide)

/-- The example of C6: `not a host!!` gives the new hosts `not`, `a`, `host!!`, of which
the sample validator rejects `host!!`. -/
theorem isAllHostNamesValid_example :
    (isAllHostNamesValid (sampleEnv [] false JsVal.null)
        (initController "not a host!!".toList false)).map
      (fun r => (r.1, r.2.hostNameArr, r.2.invalidHostNames)) =
      some (false, ["not".toList, "a".toList, "host!!".toList], ["host!!".toList]) := by
  decide

/-! ## Claims on the decision flow -/

/-- The state after `this.set('hasSubmitted', true)` and `checkHostError()`. -/
theorem checkHostError_setHasSubmitted (st : Controller) :
    checkHostError (setHasSubmitted st true) =
      { st with
        hasSubmitted := true,
        hostsError :=
          if (trim st.installOptions.hostNames).isEmpty then some Msg.hostNameRequired
          else none } := by
  obtain ⟨a, b, c, d, e, f, g, h, i⟩ := st
  cases c <;>
    simp only [setHasSubmitted, checkHostAfterSubmitHandler, checkHostError] <;>
    split_ifs <;> simp_all

theorem isEmpty_eq_false_of_ne_nil {α : Type} (s : List α) (h : s ≠ []) :
    s.isEmpty = false := by
  cases s with
  | nil => exact absurd rfl h
  | cons _ _ => rfl

/-- The method `proceedNext` returns when the batch processing does, and its first trace
is its own entry. -/
theorem proceedNext_returns (env : Env) (st st1 : Controller) (wc : Bool)
    (h1 : updateHostNameArr env st = some st1) :
    ∃ r st' tail, proceedNext env st wc = some (r, st') ∧
      st'.log = st.log ++ Event.enterProceedNext wc :: tail := by
  rw [proceedNext_eq env st st1 wc h1]
  simp only
  split_ifs
  · exact ⟨_, _, _, rfl, List.append_assoc _ _ _⟩
  · exact ⟨_, _, _, rfl, List.append_assoc _ _ _⟩
  · exact ⟨_, _, _, rfl, List.append_assoc _ _ _⟩
  · exact ⟨_, _, [_, _], rfl, by simp only [List.append_assoc]; rfl⟩
  · exact ⟨_, _, [_, _, _], rfl, by simp only [saveHosts, List.append_assoc]; rfl⟩
  · exact ⟨_, _, [_], rfl, by simp only [List.append_assoc]; rfl⟩

/-- The input `hostNames` is not changed by the steps before the batch processing. -/
theorem hostNames_checkHostError (st : Controller) :
    (checkHostError (setHasSubmitted st true)).installOptions.hostNames =
      st.installOptions.hostNames := by
  rw [checkHostError_setHasSubmitted]

/-- The four branches of `evaluateStep`, for every state the batch processing
returns. -/
theorem evaluateStep_branches (env : Env) (st st2 : Controller)
    (h0 : isSubmitDisabled st = false)
    (hHosts : trim st.installOptions.hostNames ≠ [])
    (hCred : st.installOptions.manualInstall = true ∨
      (trim st.installOptions.sshKey ≠ [] ∧ trim st.installOptions.sshUser ≠ []))
    (h2 : updateHostNameArr env (checkHostError (setHasSubmitted st true)) = some st2) :
    st2.log = st.log ∧
    (st2.hostNameArr = [] →
      evaluateStep env st =
        some (false, { st2 with hostsError := some Msg.hostNameAlreadyInstalled })) ∧
    (st2.hostNameArr ≠ [] → st2.isPattern = true →
      evaluateStep env st =
        some (false,
          { st2 with log := st.log ++ [Event.hostNamePatternPopup st2.hostNameArr] })) ∧
    (st2.hostNameArr ≠ [] → st2.isPattern = false → st2.inputtedAgainHostNames ≠ [] →
      evaluateStep env st =
        some (true,
          { st2 with
            log := st.log ++
              [Event.installedHostsPopup (join ", ".toList st2.inputtedAgainHostNames)] })) ∧
    (st2.hostNameArr ≠ [] → st2.isPattern = false → st2.inputtedAgainHostNames = [] →
      ∃ r st3 tail,
        proceedNext env st2 false = some (r, st3) ∧
        evaluateStep env st = some (true, st3) ∧
        st3.log = st.log ++ Event.enterProceedNext false :: tail) := by
  have hf := updateHostNameArr_fields env _ st2 h2
  have hlog : st2.log = st.log := by
    rw [hf.1, checkHostError_setHasSubmitted]
  have hpass : ((checkHostError (setHasSubmitted st true)).hostsError.isSome ||
      (sshUserError (checkHostError (setHasSubmitted st true))).isSome ||
      (sshKeyError (checkHostError (setHasSubmitted st true))).isSome) = false := by
    rw [checkHostError_setHasSubmitted]
    simp only [sshUserError, sshKeyError, isEmpty_eq_false_of_ne_nil _ hHosts]
    rcases hCred with hm | ⟨hk, hu⟩
    · simp [hm]
    · simp [isEmpty_eq_false_of_ne_nil _ hk, isEmpty_eq_false_of_ne_nil _ hu]
  have hev : evaluateStep env st =
      (if st2.hostNameArr.length = 0 then
        some (false, { st2 with hostsError := some Msg.hostNameAlreadyInstalled })
      else if st2.isPattern then some (false, hostNamePatternPopup st2 st2.hostNameArr)
      else if st2.inputtedAgainHostNames.length ≠ 0 then some (true, installedHostsPopup st2)
      else
        match proceedNext env st2 false with
        | none => none
        | some (_, st3) => some (true, st3)) := by
    unfold evaluateStep
    simp only [h0, hpass, h2, Bool.false_eq_true, if_false]
  refine ⟨hlog, ?_, ?_, ?_, ?_⟩
  · intro he
    rw [hev, he]
    rfl
  · intro hne hp
    have : st2.hostNameArr.length ≠ 0 := by simpa using hne
    rw [hev, if_neg this, if_pos hp, hostNamePatternPopup, hlog]
  · intro hne hp ha
    have h1 : st2.hostNameArr.length ≠ 0 := by simpa using hne
    have h3 : st2.inputtedAgainHostNames.length ≠ 0 := by simpa using ha
    rw [hev, if_neg h1, if_neg (by simp [hp]), if_pos h3, installedHostsPopup, hlog]
  · intro hne hp ha
    have h1 : st2.hostNameArr.length ≠ 0 := by simpa using hne
    have h3 : ¬ st2.inputtedAgainHostNames.length ≠ 0 := by simp [ha]
    obtain ⟨r, st3, tail, hp3, hl3⟩ :=
      proceedNext_returns env st2 st2 false (updateHostNameArr_again env _ st2 h2)
    refine ⟨r, st3, tail, hp3, ?_, by rw [hl3, hlog]⟩
    rw [hev, if_neg h1, if_neg (by simp [hp]), if_neg h3, hp3]

/-- C3, as it fails: on a fresh controller with the input
`n[9007199254740992-9007199254740994]` and the credentials filled, no error is pending
and the required fields pass, but `evaluateStep` does not return: the loop of the range
starts at `9007199254740992`, which `i++` does not change, and never ends, however many
rounds are allowed. None of the four branches is taken. -/
theorem C3_counterexample :
    isSubmitDisabled (initController "n[9007199254740992-9007199254740994]".toList false) =
      false ∧
    trim "n[9007199254740992-9007199254740994]".toList ≠ [] ∧
    (trim "key".toList ≠ [] ∧ trim "root".toList ≠ []) ∧
    (∀ (fuel : Nat) (acc : List Str),
      expandRounds "n[9007199254740992-9007199254740994]".toList [] "9007199254740992".toList
        fuel (Num.fin 9007199254740992) (Num.fin 9007199254740996) acc = none) ∧
    evaluateStep (sampleEnv [] false JsVal.null)
      (initController "n[9007199254740992-9007199254740994]".toList false) = none :=
  ⟨by decide, by decide, by decide, expandRounds_stuck _ _ _ _ _ (by decide) (by decide),
    by decide⟩

/-- C3, amended: on a submit that passes the required-field validation with no error
pending and whose range end numbers are below `2 ^ 53`, `evaluateStep` takes exactly one
of four branches, in this order: no new host (the already-installed error is set,
nothing is logged, `proceedNext` is not entered); a pattern was detected (only the
pattern dialog, with the whole new-host list); some host was entered again (only the
installed-hosts dialog); otherwise `proceedNext`. -/
theorem C3_evaluateStep_branches (env : Env) (st : Controller)
    (h0 : isSubmitDisabled st = false)
    (hHosts : trim st.installOptions.hostNames ≠ [])
    (hCred : st.installOptions.manualInstall = true ∨
      (trim st.installOptions.sshKey ≠ [] ∧ trim st.installOptions.sshUser ≠ []))
    (hsmall : SmallRanges st.installOptions.hostNames) :
    ∃ st2,
      updateHostNameArr env (checkHostError (setHasSubmitted st true)) = some st2 ∧
      st2.log = st.log ∧
      (st2.hostNameArr = [] →
        evaluateStep env st =
          some (false, { st2 with hostsError := some Msg.hostNameAlreadyInstalled })) ∧
      (st2.hostNameArr ≠ [] → st2.isPattern = true →
        evaluateStep env st =
          some (false,
            { st2 with log := st.log ++ [Event.hostNamePatternPopup st2.hostNameArr] })) ∧
      (st2.hostNameArr ≠ [] → st2.isPattern = false → st2.inputtedAgainHostNames ≠ [] →
        evaluateStep env st =
          some (true,
            { st2 with
              log := st.log ++
                [Event.installedHostsPopup (join ", ".toList st2.inputtedAgainHostNames)] })) ∧
      (st2.hostNameArr ≠ [] → st2.isPattern = false → st2.inputtedAgainHostNames = [] →
        ∃ r st3 tail,
          proceedNext env st2 false = some (r, st3) ∧
          evaluateStep env st = some (true, st3) ∧
          st3.log = st.log ++ Event.enterProceedNext false :: tail) := by
  obtain ⟨st2, h2⟩ := updateHostNameArr_returns env (checkHostError (setHasSubmitted st true))
    (by rw [hostNames_checkHostError]; exact hsmall)
  exact ⟨st2, h2, evaluateStep_branches env st st2 h0 hHosts hCred h2⟩

/-- C3, at a fresh controller with input `a.example.com` and manual install selected. -/
theorem C3_evaluateStep_branches_witness :
    ∃ st2,
      updateHostNameArr (sampleEnv [] false JsVal.null)
        (checkHostError (setHasSubmitted (initController "a.example.com".toList true) true)) =
          some st2 ∧
      st2.log = (initController "a.example.com".toList true).log ∧
      (st2.hostNameArr = [] →
        evaluateStep (sampleEnv [] false JsVal.null)
            (initController "a.example.com".toList true) =
          some (false, { st2 with hostsError := some Msg.hostNameAlreadyInstalled })) ∧
      (st2.hostNameArr ≠ [] → st2.isPattern = true →
        evaluateStep (sampleEnv [] false JsVal.null)
            (initController "a.example.com".toList true) =
          some (false,
            { st2 with
              log := (initController "a.example.com".toList true).log ++
                [Event.hostNamePatternPopup st2.hostNameArr] })) ∧
      (st2.hostNameArr ≠ [] → st2.isPattern = false → st2.inputtedAgainHostNames ≠ [] →
        evaluateStep (sampleEnv [] false JsVal.null)
            (initController "a.example.com".toList true) =
          some (true,
            { st2 with
              log := (initController "a.example.com".toList true).log ++
                [Event.installedHostsPopup (join ", ".toList st2.inputtedAgainHostNames)] })) ∧
      (st2.hostNameArr ≠ [] → st2.isPattern = false → st2.inputtedAgainHostNames = [] →
        ∃ r st3 tail,
          proceedNext (sampleEnv [] false JsVal.null) st2 false = some (r, st3) ∧
          evaluateStep (sampleEnv [] false JsVal.null)
            (initController "a.example.com".toList true) = some (true, st3) ∧
          st3.log = (initController "a.example.com".toList true).log ++
            Event.enterProceedNext false :: tail) :=
  C3_evaluateStep_branches (sampleEnv [] false JsVal.null)
    (initController "a.example.com".toList true) (by decide) (by decide) (Or.inl rfl)
    (by unfold SmallRanges; decide)

/-- C10: when the host list is blank after trimming, or manual install is off and the ssh
key or the ssh user is blank, `evaluateStep` returns false and changes nothing but
`hasSubmitted` and `hostsError`: no dialog, no entry of `proceedNext`, and `hostNameArr`,
`inputtedAgainHostNames`, `invalidHostNames`, `isPattern` are as before. -/
theorem C10_required_fields_block (env : Env) (st : Controller)
    (h : trim st.installOptions.hostNames = [] ∨
      (st.installOptions.manualInstall = false ∧
        (trim st.installOptions.sshKey = [] ∨ trim st.installOptions.sshUser = []))) :
    ∃ st',
      evaluateStep env st = some (false, st') ∧
      st' = { st with hasSubmitted := st'.hasSubmitted, hostsError := st'.hostsError } ∧
      st'.log = st.log ∧ st'.hostNameArr = st.hostNameArr ∧
      st'.inputtedAgainHostNames = st.inputtedAgainHostNames ∧
      st'.invalidHostNames = st.invalidHostNames ∧ st'.isPattern = st.isPattern := by
  by_cases h0 : isSubmitDisabled st = true
  · refine ⟨st, ?_, rfl, rfl, rfl, rfl, rfl, rfl⟩
    unfold evaluateStep
    rw [if_pos h0]
  · have hblock : ((checkHostError (setHasSubmitted st true)).hostsError.isSome ||
        (sshUserError (checkHostError (setHasSubmitted st true))).isSome ||
        (sshKeyError (checkHostError (setHasSubmitted st true))).isSome) = true := by
      rw [checkHostError_setHasSubmitted]
      simp only [sshUserError, sshKeyError]
      rcases h with hh | ⟨hm, hk | hu⟩
      · simp [hh]
      · simp [hm, hk]
      · simp [hm, hu]
    refine ⟨checkHostError (setHasSubmitted st true), ?_, ?_, ?_, ?_, ?_, ?_, ?_⟩
    · unfold evaluateStep
      rw [if_neg h0]
      simp only [hblock, if_true]
    all_goals rw [checkHostError_setHasSubmitted]

/-- C10, at a fresh controller whose host list is only white space. -/
theorem C10_required_fields_block_witness :
    ∃ st',
      evaluateStep (sampleEnv [] false JsVal.null) (initController " \n ".toList false) =
        some (false, st') ∧
      st' = { initController " \n ".toList false with
        hasSubmitted := st'.hasSubmitted, hostsError := st'.hostsError } ∧
      st'.log = (initController " \n ".toList false).log ∧
      st'.hostNameArr = (initController " \n ".toList false).hostNameArr ∧
      st'.inputtedAgainHostNames = (initController " \n ".toList false).inputtedAgainHostNames ∧
      st'.invalidHostNames = (initController " \n ".toList false).invalidHostNames ∧
      st'.isPattern = (initController " \n ".toList false).isPattern :=
  C10_required_fields_block (sampleEnv [] false JsVal.null)
    (initController " \n ".toList false) (Or.inl (by decide))


/-! ## The branches of `proceedNext` -/

theorem proceedNext_warning (env : Env) (st st1 : Controller)
    (hu : updateHostNameArr env st = some st1)
    (hinv : (st1.hostNameArr.filter (fun n => !env.isHostname n)).isEmpty = false) :
    proceedNext env st false =
      some (false,
        { st1 with
          invalidHostNames := st1.hostNameArr.filter (fun n => !env.isHostname n),
          log := st.log ++
            [Event.enterProceedNext false,
             Event.warningPopup
               (join ", ".toList (st1.hostNameArr.filter (fun n => !env.isHostname n)))] }) := by
  rw [proceedNext_eq env st st1 false hu]
  simp [hinv, warningPopup]

theorem proceedNext_manual (env : Env) (st st1 : Controller) (wc : Bool)
    (hu : updateHostNameArr env st = some st1)
    (hgate : (st1.hostNameArr.filter (fun n => !env.isHostname n)).isEmpty = true ∨ wc = true)
    (hm : st1.installOptions.manualInstall = true) :
    proceedNext env st wc =
      some (false,
        { st1 with
          invalidHostNames := st1.hostNameArr.filter (fun n => !env.isHostname n),
          log := st.log ++ [Event.enterProceedNext wc, Event.manualInstallPopup] }) := by
  rw [proceedNext_eq env st st1 wc hu]
  rcases hgate with hg | hg <;> simp [hg, hm, manualInstallPopup]

theorem proceedNext_skip (env : Env) (st st1 : Controller) (wc : Bool)
    (hu : updateHostNameArr env st = some st1)
    (hgate : (st1.hostNameArr.filter (fun n => !env.isHostname n)).isEmpty = true ∨ wc = true)
    (hm : st1.installOptions.manualInstall = false) (hs : env.skipBootstrap = true) :
    proceedNext env st wc =
      some (true,
        saveHosts { st1 with
          invalidHostNames := st1.hostNameArr.filter (fun n => !env.isHostname n),
          log := st.log ++ [Event.enterProceedNext wc] }) := by
  rw [proceedNext_eq env st st1 wc hu]
  rcases hgate with hg | hg <;> simp [hg, hm, hs]

theorem proceedNext_busy (env : Env) (st st1 : Controller) (wc : Bool)
    (hu : updateHostNameArr env st = some st1)
    (hgate : (st1.hostNameArr.filter (fun n => !env.isHostname n)).isEmpty = true ∨ wc = true)
    (hm : st1.installOptions.manualInstall = false) (hs : env.skipBootstrap = false)
    (hz : (env.launchBootstrap (bootStrapData st1)).looseEqZeroStr = true) :
    proceedNext env st wc =
      some (true,
        { st1 with
          invalidHostNames := st1.hostNameArr.filter (fun n => !env.isHostname n),
          log := st.log ++
            [Event.enterProceedNext wc, Event.launchBootstrap (bootStrapData st1),
             Event.registerErrPopup] }) := by
  have hb : bootStrapData { st1 with
      invalidHostNames := st1.hostNameArr.filter (fun n => !env.isHostname n),
      log := st.log ++ [Event.enterProceedNext wc] } = bootStrapData st1 := rfl
  rw [proceedNext_eq env st st1 wc hu]
  simp only [hb]
  rcases hgate with hg | hg <;> simp [hg, hm, hs, hz]

theorem proceedNext_launched (env : Env) (st st1 : Controller) (wc : Bool)
    (hu : updateHostNameArr env st = some st1)
    (hgate : (st1.hostNameArr.filter (fun n => !env.isHostname n)).isEmpty = true ∨ wc = true)
    (hm : st1.installOptions.manualInstall = false) (hs : env.skipBootstrap = false)
    (hz : (env.launchBootstrap (bootStrapData st1)).looseEqZeroStr = false)
    (ht : (env.launchBootstrap (bootStrapData st1)).truthy = true) :
    proceedNext env st wc =
      some (true,
        saveHosts { st1 with
          invalidHostNames := st1.hostNameArr.filter (fun n => !env.isHostname n),
          installOptions :=
            { st1.installOptions with
              bootRequestId := env.launchBootstrap (bootStrapData st1) },
          log := st.log ++
            [Event.enterProceedNext wc, Event.launchBootstrap (bootStrapData st1)] }) := by
  have hb : bootStrapData { st1 with
      invalidHostNames := st1.hostNameArr.filter (fun n => !env.isHostname n),
      log := st.log ++ [Event.enterProceedNext wc] } = bootStrapData st1 := rfl
  rw [proceedNext_eq env st st1 wc hu]
  simp only [hb]
  rcases hgate with hg | hg <;> simp [hg, hm, hs, hz, ht]

theorem proceedNext_silent (env : Env) (st st1 : Controller) (wc : Bool)
    (hu : updateHostNameArr env st = some st1)
    (hgate : (st1.hostNameArr.filter (fun n => !env.isHostname n)).isEmpty = true ∨ wc = true)
    (hm : st1.installOptions.manualInstall = false) (hs : env.skipBootstrap = false)
    (hz : (env.launchBootstrap (bootStrapData st1)).looseEqZeroStr = false)
    (ht : (env.launchBootstrap (bootStrapData st1)).truthy = false) :
    proceedNext env st wc =
      some (true,
        { st1 with
          invalidHostNames := st1.hostNameArr.filter (fun n => !env.isHostname n),
          log := st.log ++
            [Event.enterProceedNext wc, Event.launchBootstrap (bootStrapData st1)] }) := by
  have hb : bootStrapData { st1 with
      invalidHostNames := st1.hostNameArr.filter (fun n => !env.isHostname n),
      log := st.log ++ [Event.enterProceedNext wc] } = bootStrapData st1 := rfl
  rw [proceedNext_eq env st st1 wc hu]
  simp only [hb]
  rcases hgate with hg | hg <;> simp [hg, hm, hs, hz, ht]


/-! ## Claims on `proceedNext` -/

theorem filter_isEmpty_of_all (f : Str → Bool) (l : List Str) (h : ∀ n ∈ l, f n = true) :
    (l.filter (fun n => !f n)).isEmpty = true := by
  rw [List.isEmpty_iff, List.filter_eq_nil_iff]
  intro n hn
  simp [h n hn]

/-- C7: when some new host fails `validator.isHostname`, `proceedNext` without
`warningConfirmed` logs only the warning dialog built from `invalidHostNames` and returns
false (no manual-install dialog, no bootstrap request, hosts untouched); with
`warningConfirmed` it logs no warning dialog and goes on to the manual-install dialog,
the direct save or the bootstrap request. -/
theorem C7_warning_gate (env : Env) (st st1 : Controller)
    (hu : updateHostNameArr env st = some st1)
    (hbad : ∃ n ∈ st1.hostNameArr, env.isHostname n = false) :
    (proceedNext env st false =
        some (false,
          { st1 with
            invalidHostNames := st1.hostNameArr.filter (fun n => !env.isHostname n),
            log := st.log ++
              [Event.enterProceedNext false,
               Event.warningPopup
                 (join ", ".toList (st1.hostNameArr.filter (fun n => !env.isHostname n)))] }) ∧
      st1.hosts = st.hosts) ∧
    ∃ r st' tail,
      proceedNext env st true = some (r, st') ∧
      st'.invalidHostNames = st1.hostNameArr.filter (fun n => !env.isHostname n) ∧
      st'.log = st.log ++ Event.enterProceedNext true :: tail ∧
      (∀ names, Event.warningPopup names ∉ tail) ∧
      (st.installOptions.manualInstall = true → r = false ∧ tail = [Event.manualInstallPopup]) ∧
      (st.installOptions.manualInstall = false → env.skipBootstrap = true →
        r = true ∧ tail = [Event.ajaxAmbariService, Event.routerNext]) ∧
      (st.installOptions.manualInstall = false → env.skipBootstrap = false →
        ∃ rest, tail = Event.launchBootstrap (bootStrapData st1) :: rest) := by
  have hf := updateHostNameArr_fields env st st1 hu
  have hinv : (st1.hostNameArr.filter (fun n => !env.isHostname n)).isEmpty = false := by
    obtain ⟨n, hn, hb⟩ := hbad
    apply isEmpty_eq_false_of_ne_nil
    intro h0
    have : n ∈ st1.hostNameArr.filter (fun n => !env.isHostname n) := by
      rw [List.mem_filter]
      exact ⟨hn, by simp [hb]⟩
    rw [h0] at this
    simp at this
  have hopt : st1.installOptions.manualInstall = st.installOptions.manualInstall := by rw [hf.2.2.1]
  refine ⟨⟨proceedNext_warning env st st1 hu hinv, hf.2.1⟩, ?_⟩
  cases hm : st.installOptions.manualInstall with
  | true =>
    refine ⟨_, _, [Event.manualInstallPopup],
      proceedNext_manual env st st1 true hu (Or.inr rfl) (hopt.trans hm), rfl, ?_, ?_, ?_, ?_, ?_⟩
    · simp
    · simp
    · simp
    · simp
    · simp
  | false =>
    cases hs : env.skipBootstrap with
    | true =>
      refine ⟨_, _, [Event.ajaxAmbariService, Event.routerNext],
        proceedNext_skip env st st1 true hu (Or.inr rfl) (hopt.trans hm) hs, rfl, ?_, ?_, ?_, ?_, ?_⟩
      · simp [saveHosts]
      · simp
      · simp
      · simp
      · simp
    | false =>
      cases hz : (env.launchBootstrap (bootStrapData st1)).looseEqZeroStr with
      | true =>
        refine ⟨_, _, [Event.launchBootstrap (bootStrapData st1), Event.registerErrPopup],
          proceedNext_busy env st st1 true hu (Or.inr rfl) (hopt.trans hm) hs hz,
          rfl, ?_, ?_, ?_, ?_, ?_⟩
        · simp
        · simp
        · simp
        · simp
        · simp
      | false =>
        cases ht : (env.launchBootstrap (bootStrapData st1)).truthy with
        | true =>
          refine ⟨_, _, [Event.launchBootstrap (bootStrapData st1), Event.ajaxAmbariService,
              Event.routerNext],
            proceedNext_launched env st st1 true hu (Or.inr rfl) (hopt.trans hm) hs hz ht,
            rfl, ?_, ?_, ?_, ?_, ?_⟩
          · simp [saveHosts]
          · simp
          · simp
          · simp
          · simp
        | false =>
          refine ⟨_, _, [Event.launchBootstrap (bootStrapData st1)],
            proceedNext_silent env st st1 true hu (Or.inr rfl) (hopt.trans hm) hs hz ht,
            rfl, ?_, ?_, ?_, ?_, ?_⟩
          · simp
          · simp
          · simp
          · simp
          · simp

/-- C7, at the input `not a host!!`: the warning dialog lists `host!!`. -/
theorem C7_warning_gate_witness :
    proceedNext (sampleEnv [] false JsVal.null) (initController "not a host!!".toList false)
        false =
      some (false,
        { initController "not a host!!".toList false with
          hostNameArr := ["not".toList, "a".toList, "host!!".toList],
          invalidHostNames := ["host!!".toList],
          log := [Event.enterProceedNext false, Event.warningPopup "host!!".toList] }) :=
  (C7_warning_gate (sampleEnv [] false JsVal.null) (initController "not a host!!".toList false)
    { initController "not a host!!".toList false with
      hostNameArr := ["not".toList, "a".toList, "host!!".toList] }
    (by decide) ⟨"host!!".toList, by decide, by decide⟩).1.1

/-- C8: past the validity gate (all new hosts valid, or the warning confirmed),
`proceedNext` calls `launchBootstrap` exactly when `manualInstall` is not true and
`skipBootstrap` is false; with `manualInstall` true it only opens the manual-install
dialog, whose confirmation is what saves the hosts; with `manualInstall` false and
`skipBootstrap` true it saves the hosts at once and sends no request. -/
theorem C8_launch_decision (env : Env) (st st1 : Controller) (wc : Bool)
    (hu : updateHostNameArr env st = some st1)
    (hgate : (∀ n ∈ st1.hostNameArr, env.isHostname n = true) ∨ wc = true) :
    ∃ r st' new,
      proceedNext env st wc = some (r, st') ∧
      st'.log = st.log ++ Event.enterProceedNext wc :: new ∧
      ((∃ d, Event.launchBootstrap d ∈ new) ↔
        (st.installOptions.manualInstall ≠ true ∧ env.skipBootstrap = false)) ∧
      (st.installOptions.manualInstall = true →
        r = false ∧ new = [Event.manualInstallPopup] ∧ st'.hosts = st.hosts ∧
        (manualInstallPopupOnPrimary st').hosts = getHostInfo st' ∧
        (manualInstallPopupOnPrimary st').log =
          st'.log ++ [Event.ajaxAmbariService, Event.routerNext]) ∧
      (st.installOptions.manualInstall = false → env.skipBootstrap = true →
        r = true ∧ new = [Event.ajaxAmbariService, Event.routerNext] ∧
        st' = saveHosts { st1 with
          invalidHostNames := st1.hostNameArr.filter (fun n => !env.isHostname n),
          log := st.log ++ [Event.enterProceedNext wc] }) := by
  have hf := updateHostNameArr_fields env st st1 hu
  have hopt : st1.installOptions.manualInstall = st.installOptions.manualInstall := by rw [hf.2.2.1]
  have hg : (st1.hostNameArr.filter (fun n => !env.isHostname n)).isEmpty = true ∨ wc = true :=
    hgate.imp (filter_isEmpty_of_all env.isHostname st1.hostNameArr) id
  cases hm : st.installOptions.manualInstall with
  | true =>
    refine ⟨_, _, [Event.manualInstallPopup],
      proceedNext_manual env st st1 wc hu hg (hopt.trans hm), ?_, ?_, ?_, ?_⟩
    · simp
    · simp
    · intro _
      exact ⟨rfl, rfl, hf.2.1, rfl, rfl⟩
    · simp
  | false =>
    cases hs : env.skipBootstrap with
    | true =>
      refine ⟨_, _, [Event.ajaxAmbariService, Event.routerNext],
        proceedNext_skip env st st1 wc hu hg (hopt.trans hm) hs, ?_, ?_, ?_, ?_⟩
      · simp [saveHosts]
      · simp
      · simp
      · simp
    | false =>
      cases hz : (env.launchBootstrap (bootStrapData st1)).looseEqZeroStr with
      | true =>
        refine ⟨_, _, [Event.launchBootstrap (bootStrapData st1), Event.registerErrPopup],
          proceedNext_busy env st st1 wc hu hg (hopt.trans hm) hs hz, ?_, ?_, ?_, ?_⟩
        · simp
        · simp
        · simp
        · simp
      | false =>
        cases ht : (env.launchBootstrap (bootStrapData st1)).truthy with
        | true =>
          refine ⟨_, _, [Event.launchBootstrap (bootStrapData st1), Event.ajaxAmbariService,
              Event.routerNext],
            proceedNext_launched env st st1 wc hu hg (hopt.trans hm) hs hz ht, ?_, ?_, ?_, ?_⟩
          · simp [saveHosts]
          · simp
          · simp
          · simp
        | false =>
          refine ⟨_, _, [Event.launchBootstrap (bootStrapData st1)],
            proceedNext_silent env st st1 wc hu hg (hopt.trans hm) hs hz ht, ?_, ?_, ?_, ?_⟩
          · simp
          · simp
          · simp
          · simp

/-- C8, at a valid host with manual install selected. -/
theorem C8_launch_decision_witness :
    ∃ r st' new,
      proceedNext (sampleEnv [] false (JsVal.num 7))
        (initController "a.example.com".toList true) false = some (r, st') ∧
      st'.log = (initController "a.example.com".toList true).log ++
        Event.enterProceedNext false :: new ∧
      ((∃ d, Event.launchBootstrap d ∈ new) ↔
        ((initController "a.example.com".toList true).installOptions.manualInstall ≠ true ∧
          (sampleEnv [] false (JsVal.num 7)).skipBootstrap = false)) ∧
      ((initController "a.example.com".toList true).installOptions.manualInstall = true →
        r = false ∧ new = [Event.manualInstallPopup] ∧
        st'.hosts = (initController "a.example.com".toList true).hosts ∧
        (manualInstallPopupOnPrimary st').hosts = getHostInfo st' ∧
        (manualInstallPopupOnPrimary st').log =
          st'.log ++ [Event.ajaxAmbariService, Event.routerNext]) ∧
      ((initController "a.example.com".toList true).installOptions.manualInstall = false →
        (sampleEnv [] false (JsVal.num 7)).skipBootstrap = true →
        r = true ∧ new = [Event.ajaxAmbariService, Event.routerNext] ∧
        st' = saveHosts { ({ initController "a.example.com".toList true with
            hostNameArr := ["a.example.com".toList] } : Controller) with
          invalidHostNames := ["a.example.com".toList].filter
            (fun n => !(sampleEnv [] false (JsVal.num 7)).isHostname n),
          log := (initController "a.example.com".toList true).log ++
            [Event.enterProceedNext false] }) :=
  C8_launch_decision (sampleEnv [] false (JsVal.num 7))
    (initController "a.example.com".toList true)
    { initController "a.example.com".toList true with hostNameArr := ["a.example.com".toList] }
    false (by decide) (Or.inl (by decide))

/-- C9 fails as stated: with the falsy request id `null`, `proceedNext` shows no
`registerErrPopup`; the log holds only its entry and the request, and it returns true. -/
theorem C9_counterexample :
    JsVal.null.truthy = false ∧
    (proceedNext (sampleEnv [] false JsVal.null) (initController "a".toList false) false).map
        (fun r => (r.1, r.2.log, r.2.hosts)) =
      some (true,
        [Event.enterProceedNext false,
         Event.launchBootstrap
           "\x7b\"verbose\":true,\"sshKey\":\"key\",\"hosts\":[\"a\"],\"user\":\"root\"\x7d".toList],
        []) ∧
    Event.registerErrPopup ∉
      [Event.enterProceedNext false,
       Event.launchBootstrap
         "\x7b\"verbose\":true,\"sshKey\":\"key\",\"hosts\":[\"a\"],\"user\":\"root\"\x7d".toList] := by
  decide

/-- C9, amended: past the validity gate, with `manualInstall` false and `skipBootstrap`
false, the request id returned by `launchBootstrap` decides: if it is loosely equal to
`'0'` the caller is told by `registerErrPopup` and no host is saved; if it is truthy (and
not loosely equal to `'0'`) it is stored as `bootRequestId` and the hosts are saved; for any
other request id (falsy and not loosely equal to `'0'`) nothing more happens. -/
theorem C9_request_id (env : Env) (st st1 : Controller) (wc : Bool)
    (hu : updateHostNameArr env st = some st1)
    (hgate : (∀ n ∈ st1.hostNameArr, env.isHostname n = true) ∨ wc = true)
    (hm : st.installOptions.manualInstall = false) (hs : env.skipBootstrap = false) :
    st1.hosts = st.hosts ∧
    ((env.launchBootstrap (bootStrapData st1)).looseEqZeroStr = true →
      proceedNext env st wc =
        some (true,
          { st1 with
            invalidHostNames := st1.hostNameArr.filter (fun n => !env.isHostname n),
            log := st.log ++
              [Event.enterProceedNext wc, Event.launchBootstrap (bootStrapData st1),
               Event.registerErrPopup] })) ∧
    ((env.launchBootstrap (bootStrapData st1)).looseEqZeroStr = false →
      (env.launchBootstrap (bootStrapData st1)).truthy = true →
      proceedNext env st wc =
        some (true,
          saveHosts { st1 with
            invalidHostNames := st1.hostNameArr.filter (fun n => !env.isHostname n),
            installOptions :=
              { st1.installOptions with
                bootRequestId := env.launchBootstrap (bootStrapData st1) },
            log := st.log ++
              [Event.enterProceedNext wc, Event.launchBootstrap (bootStrapData st1)] })) ∧
    ((env.launchBootstrap (bootStrapData st1)).looseEqZeroStr = false →
      (env.launchBootstrap (bootStrapData st1)).truthy = false →
      proceedNext env st wc =
        some (true,
          { st1 with
            invalidHostNames := st1.hostNameArr.filter (fun n => !env.isHostname n),
            log := st.log ++
              [Event.enterProceedNext wc, Event.launchBootstrap (bootStrapData st1)] })) := by
  have hf := updateHostNameArr_fields env st st1 hu
  have hopt : st1.installOptions.manualInstall = false := by rw [hf.2.2.1]; exact hm
  have hg : (st1.hostNameArr.filter (fun n => !env.isHostname n)).isEmpty = true ∨ wc = true :=
    hgate.imp (filter_isEmpty_of_all env.isHostname st1.hostNameArr) id
  exact ⟨hf.2.1, proceedNext_busy env st st1 wc hu hg hopt hs,
    proceedNext_launched env st st1 wc hu hg hopt hs,
    proceedNext_silent env st st1 wc hu hg hopt hs⟩

/-- C9 amended, at the request id `"0"`: the caller is notified and no host is saved. -/
theorem C9_request_id_witness :
    proceedNext (sampleEnv [] false (JsVal.str ['0'])) (initController "a".toList false) false =
      some (true,
        { initController "a".toList false with
          hostNameArr := ["a".toList],
          log :=
            [Event.enterProceedNext false,
             Event.launchBootstrap
               "\x7b\"verbose\":true,\"sshKey\":\"key\",\"hosts\":[\"a\"],\"user\":\"root\"\x7d".toList,
             Event.registerErrPopup] }) :=
  (C9_request_id (sampleEnv [] false (JsVal.str ['0'])) (initController "a".toList false)
    { initController "a".toList false with hostNameArr := ["a".toList] } false
    (by decide) (Or.inl (by decide)) rfl rfl).2.1 (by decide)


/-! ## The first matches in a token -/

/-- The start expression matches at the first `[` of the token. -/
theorem matchStart_at_first (u rest : Str) (hu : ∀ c ∈ u, c ≠ '[') :
    matchStart (u ++ '[' :: rest) = some ('[' :: rest.takeWhile isDigit) := by
  induction u with
  | nil => simp [matchStart]
  | cons c t ih =>
    have hc : c ≠ '[' := hu c (List.mem_cons_self _ _)
    rw [List.cons_append, matchStart, if_neg hc]
    exact ih (fun d hd => hu d (List.mem_cons_of_mem _ hd))

theorem matchStart_first (u s r : Str) (hu : ∀ c ∈ u, c ≠ '[') (hs : AllDigits s)
    (hr : ∀ x, r.head? = some x → isDigit x = false) :
    matchStart (u ++ '[' :: (s ++ r)) = some ('[' :: s) := by
  rw [matchStart_at_first u _ hu]
  cases r with
  | nil => rw [List.append_nil, takeWhile_digits_all s hs]
  | cons x r' => rw [takeWhile_digits s r' x hs (hr x rfl)]

/-- A `]` that ends a run of digits at the head of `w ++ - ...` lies in `w`. -/
theorem dropWhile_rbracket_inv (w rest q : Str)
    (h : (w ++ '-' :: rest).dropWhile isDigit = ']' :: q) :
    ∃ d y, AllDigits d ∧ w = d ++ ']' :: y := by
  induction w with
  | nil =>
    rw [List.nil_append, List.dropWhile_cons, show isDigit '-' = false by decide] at h
    simp at h
  | cons a t ih =>
    rw [List.cons_append, List.dropWhile_cons] at h
    by_cases ha : isDigit a = true
    · rw [if_pos ha] at h
      obtain ⟨d, y, hd, hw⟩ := ih h
      refine ⟨a :: d, y, ?_, by rw [hw]; rfl⟩
      intro c hc
      rcases List.mem_cons.mp hc with rfl | hc
      · exact ha
      · exact hd c hc
    · rw [if_neg ha] at h
      have : a = ']' := (List.cons.inj h).1
      exact ⟨[], t, fun c hc => absurd hc (List.not_mem_nil _), by rw [this]; rfl⟩

theorem noDashGroup_tail (c : Char) (w : Str) (h : NoDashGroup (c :: w)) : NoDashGroup w := by
  intro x d y hd hw
  exact h (c :: x) d y hd (by rw [hw]; rfl)

/-- The end expression matches at the first `-digits]` of the token. -/
theorem matchEnd_first (w e t : Str) (hw : NoDashGroup w) (he : AllDigits e) :
    matchEnd (w ++ '-' :: (e ++ ']' :: t)) = some ('-' :: (e ++ [']'])) := by
  induction w with
  | nil => exact matchEnd_here e t he
  | cons c w' ih =>
    rw [List.cons_append, matchEnd_skip]
    · exact ih (noDashGroup_tail c w' hw)
    · intro hc hh
      cases hq : (w' ++ '-' :: (e ++ ']' :: t)).dropWhile isDigit with
      | nil => rw [hq] at hh; simp at hh
      | cons z q =>
        rw [hq] at hh
        simp only [List.head?_cons, Option.some.injEq] at hh
        rw [hh] at hq
        obtain ⟨d, y, hd, hw'⟩ := dropWhile_rbracket_inv w' _ q hq
        exact hw [] d y hd (by rw [hc, hw']; rfl)

/-- A text that begins `P ++ [` and begins with a list free of `[` begins with that list
inside `P`. -/
theorem initial_of_no_lbracket (L P Y q : Str) (hL : ∀ c ∈ L, c ≠ '[')
    (h : P ++ '[' :: Y = L ++ q) : ∃ q', P = L ++ q' := by
  induction L generalizing P with
  | nil => exact ⟨P, rfl⟩
  | cons l L' ih =>
    cases P with
    | nil =>
      rw [List.nil_append, List.cons_append] at h
      exact absurd (List.cons.inj h).1.symm (hL l (List.mem_cons_self _ _))
    | cons p P' =>
      rw [List.cons_append, List.cons_append] at h
      obtain ⟨h1, h2⟩ := List.cons.inj h
      obtain ⟨q', hq'⟩ := ih P' (fun c hc => hL c (List.mem_cons_of_mem _ hc)) h2
      exact ⟨q', by rw [h1, hq']; rfl⟩

theorem hasBracketGroup_cons (c : Char) (P : Str) (h : HasBracketGroup P) :
    HasBracketGroup (c :: P) := by
  obtain ⟨P0, s, e, Q, hs, he, rfl⟩ := h
  exact ⟨c :: P0, s, e, Q, hs, he, rfl⟩

/-- The bracket test finds the first bracket group of the token. -/
theorem findBracket_first (P s e Q : Str) (hP : ¬ HasBracketGroup P)
    (hs : AllDigits s) (he : AllDigits e) :
    findBracket (rangeToken P s e Q) = some (P, s, e, Q) := by
  induction P with
  | nil =>
    show findBracket ('[' :: (s ++ '-' :: (e ++ ']' :: Q))) = _
    rw [findBracket, bracketHere_canon s e Q hs he]
  | cons c P' ih =>
    have hnone : bracketHere (c :: (P' ++ '[' :: (s ++ '-' :: (e ++ ']' :: Q)))) = none := by
      cases hb : bracketHere (c :: (P' ++ '[' :: (s ++ '-' :: (e ++ ']' :: Q)))) with
      | none => rfl
      | some r =>
        obtain ⟨s1, e1, q1⟩ := r
        obtain ⟨hs1, he1, heq⟩ := bracketHere_sound _ s1 e1 q1 hb
        obtain ⟨hc, htl⟩ := List.cons.inj heq
        have hL : ∀ x ∈ s1 ++ '-' :: (e1 ++ [']']), x ≠ '[' := by
          intro x hx
          rcases List.mem_append.mp hx with h1 | h1
          · exact isDigit_ne_lbracket (hs1 x h1)
          · rcases List.mem_cons.mp h1 with rfl | h2
            · decide
            · rcases List.mem_append.mp h2 with h3 | h3
              · exact isDigit_ne_lbracket (he1 x h3)
              · have : x = ']' := by simpa using h3
                rw [this]
                decide
        have htl' : P' ++ '[' :: (s ++ '-' :: (e ++ ']' :: Q)) =
            (s1 ++ '-' :: (e1 ++ [']'])) ++ q1 := by
          rw [htl]
          simp
        obtain ⟨q', hq'⟩ := initial_of_no_lbracket _ P' _ q1 hL htl'
        exfalso
        apply hP
        refine ⟨[], s1, e1, q', hs1, he1, ?_⟩
        rw [hc, hq']
        simp [rangeToken]
    show findBracket (c :: (P' ++ '[' :: (s ++ '-' :: (e ++ ']' :: Q)))) = _
    rw [findBracket, hnone]
    have := ih (fun h => hP (hasBracketGroup_cons c P' h))
    simp only [rangeToken] at this
    simp only [this]

/-- A text without `-digits]` has none either when `[` and digits are appended. -/
theorem noDashGroup_append (P s : Str) (hP : NoDashGroup P) (hs : AllDigits s) :
    NoDashGroup (P ++ '[' :: s) := by
  intro x d y hd h
  have h' : P ++ '[' :: s = (x ++ '-' :: d) ++ ']' :: y := by
    rw [h]
    simp
  rcases List.append_eq_append_iff.mp h' with ⟨a', h1, h2⟩ | ⟨c', h1, h2⟩
  · have hmem : ']' ∈ '[' :: s := by
      rw [h2]
      simp
    rcases List.mem_cons.mp hmem with h3 | h3
    · exact absurd h3 (by decide)
    · exact isDigit_ne_rbracket (hs _ h3) rfl
  · cases c' with
    | nil =>
      rw [List.nil_append] at h2
      have hmem : ']' ∈ '[' :: s := by
        rw [← h2]
        simp
      rcases List.mem_cons.mp hmem with h3 | h3
      · exact absurd h3 (by decide)
      · exact isDigit_ne_rbracket (hs _ h3) rfl
    | cons z c'' =>
      rw [List.cons_append] at h2
      have hz : z = ']' := (List.cons.inj h2).1.symm
      exact hP x d c'' hd (by rw [h1, hz]; simp)

/-- A text without `]` contains no `-digits]`. -/
theorem noDashGroup_of_no_rbracket (P : Str) (hP : ∀ c ∈ P, c ≠ ']') : NoDashGroup P := by
  intro x d y _ h
  exact hP ']' (by rw [h]; simp) rfl

/-- A text without `[` contains no bracket group. -/
theorem not_hasBracketGroup_of_no_lbracket (P : Str) (hP : ∀ c ∈ P, c ≠ '[') :
    ¬ HasBracketGroup P := by
  rintro ⟨P0, s, e, Q, _, _, h⟩
  exact hP '[' (by rw [h]; simp [rangeToken]) rfl

/-- A text without `-` contains no `-digits]`. -/
theorem noDashGroup_of_no_dash (P : Str) (hP : ∀ c ∈ P, c ≠ '-') : NoDashGroup P := by
  intro x d y _ h
  exact hP '-' (by rw [h]; simp) rfl

/-- A number below `2 ^ 53` is below every greater number as Number values too. -/
theorem lt_ofInt_of_small (x y : Nat) (hxy : x < y) (hx : x < 2 ^ 53) :
    Num.lt (Num.ofInt (x : Int)) (Num.ofInt (y : Int)) = true := by
  rw [ofInt_small x (Nat.le_of_lt hx)]
  by_cases hy : y ≤ 2 ^ 53
  · rw [ofInt_small y hy, lt_fin]
    exact decide_eq_true hxy
  · unfold Num.ofInt
    rw [if_pos (Int.natCast_nonneg y), Int.toNat_ofNat]
    cases hr : roundNat y with
    | none => rfl
    | some w =>
      have hw := roundNat_ge y w (by omega) hr
      show Num.lt (Num.fin (x : Int)) (Num.fin (w : Int)) = true
      rw [lt_fin]
      exact decide_eq_true (by omega)


/-! ## Further claims on the pattern expander -/

/-- C11, as it fails: on the token `n[9007199254740992-9007199254740994]` the loop starts
at `i = 9007199254740992` and runs while `i < 9007199254740996` (the Number
`9007199254740994 + 1`); `i++` leaves `i` as it is, so the loop never ends, however many
rounds are allowed, and `parseHostNamesAsPatternExpression` does not return. -/
theorem C11_counterexample :
    parseInt10 "9007199254740992".toList = some (Num.fin 9007199254740992) ∧
    (parseInt10 "9007199254740994]".toList).map Num.addOne =
      some (Num.fin 9007199254740996) ∧
    Num.addOne (Num.fin 9007199254740992) = Num.fin 9007199254740992 ∧
    (∀ (fuel : Nat) (acc : List Str),
      expandRounds "n[9007199254740992-9007199254740994]".toList [] "9007199254740992".toList
        fuel (Num.fin 9007199254740992) (Num.fin 9007199254740996) acc = none) ∧
    parseHostNamesAsPatternExpression
      { initController [] false with
        hostNameArr := ["n[9007199254740992-9007199254740994]".toList] } = none :=
  ⟨by decide, by decide, by decide,
    expandRounds_stuck _ _ _ _ _ (by decide) (by decide), by decide⟩

/-- C11, amended: whenever the bracket test matches a token, the start match and the end
match both succeed on it, so no `null` is indexed, whatever the token; the callback
returns on every token whose end number is below `2 ^ 53`, and
`parseHostNamesAsPatternExpression` returns on every list of such tokens; a loop from a
natural number `k` to an end number `h < 2 ^ 53` ends after `h + 1 - k` rounds. -/
theorem C11_no_raise :
    (∀ a, testBracket a = true →
      (matchStart a).isSome = true ∧ (matchEnd a).isSome = true) ∧
    (∀ a, smallRange a = true → ∃ r, expandToken a = some r) ∧
    (∀ st : Controller, (∀ a ∈ st.hostNameArr, smallRange a = true) →
      ∃ st', parseHostNamesAsPatternExpression st = some st') ∧
    (∀ (a extra start : Str) (k h : Nat), h < 2 ^ 53 →
      ∃ names, expandLoop a extra start (Num.fin (k : Int)) (Num.fin (h : Int)) = some names ∧
        names.length = h + 1 - k) := by
  refine ⟨?_, expandToken_returns, ?_, ?_⟩
  · intro a ha
    exact ⟨matchStart_isSome_of_find a ha, matchEnd_isSome_of_find a ha⟩
  · intro st hst
    obtain ⟨x, f, hx⟩ := parseLoop_returns st.hostNameArr hst
    exact ⟨_, parse_eq st x f hx⟩
  · intro a extra start k h hh
    exact ⟨_, expandLoop_small a extra start k h hh, by simp⟩

/-- C11, at a batch with the malformed tokens `a[b[1-3]` and `x]-[`. -/
theorem C11_no_raise_witness :
    ((matchStart "a[b[1-3]".toList).isSome = true ∧
      (matchEnd "a[b[1-3]".toList).isSome = true) ∧
    (∃ r, expandToken "a[b[1-3]".toList = some r) ∧
    (∃ st', parseHostNamesAsPatternExpression
      { initController [] false with
        hostNameArr := ["a[b[1-3]".toList, "x]-[".toList] } = some st') ∧
    (∃ names, expandLoop "n[8-11]".toList [] "8".toList (Num.fin (8 : Nat)) (Num.fin (11 : Nat)) =
        some names ∧ names.length = 11 + 1 - 8) :=
  ⟨C11_no_raise.1 "a[b[1-3]".toList (by decide),
   C11_no_raise.2.1 "a[b[1-3]".toList (by decide),
   C11_no_raise.2.2.1
     { initController [] false with hostNameArr := ["a[b[1-3]".toList, "x]-[".toList] }
     (by decide),
   C11_no_raise.2.2.2 "n[8-11]".toList [] "8".toList 8 11 (by decide)⟩

/-- C18 fails as stated: `a[b[1-3]` contains the group `[1-3]` with `1 ≤ 3`, but the start
text is the (empty) digit run after the first `[`, and the token is not expanded. -/
theorem C18_counterexample :
    "a[b[1-3]".toList = rangeToken "a[b".toList "1".toList "3".toList [] ∧
    decValue "1".toList ≤ decValue "3".toList ∧
    matchStart "a[b[1-3]".toList = some "[".toList ∧
    expandToken "a[b[1-3]".toList = some (["a[b[1-3]".toList], false) := by
  decide

/-- A second token on which the end text is not that of the substituted group:
`x-5]y[1-3]` is expanded to five names. -/
theorem expandToken_stray_end :
    expandToken "x-5]y[1-3]".toList =
      some (["x-5]y1".toList, "x-5]y2".toList, "x-5]y3".toList, "x-5]y4".toList,
        "x-5]y5".toList], true) := by
  decide

/-- C18, amended: let `[s-e]`, between `P` and `Q`, be the first bracket group of a token
(`s`, `e` digit strings, no bracket group in `P`), let `s'` be the run of digits that
follows the first `[` of the token and `e'` the digits of its first `-digits]`, with
`int(e') < 2 ^ 53`. The start and end texts are `s'` and `e'`; they are `s` and `e` when
`P` contains no `[` and no `-digits]`. The group substituted is `[s-e]`. The token is
treated as a pattern exactly when `s'` and `e'` are not empty and `int(s') ≤ int(e')`,
and it then expands to `int(e') - int(s') + 1` names `P ++ n ++ Q` numbered from
`int(s')`; otherwise it is passed through. -/
theorem C18_first_group (P s e Q u s' r w e' t : Str)
    (hs : AllDigits s) (he : AllDigits e) (hfirst : ¬ HasBracketGroup P)
    (hu : ∀ c ∈ u, c ≠ '[') (hs' : AllDigits s')
    (hr : ∀ x, r.head? = some x → isDigit x = false)
    (hopen : rangeToken P s e Q = u ++ '[' :: (s' ++ r))
    (hw : NoDashGroup w) (he' : AllDigits e')
    (hclose : rangeToken P s e Q = w ++ '-' :: (e' ++ ']' :: t))
    (hb : decValue e' < 2 ^ 53) :
    matchStart (rangeToken P s e Q) = some ('[' :: s') ∧
    matchEnd (rangeToken P s e Q) = some ('-' :: (e' ++ [']'])) ∧
    findBracket (rangeToken P s e Q) = some (P, s, e, Q) ∧
    ((∀ c ∈ P, c ≠ '[') → NoDashGroup P → s' = s ∧ e' = e) ∧
    ∃ names flag,
      expandToken (rangeToken P s e Q) = some (names, flag) ∧
      (flag = true ↔ (s' ≠ [] ∧ e' ≠ [] ∧ decValue s' ≤ decValue e')) ∧
      (flag = true →
        names.length = decValue e' - decValue s' + 1 ∧
        ∀ k, k < names.length →
          ∃ n, AllDigits n ∧ decValue n = decValue s' + k ∧ names[k]? = some (P ++ n ++ Q)) ∧
      (flag = false → names = [rangeToken P s e Q]) := by
  have h1 : matchStart (rangeToken P s e Q) = some ('[' :: s') := by
    rw [hopen]
    exact matchStart_first u s' r hu hs' hr
  have h2 : matchEnd (rangeToken P s e Q) = some ('-' :: (e' ++ [']'])) := by
    rw [hclose]
    exact matchEnd_first w e' t hw he'
  have hf := findBracket_first P s e Q hfirst hs he
  refine ⟨h1, h2, hf, ?_, ?_⟩
  · intro hP1 hP2
    have h1' := matchStart_canon P s (e ++ ']' :: Q) '-' hP1 hs (by decide)
    have h2' : matchEnd (rangeToken P s e Q) = some ('-' :: (e ++ [']'])) := by
      have := matchEnd_first (P ++ '[' :: s) e Q (noDashGroup_append P s hP2 hs) he
      simpa [rangeToken] using this
    rw [rangeToken] at h1
    rw [h1] at h1'
    rw [h2] at h2'
    simp only [Option.some.injEq, List.cons.injEq, true_and] at h1' h2'
    exact ⟨h1', List.append_cancel_right h2'⟩
  · by_cases hgood : s' ≠ [] ∧ e' ≠ [] ∧ decValue s' ≤ decValue e'
    · obtain ⟨hsn, hen, hle⟩ := hgood
      refine ⟨_, true,
        expandToken_of_matches_valid _ P s e Q s' e' hf h1 h2 hs' he' hsn hen hle hb,
        by simp [hsn, hen, hle], ?_, by simp⟩
      intro _
      refine ⟨by simp only [List.length_map, List.length_range']; omega, ?_⟩
      intro k hk
      simp only [List.length_map, List.length_range'] at hk
      have hk53 : decValue s' + k < 2 ^ 53 := by omega
      refine ⟨numeral (extraOf s') s' (Num.fin ((decValue s' + k : Nat) : Int)),
        numeral_allDigits s' _ hk53, decValue_numeral s' _ hk53, ?_⟩
      rw [List.getElem?_map, List.getElem?_range' _ _ hk]
      simp
    · have hbad : s' = [] ∨ e' = [] ∨
          Num.lt (Num.ofInt (decValue e' : Int)) (Num.ofInt (decValue s' : Int)) = true := by
        by_cases hsn : s' = []
        · exact Or.inl hsn
        · by_cases hen : e' = []
          · exact Or.inr (Or.inl hen)
          · have hlt : decValue e' < decValue s' := by
              by_contra hc
              exact hgood ⟨hsn, hen, by omega⟩
            exact Or.inr (Or.inr (lt_ofInt_of_small _ _ hlt hb))
      refine ⟨_, false,
        expandToken_of_matches_invalid _ P s e Q s' e' hf h1 h2 hs' he' hbad,
        ?_, by simp, fun _ => rfl⟩
      constructor
      · intro h
        exact absurd h (by simp)
      · intro h
        exact absurd h hgood

/-- C18 amended, at `a]b[1-3]`: a `]` before the group that ends no `-digits]`. -/
theorem C18_first_group_witness :
    matchStart (rangeToken "a]b".toList "1".toList "3".toList []) = some ('[' :: "1".toList) ∧
    matchEnd (rangeToken "a]b".toList "1".toList "3".toList []) =
      some ('-' :: ("3".toList ++ [']'])) ∧
    findBracket (rangeToken "a]b".toList "1".toList "3".toList []) =
      some ("a]b".toList, "1".toList, "3".toList, []) ∧
    ((∀ c ∈ "a]b".toList, c ≠ '[') → NoDashGroup "a]b".toList →
      "1".toList = "1".toList ∧ "3".toList = "3".toList) ∧
    ∃ names flag,
      expandToken (rangeToken "a]b".toList "1".toList "3".toList []) = some (names, flag) ∧
      (flag = true ↔
        ("1".toList ≠ [] ∧ "3".toList ≠ [] ∧ decValue "1".toList ≤ decValue "3".toList)) ∧
      (flag = true →
        names.length = decValue "3".toList - decValue "1".toList + 1 ∧
        ∀ k, k < names.length →
          ∃ n, AllDigits n ∧ decValue n = decValue "1".toList + k ∧
            names[k]? = some ("a]b".toList ++ n ++ [])) ∧
      (flag = false → names = [rangeToken "a]b".toList "1".toList "3".toList []]) :=
  C18_first_group "a]b".toList "1".toList "3".toList [] "a]b".toList "1".toList "-3]".toList
    "a]b[1".toList "3".toList []
    (by unfold AllDigits; decide) (by unfold AllDigits; decide)
    (not_hasBracketGroup_of_no_lbracket _ (by decide))
    (by decide) (by unfold AllDigits; decide) (by decide) (by decide)
    (noDashGroup_of_no_dash _ (by decide)) (by unfold AllDigits; decide) (by decide)
    (by decide)

/-- The expansion of `a]b[1-3]` evaluated. -/
theorem expandToken_stray_rbracket :
    expandToken "a]b[1-3]".toList =
      some (["a]b1".toList, "a]b2".toList, "a]b3".toList], true) := by
  decide

/-- The expansion of `n-[8-10]-x[1]` evaluated. -/
theorem expandToken_dash_before_group :
    expandToken "n-[8-10]-x[1]".toList =
      some (["n-8-x[1]".toList, "n-9-x[1]".toList, "n-10-x[1]".toList], true) := by
  decide

/-! ## Further claims on the batch processing -/

theorem expandToken_nil : expandToken [] = some ([[]], false) := by decide

/-- The batch of a blank input: the single empty token. -/
theorem updateHostNameArr_blank (env : Env) (st : Controller)
    (h : trim st.installOptions.hostNames = []) :
    updateHostNameArr env st = some { st with
      hostNameArr := [([] : Str)].filter (fun n => decide (n ∉ env.installedHostNames)),
      isPattern := false,
      inputtedAgainHostNames :=
        [([] : Str)].filter (fun n => decide (n ∈ env.installedHostNames)) } := by
  apply updateHostNameArr_eq
  rw [h]
  decide

/-- C12 fails as stated: for the blank input of two spaces with nothing registered, the
batch holds the empty name as a new host, and the sample validator reports it invalid. -/
theorem C12_counterexample :
    trim "  ".toList = [] ∧
    (isAllHostNamesValid (sampleEnv [] false JsVal.null) (initController "  ".toList false)).map
        (fun r =>
          (r.1, r.2.hostNameArr, r.2.inputtedAgainHostNames, r.2.invalidHostNames,
            r.2.isPattern)) =
      some (false, [[]], [], [[]], false) := by
  decide

/-- C12, amended: for a raw input that is empty after trimming, the batch is the single
empty token: it is the only new host unless the empty name is registered (then it is the
only re-entered host), it is the only invalid host exactly when it is new and rejected by
`validator.isHostname`, and no pattern is detected. -/
theorem C12_blank_input (env : Env) (st : Controller)
    (h : trim st.installOptions.hostNames = []) :
    ∃ st1 r st2,
      updateHostNameArr env st = some st1 ∧
      isAllHostNamesValid env st = some (r, st2) ∧
      st2.isPattern = false ∧
      st2.hostNameArr = (if ([] : Str) ∈ env.installedHostNames then [] else [[]]) ∧
      st2.inputtedAgainHostNames = (if ([] : Str) ∈ env.installedHostNames then [[]] else []) ∧
      st2.invalidHostNames =
        (if ([] : Str) ∈ env.installedHostNames ∨ env.isHostname [] = true then []
         else [[]]) := by
  have hu := updateHostNameArr_blank env st h
  refine ⟨_, _, _, hu, isAllHostNamesValid_eq env st _ hu, rfl, ?_, ?_, ?_⟩
  · by_cases hm : ([] : Str) ∈ env.installedHostNames <;> simp [hm]
  · by_cases hm : ([] : Str) ∈ env.installedHostNames <;> simp [hm]
  · by_cases hm : ([] : Str) ∈ env.installedHostNames
    · simp [hm]
    · by_cases hv : env.isHostname [] = true <;> simp [hm, hv]

/-- C12 amended, at an input of two spaces with nothing registered. -/
theorem C12_blank_input_witness :
    ∃ st1 r st2,
      updateHostNameArr (sampleEnv [] false JsVal.null) (initController "  ".toList false) =
        some st1 ∧
      isAllHostNamesValid (sampleEnv [] false JsVal.null) (initController "  ".toList false) =
        some (r, st2) ∧
      st2.isPattern = false ∧
      st2.hostNameArr =
        (if ([] : Str) ∈ (sampleEnv [] false JsVal.null).installedHostNames then []
         else [[]]) ∧
      st2.inputtedAgainHostNames =
        (if ([] : Str) ∈ (sampleEnv [] false JsVal.null).installedHostNames then [[]]
         else []) ∧
      st2.invalidHostNames =
        (if ([] : Str) ∈ (sampleEnv [] false JsVal.null).installedHostNames ∨
            (sampleEnv [] false JsVal.null).isHostname [] = true then []
         else [[]]) :=
  C12_blank_input (sampleEnv [] false JsVal.null) (initController "  ".toList false)
    (by decide)


/-! ## What a call of `proceedNext` leaves behind -/

/-- The batch fields after `proceedNext` are those `updateHostNameArr` computes, the
invalid names are the rejected new hosts, and no pattern or installed-hosts dialog is
opened. -/
theorem proceedNext_shape (env : Env) (st st1 : Controller) (wc : Bool)
    (hu : updateHostNameArr env st = some st1) :
    ∃ r st' tail,
      proceedNext env st wc = some (r, st') ∧
      st'.hostNameArr = st1.hostNameArr ∧
      st'.inputtedAgainHostNames = st1.inputtedAgainHostNames ∧
      st'.isPattern = st1.isPattern ∧
      st'.invalidHostNames = st1.hostNameArr.filter (fun n => !env.isHostname n) ∧
      st'.installOptions.hostNames = st.installOptions.hostNames ∧
      st'.log = st.log ++ Event.enterProceedNext wc :: tail ∧
      (∀ names, Event.installedHostsPopup names ∉ tail) ∧
      (∀ items, Event.hostNamePatternPopup items ∉ tail) := by
  have hf := updateHostNameArr_fields env st st1 hu
  have ho : st1.installOptions.hostNames = st.installOptions.hostNames := by rw [hf.2.2.1]
  rw [proceedNext_eq env st st1 wc hu]
  simp only
  split_ifs
  · exact ⟨_, _, [_], rfl, rfl, rfl, rfl, rfl, ho, List.append_assoc _ _ _, by simp, by simp⟩
  · exact ⟨_, _, [_], rfl, rfl, rfl, rfl, rfl, ho, List.append_assoc _ _ _, by simp, by simp⟩
  · exact ⟨_, _, [_, _], rfl, rfl, rfl, rfl, rfl, ho, List.append_assoc _ _ _, by simp, by simp⟩
  · exact ⟨_, _, [_, _], rfl, rfl, rfl, rfl, rfl, ho,
      by simp only [List.append_assoc]; rfl, by simp, by simp⟩
  · exact ⟨_, _, [_, _, _], rfl, rfl, rfl, rfl, rfl, ho,
      by simp only [saveHosts, List.append_assoc]; rfl, by simp, by simp⟩
  · exact ⟨_, _, [_], rfl, rfl, rfl, rfl, rfl, ho,
      by simp only [List.append_assoc]; rfl, by simp, by simp⟩

/-- A call of `proceedNext` that returns has run the batch processing to its end. -/
theorem proceedNext_inv (env : Env) (st st' : Controller) (wc r : Bool)
    (hp : proceedNext env st wc = some (r, st')) :
    ∃ st1, updateHostNameArr env st = some st1 := by
  cases hx : parseLoop (splitWs (trim st.installOptions.hostNames)) [] false with
  | some q => exact ⟨_, updateHostNameArr_eq env st q.1 q.2 hx⟩
  | none =>
    have hn : updateHostNameArr env
        { st with log := st.log ++ [Event.enterProceedNext wc] } = none :=
      updateHostNameArr_none env _ hx
    unfold proceedNext at hp
    simp only [isAllHostNamesValid_none env _ hn] at hp
    exact absurd hp (by simp)

/-- The two lists `updateHostNameArr` leaves share no name. -/
theorem updateHostNameArr_disjoint (env : Env) (st st1 : Controller)
    (hu : updateHostNameArr env st = some st1) :
    ∀ n, n ∈ st1.hostNameArr → n ∉ st1.inputtedAgainHostNames := by
  obtain ⟨x, f, hx⟩ := updateHostNameArr_inv env st st1 hu
  rw [updateHostNameArr_eq env st x f hx] at hu
  simp only [Option.some.injEq] at hu
  rw [← hu]
  intro n h1 h2
  simp only [List.mem_filter, decide_eq_true_eq] at h1 h2
  exact h1.2 h2.2

/-- A call of `evaluateStep` either leaves the two lists as they are or replaces them
by a result of `updateHostNameArr`. -/
theorem evaluateStep_batch (env : Env) (st st' : Controller) (r : Bool)
    (h : evaluateStep env st = some (r, st')) :
    (st'.hostNameArr = st.hostNameArr ∧
      st'.inputtedAgainHostNames = st.inputtedAgainHostNames) ∨
    ∃ base st1, updateHostNameArr env base = some st1 ∧
      st'.hostNameArr = st1.hostNameArr ∧
      st'.inputtedAgainHostNames = st1.inputtedAgainHostNames := by
  unfold evaluateStep at h
  by_cases h0 : isSubmitDisabled st = true
  · rw [if_pos h0] at h
    simp only [Option.some.injEq, Prod.mk.injEq] at h
    rw [← h.2]
    exact Or.inl ⟨rfl, rfl⟩
  · rw [if_neg h0] at h
    simp only at h
    by_cases h1 : ((checkHostError (setHasSubmitted st true)).hostsError.isSome ||
        (sshUserError (checkHostError (setHasSubmitted st true))).isSome ||
        (sshKeyError (checkHostError (setHasSubmitted st true))).isSome) = true
    · rw [if_pos h1] at h
      simp only [Option.some.injEq, Prod.mk.injEq] at h
      rw [← h.2, checkHostError_setHasSubmitted]
      exact Or.inl ⟨rfl, rfl⟩
    · rw [if_neg h1] at h
      cases h2 : updateHostNameArr env (checkHostError (setHasSubmitted st true)) with
      | none =>
        rw [h2] at h
        exact absurd h (by simp)
      | some st2 =>
        rw [h2] at h
        simp only at h
        split_ifs at h
        · simp only [Option.some.injEq, Prod.mk.injEq] at h
          rw [← h.2]
          exact Or.inr ⟨_, st2, h2, rfl, rfl⟩
        · simp only [Option.some.injEq, Prod.mk.injEq] at h
          rw [← h.2]
          exact Or.inr ⟨_, st2, h2, rfl, rfl⟩
        · simp only [Option.some.injEq, Prod.mk.injEq] at h
          rw [← h.2]
          exact Or.inr ⟨_, st2, h2, rfl, rfl⟩
        · have h3 := updateHostNameArr_again env _ st2 h2
          obtain ⟨r3, st4, tail, hp, ha, hb, _⟩ := proceedNext_shape env st2 st2 false h3
          rw [hp] at h
          simp only [Option.some.injEq, Prod.mk.injEq] at h
          rw [← h.2]
          exact Or.inr ⟨st2, st2, h3, ha, hb⟩

/-! ## Further claims on the decision flow -/

/-- C13 fails as stated: with the input `n[1-2] b`, `b` registered and `skipBootstrap`
set, `evaluateStep` opens the pattern dialog while `b` is a re-entered host; confirming
that dialog enters `proceedNext` and saves the hosts, and no installed-hosts dialog is
ever opened. -/
theorem C13_counterexample :
    (evaluateStep (sampleEnv ["b".toList] true JsVal.null)
        (initController "n[1-2] b".toList false)).map
        (fun r => (r.1, r.2.inputtedAgainHostNames, r.2.log)) =
      some (false, ["b".toList],
        [Event.hostNamePatternPopup ["n1".toList, "n2".toList]]) ∧
    ((evaluateStep (sampleEnv ["b".toList] true JsVal.null)
        (initController "n[1-2] b".toList false)).bind
        (fun r => hostNamePatternPopupOnPrimary (sampleEnv ["b".toList] true JsVal.null) r.2)).map
        (fun s => s.log) =
      some [Event.hostNamePatternPopup ["n1".toList, "n2".toList],
        Event.enterProceedNext false, Event.ajaxAmbariService, Event.routerNext] := by
  decide

/-- In the state in which `evaluateStep` opened the pattern dialog, the batch processing
returns, whatever the registered hosts are by then. -/
theorem updateHostNameArr_after_pattern (env0 env : Env) (st stP : Controller)
    (hev : evaluateStep env0 st = some (false, stP))
    (hlog : stP.log = st.log ++ [Event.hostNamePatternPopup stP.hostNameArr]) :
    ∃ st1, updateHostNameArr env stP = some st1 := by
  have hne : ∀ (l : List Event) (x : Event), l ≠ l ++ [x] := by
    intro l x h
    have := congrArg List.length h
    simp at this
  unfold evaluateStep at hev
  by_cases h0 : isSubmitDisabled st = true
  · rw [if_pos h0] at hev
    simp only [Option.some.injEq, Prod.mk.injEq, true_and] at hev
    rw [← hev] at hlog
    exact absurd hlog (hne _ _)
  · rw [if_neg h0] at hev
    simp only at hev
    by_cases h1 : ((checkHostError (setHasSubmitted st true)).hostsError.isSome ||
        (sshUserError (checkHostError (setHasSubmitted st true))).isSome ||
        (sshKeyError (checkHostError (setHasSubmitted st true))).isSome) = true
    · rw [if_pos h1] at hev
      simp only [Option.some.injEq, Prod.mk.injEq, true_and] at hev
      rw [← hev, checkHostError_setHasSubmitted] at hlog
      exact absurd hlog (hne _ _)
    · rw [if_neg h1] at hev
      cases h2 : updateHostNameArr env0 (checkHostError (setHasSubmitted st true)) with
      | none =>
        rw [h2] at hev
        exact absurd hev (by simp)
      | some st2 =>
        rw [h2] at hev
        simp only at hev
        have hf := updateHostNameArr_fields env0 _ st2 h2
        have hlog2 : st2.log = st.log := by rw [hf.1, checkHostError_setHasSubmitted]
        have hnames : st2.installOptions.hostNames = st.installOptions.hostNames := by
          rw [hf.2.2.1, checkHostError_setHasSubmitted]
        obtain ⟨x, f, hx⟩ := updateHostNameArr_inv env0 _ st2 h2
        rw [hostNames_checkHostError] at hx
        split_ifs at hev with h3 h4 h5
        · simp only [Option.some.injEq, Prod.mk.injEq, true_and] at hev
          rw [← hev] at hlog
          exact absurd (hlog2.symm.trans hlog) (hne _ _)
        · simp only [Option.some.injEq, Prod.mk.injEq, true_and] at hev
          have hP : stP.installOptions.hostNames = st.installOptions.hostNames := by
            rw [← hev]
            exact hnames
          exact ⟨_, updateHostNameArr_eq env stP x f (by rw [hP]; exact hx)⟩
        · simp at hev
        · cases hp : proceedNext env0 st2 false with
          | none => rw [hp] at hev; simp at hev
          | some q => rw [hp] at hev; simp at hev

/-- C13, amended: when the pattern confirmation is accepted, the flow continues directly
at `proceedNext`, whether or not hosts were entered again: from there on neither the
installed-hosts dialog nor the pattern dialog is opened. The state `stP` is one on whose
input the batch processing returns, as is every state in which `evaluateStep` opened the
dialog (`updateHostNameArr_after_pattern`). -/
theorem C13_pattern_confirm (env : Env) (stP st1 : Controller)
    (hu : updateHostNameArr env stP = some st1) :
    ∃ r st' tail,
      proceedNext env stP false = some (r, st') ∧
      hostNamePatternPopupOnPrimary env stP = some st' ∧
      st'.log = stP.log ++ Event.enterProceedNext false :: tail ∧
      (∀ names, Event.installedHostsPopup names ∉ tail) ∧
      (∀ items, Event.hostNamePatternPopup items ∉ tail) := by
  obtain ⟨r, st', tail, hp, _, _, _, _, _, hl, hi, hpat⟩ := proceedNext_shape env stP st1 false hu
  refine ⟨r, st', tail, hp, ?_, hl, hi, hpat⟩
  simp [hostNamePatternPopupOnPrimary, hp]

/-- C13 amended, at the state in which `evaluateStep` opened the pattern dialog for the
input `n[1-2] b` with `b` registered. -/
theorem C13_pattern_confirm_witness :
    ∃ r st' tail,
      proceedNext (sampleEnv ["b".toList] true JsVal.null)
        { initController "n[1-2] b".toList false with
          hostNameArr := ["n1".toList, "n2".toList], isPattern := true,
          inputtedAgainHostNames := ["b".toList], hasSubmitted := true,
          log := [Event.hostNamePatternPopup ["n1".toList, "n2".toList]] } false =
        some (r, st') ∧
      hostNamePatternPopupOnPrimary (sampleEnv ["b".toList] true JsVal.null)
        { initController "n[1-2] b".toList false with
          hostNameArr := ["n1".toList, "n2".toList], isPattern := true,
          inputtedAgainHostNames := ["b".toList], hasSubmitted := true,
          log := [Event.hostNamePatternPopup ["n1".toList, "n2".toList]] } = some st' ∧
      st'.log = [Event.hostNamePatternPopup ["n1".toList, "n2".toList]] ++
        Event.enterProceedNext false :: tail ∧
      (∀ names, Event.installedHostsPopup names ∉ tail) ∧
      (∀ items, Event.hostNamePatternPopup items ∉ tail) :=
  C13_pattern_confirm (sampleEnv ["b".toList] true JsVal.null)
    { initController "n[1-2] b".toList false with
      hostNameArr := ["n1".toList, "n2".toList], isPattern := true,
      inputtedAgainHostNames := ["b".toList], hasSubmitted := true,
      log := [Event.hostNamePatternPopup ["n1".toList, "n2".toList]] }
    { initController "n[1-2] b".toList false with
      hostNameArr := ["n1".toList, "n2".toList], isPattern := true,
      inputtedAgainHostNames := ["b".toList], hasSubmitted := true,
      log := [Event.hostNamePatternPopup ["n1".toList, "n2".toList]] }
    (by decide)

/-- The state of the example of C13 is the one `evaluateStep` leaves. -/
theorem evaluateStep_pattern_example :
    evaluateStep (sampleEnv ["b".toList] true JsVal.null)
        (initController "n[1-2] b".toList false) =
      some (false,
        { initController "n[1-2] b".toList false with
          hostNameArr := ["n1".toList, "n2".toList], isPattern := true,
          inputtedAgainHostNames := ["b".toList], hasSubmitted := true,
          log := [Event.hostNamePatternPopup ["n1".toList, "n2".toList]] }) := by
  decide

/-- C14 fails as stated: on a fresh controller with a blank host list, manual install
off and a blank ssh user, `evaluateStep` returns at its first test: `hasSubmitted` stays
false and `hostsError` stays null although the host list is blank. -/
theorem C14_counterexample :
    trim ([] : Str) = [] ∧
    (sshUserError
        { initController [] false with
          installOptions :=
            { hostNames := [], manualInstall := false, sshKey := "key".toList, sshUser := [],
              bootRequestId := JsVal.null } }).isSome = true ∧
    (evaluateStep (sampleEnv [] false JsVal.null)
        { initController [] false with
          installOptions :=
            { hostNames := [], manualInstall := false, sshKey := "key".toList, sshUser := [],
              bootRequestId := JsVal.null } }).map
        (fun r => (r.1, r.2.hostsError, r.2.hasSubmitted)) =
      some (false, none, false) := by
  decide

/-- C14, amended: when a submit fails the required-field validation, `evaluateStep`
returns false, and afterwards `sshUserError` is non-null exactly when manual install is
off and the ssh user is blank, in every case; `sshKeyError` is non-null exactly when
manual install is off and the ssh key is blank, provided a submit was attempted before
or no error is pending as `evaluateStep` is entered; `hostsError` is set exactly when the
host list is blank, provided no error is pending as `evaluateStep` is entered. -/
theorem C14_independent_errors (env : Env) (st : Controller)
    (hfail : trim st.installOptions.hostNames = [] ∨
      (st.installOptions.manualInstall = false ∧
        (trim st.installOptions.sshKey = [] ∨ trim st.installOptions.sshUser = []))) :
    ∃ st',
      evaluateStep env st = some (false, st') ∧
      ((sshUserError st').isSome = true ↔
        (st.installOptions.manualInstall = false ∧ trim st.installOptions.sshUser = [])) ∧
      (st.hasSubmitted = true ∨ isSubmitDisabled st = false →
        ((sshKeyError st').isSome = true ↔
          (st.installOptions.manualInstall = false ∧ trim st.installOptions.sshKey = []))) ∧
      (isSubmitDisabled st = false →
        (st'.hostsError.isSome = true ↔ trim st.installOptions.hostNames = [])) := by
  by_cases h0 : isSubmitDisabled st = true
  · refine ⟨st, ?_, ?_, ?_, fun h => absurd h0 (by rw [h]; simp)⟩
    · unfold evaluateStep
      rw [if_pos h0]
    · simp [sshUserError, List.isEmpty_iff]
    · intro h
      rcases h with h | h
      · simp [sshKeyError, List.isEmpty_iff, h]
      · exact absurd h0 (by rw [h]; simp)
  · have hblock : ((checkHostError (setHasSubmitted st true)).hostsError.isSome ||
        (sshUserError (checkHostError (setHasSubmitted st true))).isSome ||
        (sshKeyError (checkHostError (setHasSubmitted st true))).isSome) = true := by
      rw [checkHostError_setHasSubmitted]
      simp only [sshUserError, sshKeyError]
      rcases hfail with hh | ⟨hm, hk | hu⟩
      · simp [hh]
      · simp [hm, hk]
      · simp [hm, hu]
    refine ⟨checkHostError (setHasSubmitted st true), ?_, ?_, fun _ => ?_, fun _ => ?_⟩
    · unfold evaluateStep
      rw [if_neg h0]
      simp only [hblock, if_true]
    · rw [checkHostError_setHasSubmitted]
      simp [sshUserError, List.isEmpty_iff]
    · rw [checkHostError_setHasSubmitted]
      simp [sshKeyError, List.isEmpty_iff]
    · rw [checkHostError_setHasSubmitted]
      simp only [List.isEmpty_iff]
      split_ifs with hb <;> simp [hb]

/-- C14 amended, at two controllers with manual install off: after a submit, with a
blank ssh user and a blank ssh key (host list `a`), both ssh errors are reported; on a
fresh controller with a blank host list and a blank ssh key (user `root`), the host
error and the ssh-key error are reported and the ssh-user error is not. -/
theorem C14_independent_errors_witness :
    (∃ st',
      evaluateStep (sampleEnv [] false JsVal.null)
        { initController [] false with
          hasSubmitted := true,
          installOptions :=
            { hostNames := "a".toList, manualInstall := false, sshKey := [],
              sshUser := [], bootRequestId := JsVal.null } } = some (false, st') ∧
      (sshUserError st').isSome = true ∧
      (sshKeyError st').isSome = true) ∧
    (∃ st',
      evaluateStep (sampleEnv [] false JsVal.null)
        { initController [] false with
          installOptions :=
            { hostNames := [], manualInstall := false, sshKey := [], sshUser := "root".toList,
              bootRequestId := JsVal.null } } = some (false, st') ∧
      (sshUserError st').isSome = false ∧
      st'.hostsError.isSome = true ∧
      (sshKeyError st').isSome = true) :=
  ⟨(C14_independent_errors (sampleEnv [] false JsVal.null)
      { initController [] false with
        hasSubmitted := true,
        installOptions :=
          { hostNames := "a".toList, manualInstall := false, sshKey := [],
            sshUser := [], bootRequestId := JsVal.null } }
      (Or.inr ⟨rfl, Or.inr (by decide)⟩)).elim
      fun st' h => ⟨st', h.1, h.2.1.mpr ⟨rfl, by decide⟩,
        (h.2.2.1 (Or.inl rfl)).mpr ⟨rfl, by decide⟩⟩,
   (C14_independent_errors (sampleEnv [] false JsVal.null)
      { initController [] false with
        installOptions :=
          { hostNames := [], manualInstall := false, sshKey := [], sshUser := "root".toList,
            bootRequestId := JsVal.null } }
      (Or.inl (by decide))).elim
      fun st' h => ⟨st', h.1,
        by
          cases hs : (sshUserError st').isSome with
          | false => rfl
          | true => exact absurd (h.2.1.mp hs).2 (by decide),
        (h.2.2.2 (by decide)).mpr (by decide),
        (h.2.2.1 (Or.inr (by decide))).mpr ⟨rfl, by decide⟩⟩⟩

/-! ## Recomputation of the batch -/

/-- C17: the result of `updateHostNameArr` depends only on `hostNames` and the registered
names, so running it again changes nothing, any state with the same `hostNames` yields the
same new hosts, re-entered hosts and pattern flag, and confirming the pattern dialog that
`evaluateStep` opened hands `proceedNext` exactly the lists that were computed and shown. -/
theorem C17_recompute_stable (env : Env) (st st1 : Controller)
    (hu : updateHostNameArr env st = some st1) :
    updateHostNameArr env st1 = some st1 ∧
    (∀ st' : Controller, st'.installOptions.hostNames = st.installOptions.hostNames →
      ∃ st1', updateHostNameArr env st' = some st1' ∧
        st1'.hostNameArr = st1.hostNameArr ∧
        st1'.inputtedAgainHostNames = st1.inputtedAgainHostNames ∧
        st1'.isPattern = st1.isPattern) ∧
    ∃ st3,
      hostNamePatternPopupOnPrimary env (hostNamePatternPopup st1 st1.hostNameArr) = some st3 ∧
      st3.hostNameArr = st1.hostNameArr ∧
      st3.inputtedAgainHostNames = st1.inputtedAgainHostNames := by
  obtain ⟨x, f, hx⟩ := updateHostNameArr_inv env st st1 hu
  have h1 := updateHostNameArr_eq env st x f hx
  rw [hu] at h1
  simp only [Option.some.injEq] at h1
  have hagree : ∀ st' : Controller,
      st'.installOptions.hostNames = st.installOptions.hostNames →
      ∃ st1', updateHostNameArr env st' = some st1' ∧
        st1'.hostNameArr = st1.hostNameArr ∧
        st1'.inputtedAgainHostNames = st1.inputtedAgainHostNames ∧
        st1'.isPattern = st1.isPattern := by
    intro st' hs
    have hx' : parseLoop (splitWs (trim st'.installOptions.hostNames)) [] false = some (x, f) := by
      rw [hs]; exact hx
    refine ⟨_, updateHostNameArr_eq env st' x f hx', ?_, ?_, ?_⟩ <;> rw [h1]
  have hsame : st1.installOptions.hostNames = st.installOptions.hostNames := by rw [h1]
  refine ⟨?_, hagree, ?_⟩
  · have hx1 : parseLoop (splitWs (trim st1.installOptions.hostNames)) [] false = some (x, f) := by
      rw [hsame]; exact hx
    rw [updateHostNameArr_eq env st1 x f hx1, h1]
  · obtain ⟨st2, h2, ha, hb, _⟩ := hagree (hostNamePatternPopup st1 st1.hostNameArr) hsame
    obtain ⟨r, st3, tail, hp, hc, hd, _⟩ :=
      proceedNext_shape env (hostNamePatternPopup st1 st1.hostNameArr) st2 false h2
    refine ⟨st3, ?_, hc.trans ha, hd.trans hb⟩
    simp [hostNamePatternPopupOnPrimary, hp]

/-- C17, at the input `n[1-2] b` with `b` registered. -/
theorem C17_recompute_stable_witness :
    updateHostNameArr (sampleEnv ["b".toList] true JsVal.null)
        { initController "n[1-2] b".toList false with
          hostNameArr := ["n1".toList, "n2".toList], isPattern := true,
          inputtedAgainHostNames := ["b".toList] } =
      some { initController "n[1-2] b".toList false with
          hostNameArr := ["n1".toList, "n2".toList], isPattern := true,
          inputtedAgainHostNames := ["b".toList] } :=
  (C17_recompute_stable (sampleEnv ["b".toList] true JsVal.null)
    (initController "n[1-2] b".toList false)
    { initController "n[1-2] b".toList false with
      hostNameArr := ["n1".toList, "n2".toList], isPattern := true,
      inputtedAgainHostNames := ["b".toList] }
    (by decide)).1


/-! ## The invariant of the batch state -/

/-- C19 fails as stated: after a submit of `bad!!` (validated and found invalid) and a
second submit of `a b` with `a` registered, the controller holds the new host `b` while
`invalidHostNames` still holds `bad!!`. -/
theorem C19_counterexample :
    ∃ st, Reachable st ∧
      st.hostNameArr = ["b".toList] ∧
      st.inputtedAgainHostNames = ["a".toList] ∧
      st.invalidHostNames = ["bad!!".toList] ∧
      ¬ (∀ n ∈ st.invalidHostNames, n ∈ st.hostNameArr) := by
  have r0 := Reachable.init
    { hostNames := "bad!!".toList, manualInstall := true, sshKey := [], sshUser := [],
      bootRequestId := JsVal.null }
  have r1 := Reachable.evaluateStep (sampleEnv [] false JsVal.null) _
    { hostNameArr := ["bad!!".toList], isPattern := false, hasSubmitted := true,
      inputtedAgainHostNames := [], invalidHostNames := ["bad!!".toList], hostsError := none,
      installOptions :=
        { hostNames := "bad!!".toList, manualInstall := true, sshKey := [], sshUser := [],
          bootRequestId := JsVal.null },
      hosts := [],
      log := [Event.enterProceedNext false, Event.warningPopup "bad!!".toList] }
    true r0 (by decide)
  have r2 := Reachable.edit _
    { hostNames := "a b".toList, manualInstall := true, sshKey := [], sshUser := [],
      bootRequestId := JsVal.null } r1
  have r3 := Reachable.evaluateStep (sampleEnv ["a".toList] false JsVal.null) _
    { hostNameArr := ["b".toList], isPattern := false, hasSubmitted := true,
      inputtedAgainHostNames := ["a".toList], invalidHostNames := ["bad!!".toList],
      hostsError := none,
      installOptions :=
        { hostNames := "a b".toList, manualInstall := true, sshKey := [], sshUser := [],
          bootRequestId := JsVal.null },
      hosts := [],
      log := [Event.enterProceedNext false, Event.warningPopup "bad!!".toList,
        Event.installedHostsPopup "a".toList] }
    true r2 (by decide)
  exact ⟨_, r3, rfl, rfl, rfl, by decide⟩

/-- C19, amended: in every state reached from the controller as created by edits of the
form and calls of `evaluateStep` and `proceedNext` (any inputs, any registered names), no
name is both a new host and a re-entered host; and in the state a call of `proceedNext`
returns, every invalid host is a new host. -/
theorem C19_invariant (st : Controller) (h : Reachable st) :
    (∀ n, n ∈ st.hostNameArr → n ∉ st.inputtedAgainHostNames) ∧
    (∀ (env : Env) (wc r : Bool) (st' : Controller),
      proceedNext env st wc = some (r, st') →
      ∀ n ∈ st'.invalidHostNames, n ∈ st'.hostNameArr) := by
  constructor
  · induction h with
    | init opts => intro n hn; simp [initController] at hn
    | edit st opts _ ih =>
      intro n hn
      have h1 : (editInstallOptions st opts).hostNameArr = st.hostNameArr := by
        unfold editInstallOptions checkHostAfterSubmitHandler checkHostError
        split_ifs <;> rfl
      have h2 : (editInstallOptions st opts).inputtedAgainHostNames =
          st.inputtedAgainHostNames := by
        unfold editInstallOptions checkHostAfterSubmitHandler checkHostError
        split_ifs <;> rfl
      rw [h1] at hn
      rw [h2]
      exact ih n hn
    | evaluateStep env st st' r _ hev ih =>
      rcases evaluateStep_batch env st st' r hev with ⟨ha, hb⟩ | ⟨base, st1, hu, ha, hb⟩
      · intro n hn
        rw [ha] at hn
        rw [hb]
        exact ih n hn
      · intro n hn
        rw [ha] at hn
        rw [hb]
        exact updateHostNameArr_disjoint env base st1 hu n hn
    | proceedNext env st st' wc r _ hp _ =>
      obtain ⟨st1, h1⟩ := proceedNext_inv env st st' wc r hp
      obtain ⟨r2, st2, tail, hp2, ha, hb, _⟩ := proceedNext_shape env st st1 wc h1
      rw [hp] at hp2
      simp only [Option.some.injEq, Prod.mk.injEq] at hp2
      intro n hn
      rw [hp2.2, ha] at hn
      rw [hp2.2, hb]
      exact updateHostNameArr_disjoint env st st1 h1 n hn
  · intro env wc r st' hp n hn
    obtain ⟨st1, h1⟩ := proceedNext_inv env st st' wc r hp
    obtain ⟨r2, st2, tail, hp2, ha, _, _, hi, _⟩ := proceedNext_shape env st st1 wc h1
    rw [hp] at hp2
    simp only [Option.some.injEq, Prod.mk.injEq] at hp2
    rw [hp2.2, hi] at hn
    rw [hp2.2, ha]
    exact List.mem_of_mem_filter hn

/-- C19 amended, at the state reached by one submit of `bad!! a` with `a` registered. -/
theorem C19_invariant_witness :
    (∀ n, n ∈ ["bad!!".toList] → n ∉ ["a".toList]) ∧
    (∀ (env : Env) (wc r : Bool) (st' : Controller),
      proceedNext env
        { hostNameArr := ["bad!!".toList], isPattern := false, hasSubmitted := true,
          inputtedAgainHostNames := ["a".toList], invalidHostNames := [], hostsError := none,
          installOptions :=
            { hostNames := "bad!! a".toList, manualInstall := true, sshKey := [], sshUser := [],
              bootRequestId := JsVal.null },
          hosts := [], log := [Event.installedHostsPopup "a".toList] } wc = some (r, st') →
      ∀ n ∈ st'.invalidHostNames, n ∈ st'.hostNameArr) :=
  C19_invariant
    { hostNameArr := ["bad!!".toList], isPattern := false, hasSubmitted := true,
      inputtedAgainHostNames := ["a".toList], invalidHostNames := [], hostsError := none,
      installOptions :=
        { hostNames := "bad!! a".toList, manualInstall := true, sshKey := [], sshUser := [],
          bootRequestId := JsVal.null },
      hosts := [], log := [Event.installedHostsPopup "a".toList] }
    (Reachable.evaluateStep (sampleEnv ["a".toList] false JsVal.null) _ _ true
      (Reachable.init
        { hostNames := "bad!! a".toList, manualInstall := true, sshKey := [], sshUser := [],
          bootRequestId := JsVal.null })
      (by decide))


/-! ## The bootstrap payload -/

theorem hexVal_digitChar (d : Nat) (h : d < 16) : hexVal (Nat.digitChar d) = some d := by
  interval_cases d <;> decide

theorem readHex4_hex4 (n : Nat) (h : n < 32) :
    readHex4 (Nat.digitChar (n / 4096 % 16)) (Nat.digitChar (n / 256 % 16))
      (Nat.digitChar (n / 16 % 16)) (Nat.digitChar (n % 16)) = some (Char.ofNat n) := by
  interval_cases n <;> decide

theorem char_eq_of_toNat (c : Char) (n : Nat) (h : c.toNat = n) : Char.ofNat n = c := by
  rw [← h, Char.ofNat_toNat]

theorem readChars_escape (e x : Char) (rest s r : Str) (he : e ≠ 'u')
    (hx : readEscape e = some x) (h : readChars rest = some (s, r)) :
    readChars ('\\' :: e :: rest) = some (x :: s, r) := by
  rw [readChars.eq_def]
  simp only [if_neg he, hx, h, show ¬ ('\\' = '"') by decide, if_false, if_true]

theorem readChars_hex (n : Nat) (hn : n < 32) (rest s r : Str)
    (h : readChars rest = some (s, r)) :
    readChars ('\\' :: 'u' :: (hex4 n ++ rest)) = some (Char.ofNat n :: s, r) := by
  rw [readChars.eq_def]
  simp only [hex4, List.cons_append, List.nil_append, readHex4_hex4 n hn, h,
    show ¬ ('\\' = '"') by decide, if_false, if_true]

/-- The reader undoes the escape of one character. -/
theorem readChars_jsonEscape (c : Char) (rest s r : Str) (h : readChars rest = some (s, r)) :
    readChars (jsonEscape c ++ rest) = some (c :: s, r) := by
  unfold jsonEscape
  split_ifs with h1 h2 h3 h4 h5 h6 h7 h8
  · subst h1
    exact readChars_escape '"' '"' rest s r (by decide) rfl h
  · subst h2
    exact readChars_escape '\\' '\\' rest s r (by decide) rfl h
  · have := readChars_escape 'b' (Char.ofNat 8) rest s r (by decide) rfl h
    rwa [char_eq_of_toNat c 8 h3] at this
  · have := readChars_escape 'f' (Char.ofNat 12) rest s r (by decide) rfl h
    rwa [char_eq_of_toNat c 12 h4] at this
  · have := readChars_escape 'n' (Char.ofNat 10) rest s r (by decide) rfl h
    rwa [char_eq_of_toNat c 10 h5] at this
  · have := readChars_escape 'r' (Char.ofNat 13) rest s r (by decide) rfl h
    rwa [char_eq_of_toNat c 13 h6] at this
  · have := readChars_escape 't' (Char.ofNat 9) rest s r (by decide) rfl h
    rwa [char_eq_of_toNat c 9 h7] at this
  · have := readChars_hex c.toNat h8 rest s r h
    rwa [char_eq_of_toNat c c.toNat rfl] at this
  · rw [List.singleton_append, readChars.eq_def]
    simp only [if_neg h1, if_neg h2, if_neg h8, h]

/-- The reader undoes `JSON.stringify` on the characters of a string. -/
theorem readChars_flatMap (s rest : Str) :
    readChars (s.flatMap jsonEscape ++ '"' :: rest) = some (s, rest) := by
  induction s with
  | nil =>
    rw [List.flatMap_nil, List.nil_append, readChars.eq_def]
    simp only [if_true]
  | cons c t ih =>
    rw [List.flatMap_cons, List.append_assoc]
    exact readChars_jsonEscape c _ t rest ih

/-- The reader undoes `JSON.stringify` on a string. -/
theorem readString_jsonString (s rest : Str) :
    readString (jsonString s ++ rest) = some (s, rest) := by
  unfold jsonString
  rw [List.cons_append, readString, if_pos rfl, List.append_assoc]
  exact readChars_flatMap s rest

theorem join_comma_cons (x : Str) (ys : List Str) :
    join [','] (x :: ys) = x ++ ys.flatMap (fun y => ',' :: y) := by
  induction ys generalizing x with
  | nil => simp [join]
  | cons y rest ih =>
    rw [join, ih y]
    simp

theorem length_flatMap_comma (ys : List Str) :
    ys.length ≤ (ys.flatMap (fun y => ',' :: y)).length := by
  induction ys with
  | nil => simp
  | cons y rest ih =>
    rw [List.flatMap_cons, List.length_append, List.length_cons, List.length_cons]
    omega

/-- The reader undoes `JSON.stringify` on the elements of an array after the first. -/
theorem readElems_tail (xs : List Str) (rest : Str) :
    ∀ fuel, xs.length < fuel →
      readElems fuel ((xs.map jsonString).flatMap (fun y => ',' :: y) ++ ']' :: rest) =
        some (xs, rest) := by
  induction xs with
  | nil =>
    intro fuel hf
    obtain ⟨f, rfl⟩ : ∃ f, fuel = f + 1 := ⟨fuel - 1, by simp at hf; omega⟩
    simp [readElems]
  | cons x t ih =>
    intro fuel hf
    obtain ⟨f, rfl⟩ : ∃ f, fuel = f + 1 := ⟨fuel - 1, by omega⟩
    simp only [List.map_cons, List.flatMap_cons, List.cons_append, List.append_assoc]
    rw [readElems, if_neg (by decide), if_pos rfl, readString_jsonString]
    simp only
    rw [ih f (by simp at hf; omega)]

/-- The reader undoes `JSON.stringify` on an array of strings. -/
theorem readArray_jsonArray (xs : List Str) (rest : Str) :
    readArray (jsonArray xs ++ rest) = some (xs, rest) := by
  cases xs with
  | nil =>
    rw [readArray.eq_def]
    simp [jsonArray, join]
  | cons x t =>
    have hlen : t.length <
        ((t.map jsonString).flatMap (fun y => ',' :: y) ++ ']' :: rest).length + 1 := by
      have := length_flatMap_comma (t.map jsonString)
      simp only [List.length_map] at this
      simp only [List.length_append, List.length_cons]
      omega
    have hs := readString_jsonString x
      ((t.map jsonString).flatMap (fun y => ',' :: y) ++ ']' :: rest)
    have he := readElems_tail t rest _ hlen
    have hq : jsonArray (x :: t) ++ rest =
        '[' :: '"' :: (x.flatMap jsonEscape ++ '"' ::
          ((t.map jsonString).flatMap (fun y => ',' :: y) ++ ']' :: rest)) := by
      simp [jsonArray, join_comma_cons, jsonString]
    have hq2 : jsonString x ++ ((t.map jsonString).flatMap (fun y => ',' :: y) ++ ']' :: rest) =
        '"' :: (x.flatMap jsonEscape ++ '"' ::
          ((t.map jsonString).flatMap (fun y => ',' :: y) ++ ']' :: rest)) := by
      simp [jsonString]
    rw [hq2] at hs
    rw [hq, readArray.eq_def]
    simp only [if_true, if_neg (show ¬ ('"' = ']') by decide), hs, he]

theorem readValue_true (rest : Str) :
    readValue ("true".toList ++ rest) = some (JsonValue.bool true, rest) := by
  simp [readValue]

theorem readValue_string (s rest : Str) :
    readValue (jsonString s ++ rest) = some (JsonValue.string s, rest) := by
  have h := readChars_flatMap s rest
  have hq : jsonString s ++ rest = '"' :: (s.flatMap jsonEscape ++ '"' :: rest) := by
    simp [jsonString]
  rw [hq]
  simp [readValue, h]

theorem readValue_array (xs : List Str) (rest : Str) :
    readValue (jsonArray xs ++ rest) = some (JsonValue.strings xs, rest) := by
  have h := readArray_jsonArray xs rest
  have hq : jsonArray xs ++ rest = '[' :: (join [','] (xs.map jsonString) ++ ']' :: rest) := by
    simp [jsonArray]
  rw [hq] at h ⊢
  simp [readValue, h]

/-- The reader on a member whose key is written by `JSON.stringify`. -/
theorem readMember_key (k rest : Str) (v : JsonValue) (r : Str)
    (hv : readValue rest = some (v, r)) :
    readMember (jsonString k ++ ':' :: rest) = some ((k, v), r) := by
  unfold readMember
  rw [readString_jsonString]
  simp [hv]

theorem readMembers_next (fuel : Nat) (t : Str) (m : Str × JsonValue) (r : Str)
    (ms : List (Str × JsonValue)) (r' : Str)
    (hm : readMember t = some (m, r)) (hr : readMembers fuel r = some (ms, r')) :
    readMembers (fuel + 1) (',' :: t) = some (m :: ms, r') := by
  rw [readMembers, if_neg (by decide), if_pos rfl, hm]
  simp only [hr]

theorem readMembers_end (fuel : Nat) (t : Str) :
    readMembers (fuel + 1) ('\x7d' :: t) = some ([], t) := by
  rw [readMembers, if_pos rfl]

/-- Read back, the payload is the object with the members `verbose`, `sshKey`, `hosts`
and `user`, in this order, that hold `true`, the ssh key, the new hosts and the ssh
user. -/
theorem readObject_bootStrapData (st : Controller) :
    readObject (bootStrapData st) =
      some [("verbose".toList, JsonValue.bool true),
            ("sshKey".toList, JsonValue.string st.installOptions.sshKey),
            ("hosts".toList, JsonValue.strings st.hostNameArr),
            ("user".toList, JsonValue.string st.installOptions.sshUser)] := by
  have h4 : ∀ f, readMembers (f + 2)
      (',' :: (jsonString "user".toList ++ ':' ::
        (jsonString st.installOptions.sshUser ++ ['\x7d']))) =
      some ([("user".toList, JsonValue.string st.installOptions.sshUser)], []) := fun f =>
    readMembers_next (f + 1) _ _ _ _ _
      (readMember_key "user".toList _ _ _ (readValue_string st.installOptions.sshUser _))
      (readMembers_end f [])
  have h3 : ∀ f, readMembers (f + 3)
      (',' :: (jsonString "hosts".toList ++ ':' :: (jsonArray st.hostNameArr ++
        (',' :: (jsonString "user".toList ++ ':' ::
          (jsonString st.installOptions.sshUser ++ ['\x7d'])))))) =
      some ([("hosts".toList, JsonValue.strings st.hostNameArr),
        ("user".toList, JsonValue.string st.installOptions.sshUser)], []) := fun f =>
    readMembers_next (f + 2) _ _ _ _ _
      (readMember_key "hosts".toList _ _ _ (readValue_array st.hostNameArr _)) (h4 f)
  have h2 : ∀ f, readMembers (f + 4)
      (',' :: (jsonString "sshKey".toList ++ ':' :: (jsonString st.installOptions.sshKey ++
        (',' :: (jsonString "hosts".toList ++ ':' :: (jsonArray st.hostNameArr ++
          (',' :: (jsonString "user".toList ++ ':' ::
            (jsonString st.installOptions.sshUser ++ ['\x7d'])))))))))  =
      some ([("sshKey".toList, JsonValue.string st.installOptions.sshKey),
        ("hosts".toList, JsonValue.strings st.hostNameArr),
        ("user".toList, JsonValue.string st.installOptions.sshUser)], []) := fun f =>
    readMembers_next (f + 3) _ _ _ _ _
      (readMember_key "sshKey".toList _ _ _ (readValue_string st.installOptions.sshKey _)) (h3 f)
  have h1 := readMember_key "verbose".toList _ _ _
    (readValue_true
      (',' :: (jsonString "sshKey".toList ++ ':' :: (jsonString st.installOptions.sshKey ++
        (',' :: (jsonString "hosts".toList ++ ':' :: (jsonArray st.hostNameArr ++
          (',' :: (jsonString "user".toList ++ ':' ::
            (jsonString st.installOptions.sshUser ++ ['\x7d']))))))))))
  have e1 : jsonString "verbose".toList = "\"verbose\"".toList := by decide
  have e2 : jsonString "sshKey".toList = "\"sshKey\"".toList := by decide
  have e3 : jsonString "hosts".toList = "\"hosts\"".toList := by decide
  have e4 : jsonString "user".toList = "\"user\"".toList := by decide
  rw [e1] at h1
  rw [e2] at h1 h2
  rw [e3] at h1 h2
  rw [e4] at h1 h2
  have hq : bootStrapData st = '\x7b' :: ("\"verbose\"".toList ++ ':' :: ("true".toList ++
      (',' :: ("\"sshKey\"".toList ++ ':' :: (jsonString st.installOptions.sshKey ++
        (',' :: ("\"hosts\"".toList ++ ':' :: (jsonArray st.hostNameArr ++
          (',' :: ("\"user\"".toList ++ ':' ::
            (jsonString st.installOptions.sshUser ++ ['\x7d']))))))))))) := by
    simp [bootStrapData]
  rw [hq, readObject.eq_def]
  simp only [String.toList, List.cons_append, List.nil_append] at h1 h2 ⊢
  simp only [if_true, if_neg (show ¬ ('"' = '\x7d') by decide), h1, List.length_cons]
  rw [h2]

/-- Every request `proceedNext` sends carries the text built from the batch. -/
theorem proceedNext_payload (env : Env) (st st1 : Controller) (wc : Bool)
    (hu : updateHostNameArr env st = some st1) :
    ∃ r st' tail,
      proceedNext env st wc = some (r, st') ∧
      st'.log = st.log ++ Event.enterProceedNext wc :: tail ∧
      (∀ d, Event.launchBootstrap d ∈ tail → d = bootStrapData st1) ∧
      (∀ n ∈ st'.invalidHostNames, n ∈ st1.hostNameArr) := by
  have hb : bootStrapData { st1 with
      invalidHostNames := st1.hostNameArr.filter (fun n => !env.isHostname n),
      log := st.log ++ [Event.enterProceedNext wc] } = bootStrapData st1 := rfl
  have hinv : ∀ n ∈ st1.hostNameArr.filter (fun n => !env.isHostname n), n ∈ st1.hostNameArr :=
    fun n hn => List.mem_of_mem_filter hn
  rw [proceedNext_eq env st st1 wc hu]
  simp only [hb]
  split_ifs
  · exact ⟨_, _, [_], rfl, List.append_assoc _ _ _, by simp, hinv⟩
  · exact ⟨_, _, [_], rfl, List.append_assoc _ _ _, by simp, hinv⟩
  · exact ⟨_, _, [_, _], rfl, List.append_assoc _ _ _, by simp, hinv⟩
  · exact ⟨_, _, [_, _], rfl, by simp only [List.append_assoc]; rfl, by simp, hinv⟩
  · exact ⟨_, _, [_, _, _], rfl, by simp only [saveHosts, List.append_assoc]; rfl, by simp, hinv⟩
  · exact ⟨_, _, [_], rfl, by simp only [List.append_assoc]; rfl, by simp, hinv⟩

/-- C16: every bootstrap request `proceedNext` sends carries a text that, read as JSON, is
the object with exactly the members `verbose` (true), `sshKey`, `hosts`, `user`, in this
order, where `sshKey` and `user` are the credentials entered and `hosts` is the whole
`hostNameArr`: the expanded names that are not registered, in order and with
repetitions, the names that failed validation included. -/
theorem C16_payload (env : Env) (st st1 : Controller) (wc : Bool)
    (hu : updateHostNameArr env st = some st1) :
    ∃ r st' tail,
      proceedNext env st wc = some (r, st') ∧
      st'.log = st.log ++ Event.enterProceedNext wc :: tail ∧
      (∀ d, Event.launchBootstrap d ∈ tail →
        readObject d = some
          [("verbose".toList, JsonValue.bool true),
           ("sshKey".toList, JsonValue.string st.installOptions.sshKey),
           ("hosts".toList, JsonValue.strings st1.hostNameArr),
           ("user".toList, JsonValue.string st.installOptions.sshUser)]) ∧
      st'.hostNameArr = st1.hostNameArr ∧
      (∀ n ∈ st1.hostNameArr, n ∉ env.installedHostNames) ∧
      (∃ x f, parseLoop (splitWs (trim st.installOptions.hostNames)) [] false = some (x, f) ∧
        st1.hostNameArr = x.filter (fun n => decide (n ∉ env.installedHostNames))) ∧
      (∀ n ∈ st'.invalidHostNames, n ∈ st1.hostNameArr) := by
  obtain ⟨x, f, hx⟩ := updateHostNameArr_inv env st st1 hu
  have h1 := updateHostNameArr_eq env st x f hx
  rw [hu] at h1
  simp only [Option.some.injEq] at h1
  obtain ⟨r, st', tail, hp, hl, hd, hi⟩ := proceedNext_payload env st st1 wc hu
  obtain ⟨r2, st2, tail2, hp2, ha, _⟩ := proceedNext_shape env st st1 wc hu
  rw [hp] at hp2
  simp only [Option.some.injEq, Prod.mk.injEq] at hp2
  refine ⟨r, st', tail, hp, hl, ?_, ?_, ?_, ⟨x, f, hx, by rw [h1]⟩, hi⟩
  · intro d hdm
    rw [hd d hdm, readObject_bootStrapData, h1]
  · rw [hp2.2]; exact ha
  · intro n hn
    rw [h1] at hn
    simp only [List.mem_filter, decide_eq_true_eq] at hn
    exact hn.2

/-- C16, at the input `a a bad!! b` with `b` registered and the warning confirmed. -/
theorem C16_payload_witness :
    ∃ r st' tail,
      proceedNext (sampleEnv ["b".toList] false (JsVal.num 7))
        (initController "a a bad!! b".toList false) true = some (r, st') ∧
      st'.log = (initController "a a bad!! b".toList false).log ++
        Event.enterProceedNext true :: tail ∧
      (∀ d, Event.launchBootstrap d ∈ tail →
        readObject d = some
          [("verbose".toList, JsonValue.bool true),
           ("sshKey".toList, JsonValue.string "key".toList),
           ("hosts".toList, JsonValue.strings ["a".toList, "a".toList, "bad!!".toList]),
           ("user".toList, JsonValue.string "root".toList)]) ∧
      st'.hostNameArr = ["a".toList, "a".toList, "bad!!".toList] ∧
      (∀ n ∈ ["a".toList, "a".toList, "bad!!".toList], n ∉ ["b".toList]) ∧
      (∃ x f, parseLoop (splitWs (trim "a a bad!! b".toList)) [] false = some (x, f) ∧
        ["a".toList, "a".toList, "bad!!".toList] =
          x.filter (fun n => decide (n ∉ ["b".toList]))) ∧
      (∀ n ∈ st'.invalidHostNames, n ∈ ["a".toList, "a".toList, "bad!!".toList]) :=
  C16_payload (sampleEnv ["b".toList] false (JsVal.num 7))
    (initController "a a bad!! b".toList false)
    { initController "a a bad!! b".toList false with
      hostNameArr := ["a".toList, "a".toList, "bad!!".toList],
      inputtedAgainHostNames := ["b".toList] }
    true (by decide)

/-- The request of the example of C16 evaluated: one request is sent, with this text. -/
theorem proceedNext_payload_example :
    (proceedNext (sampleEnv ["b".toList] false (JsVal.num 7))
        (initController "a a bad!! b".toList false) true).map (fun r => r.2.log) =
      some [Event.enterProceedNext true,
        Event.launchBootstrap
          "\x7b\"verbose\":true,\"sshKey\":\"key\",\"hosts\":[\"a\",\"a\",\"bad!!\"],\"user\":\"root\"\x7d".toList,
        Event.ajaxAmbariService, Event.routerNext] := by
  decide

/-- A payload with characters that need an escape, written and read back. -/
theorem bootStrapData_escape_example :
    bootStrapData { initController [] false with
        hostNameArr := ["a\"b\\c\n".toList],
        installOptions :=
          { hostNames := [], manualInstall := false, sshKey := "k\x01".toList,
            sshUser := "root".toList, bootRequestId := JsVal.null } } =
      "\x7b\"verbose\":true,\"sshKey\":\"k\\u0001\",\"hosts\":[\"a\\\"b\\\\c\\n\"],\"user\":\"root\"\x7d".toList ∧
    readObject
      "\x7b\"verbose\":true,\"sshKey\":\"k\\u0001\",\"hosts\":[\"a\\\"b\\\\c\\n\"],\"user\":\"root\"\x7d".toList =
      some [("verbose".toList, JsonValue.bool true),
        ("sshKey".toList, JsonValue.string "k\x01".toList),
        ("hosts".toList, JsonValue.strings ["a\"b\\c\n".toList]),
        ("user".toList, JsonValue.string "root".toList)] := by
  decide

/-! ## The host records -/

/-- C15: at the host name `__proto__` the code builds no record: the assignment
`hostInfo['__proto__'] = ...` creates no own property, so the key set of the returned
object is empty (and, with other names around it, misses that name). -/
theorem C15_proto_key :
    getHostInfo { initController [] false with hostNameArr := ["__proto__".toList] } = [] ∧
    (getHostInfo { initController [] true with
        hostNameArr := ["a".toList, "__proto__".toList, "a".toList] }).map Prod.fst =
      ["a".toList] ∧
    getHostInfo { initController [] true with hostNameArr := ["a".toList, "a".toList] } =
      [("a".toList,
        { name := "a".toList, installType := "manualDriven".toList,
          bootStatus := "PENDING".toList })] := by
  decide

/-- The order of the own properties: of the names `08`, `09`, `10`, `11`, the array
indices `10` and `11` come first. -/
theorem getHostInfo_order_example :
    (getHostInfo { initController [] false with
        hostNameArr := ["08".toList, "09".toList, "10".toList, "11".toList] }).map Prod.fst =
      ["10".toList, "11".toList, "08".toList, "09".toList] := by
  decide


/-! ## The host records on names other than `__proto__` -/

theorem objSet_proto (o : List (Str × HostRecord)) (v : HostRecord) :
    objSet o "__proto__".toList v = o := by
  unfold objSet
  rw [if_pos rfl]

theorem objSet_map_keys (o : List (Str × HostRecord)) (k : Str) (v : HostRecord) :
    (o.map (fun p => if p.1 = k then (k, v) else p)).map Prod.fst = o.map Prod.fst := by
  rw [List.map_map]
  apply List.map_congr_left
  intro p _
  simp only [Function.comp]
  split_ifs with h
  · exact h.symm
  · rfl

/-- A new array-index key is put among the properties that were there. -/
theorem insertIndex_perm (o : List (Str × HostRecord)) (k : Str) (v : HostRecord) :
    (insertIndex o k v).Perm ((k, v) :: o) := by
  induction o with
  | nil => exact List.Perm.refl _
  | cons p rest ih =>
    rw [insertIndex]
    split_ifs
    · exact (List.Perm.cons p ih).trans (List.Perm.swap _ _ _)
    · exact List.Perm.refl _

/-- The keys after an assignment, up to their order. -/
theorem objSet_keys_perm (o : List (Str × HostRecord)) (k : Str) (v : HostRecord)
    (hk : k ≠ "__proto__".toList) :
    ((objSet o k v).map Prod.fst).Perm
      (if k ∈ o.map Prod.fst then o.map Prod.fst else k :: o.map Prod.fst) := by
  by_cases hm : k ∈ o.map Prod.fst
  · rw [if_pos hm]
    unfold objSet
    rw [if_neg hk]
    have : (o.any fun p => decide (p.1 = k)) = true := by
      rw [List.any_eq_true]
      obtain ⟨p, hp, hpk⟩ := List.mem_map.1 hm
      exact ⟨p, hp, by simpa using hpk⟩
    rw [this, if_pos rfl, objSet_map_keys o k v]
  · rw [if_neg hm]
    unfold objSet
    rw [if_neg hk]
    have : (o.any fun p => decide (p.1 = k)) = false := by
      rw [List.any_eq_false]
      intro p hp
      simp only [decide_eq_true_eq]
      intro hpk
      exact hm (List.mem_map.2 ⟨p, hp, hpk⟩)
    rw [this]
    simp only [Bool.false_eq_true, if_false]
    split_ifs
    · exact (insertIndex_perm o k v).map Prod.fst
    · rw [List.map_append]
      exact List.perm_append_comm

theorem objSet_records (rec : Str → HostRecord) (o : List (Str × HostRecord)) (k : Str)
    (ho : ∀ p ∈ o, p.2 = rec p.1) : ∀ p ∈ objSet o k (rec k), p.2 = rec p.1 := by
  unfold objSet
  split_ifs
  · exact ho
  · intro p hp
    obtain ⟨q, hq, hqp⟩ := List.mem_map.1 hp
    split_ifs at hqp with h
    · rw [← hqp]
    · rw [← hqp]
      exact ho q hq
  · intro p hp
    rcases List.mem_cons.1 ((insertIndex_perm o k (rec k)).mem_iff.1 hp) with h | h
    · rw [h]
    · exact ho p h
  · intro p hp
    rcases List.mem_append.1 hp with h | h
    · exact ho p h
    · rw [List.mem_singleton] at h
      rw [h]

theorem foldl_objSet_spec (rec : Str → HostRecord) (l : List Str)
    (o : List (Str × HostRecord)) (hnd : (o.map Prod.fst).Nodup)
    (ho : ∀ p ∈ o, p.2 = rec p.1) :
    (∀ k, k ∈ (l.foldl (fun hostInfo h => objSet hostInfo h (rec h)) o).map Prod.fst ↔
      (k ∈ o.map Prod.fst ∨ (k ∈ l ∧ k ≠ "__proto__".toList))) ∧
    ((l.foldl (fun hostInfo h => objSet hostInfo h (rec h)) o).map Prod.fst).Nodup ∧
    (∀ p ∈ l.foldl (fun hostInfo h => objSet hostInfo h (rec h)) o, p.2 = rec p.1) := by
  induction l generalizing o with
  | nil =>
    exact ⟨fun k => by
      simp only [List.foldl_nil, List.not_mem_nil, false_and, or_false], hnd, ho⟩
  | cons a t ih =>
    rw [List.foldl_cons]
    by_cases ha : a = "__proto__".toList
    · rw [ha, objSet_proto]
      obtain ⟨h1, h2, h3⟩ := ih o hnd ho
      refine ⟨fun k => ?_, h2, h3⟩
      rw [h1 k]
      constructor
      · rintro (h | ⟨h, hne⟩)
        · exact Or.inl h
        · exact Or.inr ⟨List.mem_cons_of_mem _ h, hne⟩
      · rintro (h | ⟨h, hne⟩)
        · exact Or.inl h
        · rcases List.mem_cons.1 h with h | h
          · exact absurd h hne
          · exact Or.inr ⟨h, hne⟩
    · have hk := objSet_keys_perm o a (rec a) ha
      have hmem : ∀ k, k ∈ (objSet o a (rec a)).map Prod.fst ↔ (k = a ∨ k ∈ o.map Prod.fst) := by
        intro k
        rw [hk.mem_iff]
        split_ifs with hm
        · constructor
          · exact Or.inr
          · rintro (h | h)
            · exact h ▸ hm
            · exact h
        · exact List.mem_cons
      have hnd' : ((objSet o a (rec a)).map Prod.fst).Nodup := by
        rw [hk.nodup_iff]
        split_ifs with hm
        · exact hnd
        · exact List.nodup_cons.2 ⟨hm, hnd⟩
      obtain ⟨h1, h2, h3⟩ := ih (objSet o a (rec a)) hnd' (objSet_records rec o a ho)
      refine ⟨fun k => ?_, h2, h3⟩
      rw [h1 k, hmem k]
      constructor
      · rintro ((h | h) | ⟨h, hne⟩)
        · exact Or.inr ⟨h ▸ List.mem_cons_self _ _, h ▸ ha⟩
        · exact Or.inl h
        · exact Or.inr ⟨List.mem_cons_of_mem _ h, hne⟩
      · rintro (h | ⟨h, hne⟩)
        · exact Or.inl (Or.inr h)
        · rcases List.mem_cons.1 h with h | h
          · exact Or.inl (Or.inl h)
          · exact Or.inr ⟨h, hne⟩

/-- Apart from the name `__proto__`, `getHostInfo` builds one record per distinct name
of `hostNameArr`, with the name as key, the install type of the controller and the boot
status `PENDING`. -/
theorem getHostInfo_spec (st : Controller) :
    (∀ k, k ∈ (getHostInfo st).map Prod.fst ↔
      (k ∈ st.hostNameArr ∧ k ≠ "__proto__".toList)) ∧
    ((getHostInfo st).map Prod.fst).Nodup ∧
    (∀ p ∈ getHostInfo st,
      p.2 = { name := p.1, installType := installType st, bootStatus := "PENDING".toList }) := by
  obtain ⟨h1, h2, h3⟩ := foldl_objSet_spec
    (fun h => { name := h, installType := installType st, bootStatus := "PENDING".toList })
    st.hostNameArr [] List.nodup_nil (fun p hp => absurd hp (List.not_mem_nil p))
  refine ⟨fun k => ?_, h2, h3⟩
  have := h1 k
  simp only [List.map_nil, List.not_mem_nil, false_or] at this
  exact this

/-- On names that are pairwise distinct and none of which is `__proto__`, `getHostInfo`
builds one record per name: its keys are the names, in the order of enumeration. -/
theorem getHostInfo_keys_perm (st : Controller) (hnd : st.hostNameArr.Nodup)
    (hp : "__proto__".toList ∉ st.hostNameArr) :
    ((getHostInfo st).map Prod.fst).Perm st.hostNameArr := by
  obtain ⟨h1, h2, _⟩ := getHostInfo_spec st
  rw [List.perm_ext_iff_of_nodup h2 hnd]
  intro k
  rw [h1 k]
  constructor
  · exact fun h => h.1
  · exact fun h => ⟨h, fun hk => hp (hk ▸ h)⟩


/-! ## Distinct names of an expansion -/

theorem numeral_injective (s : Str) (i j : Nat) (hi : i < 2 ^ 53) (hj : j < 2 ^ 53)
    (h : numeral (extraOf s) s (Num.fin (i : Int)) = numeral (extraOf s) s (Num.fin (j : Int))) :
    i = j := by
  rw [← decValue_numeral s i hi, ← decValue_numeral s j hj, h]

theorem numeral_has_digit (s : Str) (i : Nat) (hi : i < 2 ^ 53) :
    ∃ c, c ∈ numeral (extraOf s) s (Num.fin (i : Int)) ∧ isDigit c = true := by
  cases hn : decimalDigits i with
  | nil => exact absurd hn (decimalDigits_ne_nil i)
  | cons c t =>
    refine ⟨c, ?_, decimalDigits_digits i c (by rw [hn]; exact List.mem_cons_self _ _)⟩
    rw [numeral_small _ _ i hi, hn]
    simp

/-- C20, as it fails: `n[9007199254740991-9007199254740992]` is a valid range token of
two indices, and its expansion has one name, of which `getHostInfo` builds one record. -/
theorem C20_counterexample :
    decValue "9007199254740991".toList ≤ decValue "9007199254740992".toList ∧
    decValue "9007199254740992".toList - decValue "9007199254740991".toList + 1 = 2 ∧
    expandToken (rangeToken "n".toList "9007199254740991".toList "9007199254740992".toList []) =
      some (["n9007199254740991".toList], true) ∧
    (getHostInfo { initController [] false with
      hostNameArr := ["n9007199254740991".toList] }).length = 1 := by
  decide

/-- C20, amended: the names a valid range token `P[s-e]Q` with `int(e) < 2 ^ 53` expands
to are pairwise distinct, so they are as many distinct hosts as the range has indices,
and `getHostInfo` builds exactly one record for each of them: its keys are the names, in
the order JavaScript enumerates them. -/
theorem C20_distinct_names (st : Controller) (P s e Q : Str)
    (hP : ∀ c ∈ P, c ≠ '[' ∧ c ≠ ']') (hs : AllDigits s) (he : AllDigits e)
    (hsn : s ≠ []) (hen : e ≠ []) (hle : decValue s ≤ decValue e)
    (hb : decValue e < 2 ^ 53) :
    ∃ names,
      expandToken (rangeToken P s e Q) = some (names, true) ∧
      names.Nodup ∧
      names.length = decValue e - decValue s + 1 ∧
      ((getHostInfo { st with hostNameArr := names }).map Prod.fst).Perm names ∧
      (getHostInfo { st with hostNameArr := names }).length = decValue e - decValue s + 1 := by
  have hrange : ∀ i ∈ List.range' (decValue s) (decValue e + 1 - decValue s), i < 2 ^ 53 := by
    intro i hi
    rw [List.mem_range'_1] at hi
    omega
  have hnd : ((List.range' (decValue s) (decValue e + 1 - decValue s)).map
      (fun (i : Nat) => P ++ numeral (extraOf s) s (Num.fin (i : Int)) ++ Q)).Nodup := by
    rw [List.nodup_map_iff_inj_on (List.nodup_range' _ _ 1 (by decide))]
    intro i hi j hj hij
    simp only [List.append_assoc] at hij
    have h1 := List.append_cancel_left hij
    exact numeral_injective s i j (hrange i hi) (hrange j hj) (List.append_cancel_right h1)
  have hproto : "__proto__".toList ∉ (List.range' (decValue s) (decValue e + 1 - decValue s)).map
      (fun (i : Nat) => P ++ numeral (extraOf s) s (Num.fin (i : Int)) ++ Q) := by
    intro hm
    obtain ⟨i, hi, hi2⟩ := List.mem_map.1 hm
    obtain ⟨c, hc, hd⟩ := numeral_has_digit s i (hrange i hi)
    have hmem : c ∈ "__proto__".toList := by
      rw [← hi2]
      simp [hc]
    have hno : ∀ d ∈ "__proto__".toList, isDigit d = false := by decide
    rw [hno c hmem] at hd
    exact absurd hd (by simp)
  have hlen : ((List.range' (decValue s) (decValue e + 1 - decValue s)).map
      (fun (i : Nat) => P ++ numeral (extraOf s) s (Num.fin (i : Int)) ++ Q)).length =
      decValue e - decValue s + 1 := by
    simp only [List.length_map, List.length_range']
    omega
  have hkeys := getHostInfo_keys_perm
    { st with hostNameArr := ((List.range' (decValue s) (decValue e + 1 - decValue s)).map
      (fun (i : Nat) => P ++ numeral (extraOf s) s (Num.fin (i : Int)) ++ Q)) } hnd hproto
  refine ⟨_, expandToken_valid P s e Q hP hs he hsn hen hle hb, hnd, hlen, hkeys, ?_⟩
  rw [← List.length_map (getHostInfo _) Prod.fst, hkeys.length_eq]
  exact hlen

/-- C20, at the token `[08-11]`, whose names are `08`, `09`, `10`, `11`. -/
theorem C20_distinct_names_witness :
    ∃ names,
      expandToken (rangeToken [] "08".toList "11".toList []) = some (names, true) ∧
      names.Nodup ∧
      names.length = decValue "11".toList - decValue "08".toList + 1 ∧
      ((getHostInfo { initController [] false with hostNameArr := names }).map Prod.fst).Perm
        names ∧
      (getHostInfo { initController [] false with hostNameArr := names }).length =
        decValue "11".toList - decValue "08".toList + 1 :=
  C20_distinct_names (initController [] false) [] "08".toList "11".toList []
    (by decide) (by unfold AllDigits; decide) (by unfold AllDigits; decide)
    (by decide) (by decide) (by decide) (by decide)

end Step2
